import Mathlib

/-!
# newacorn/wx: routing engine and session token helpers

A shallow embedding of the handler-chain protocol of `fasthttp-routing`
(`context.go`, `router.go`), of the path-template compiler (`route.go`), of the
error type (`error.go`), of the session token checksum
(`helpers/utilcrypt/utils.go`, `middleware/session/data.go`) and of the session
middleware (`middleware/session/data.go`, `manager.go`, `scs.go`,
`jsonCodec.go`), of the CSRF check (`middleware/csrf/verifyCsrfToken.go`), of
the pooled fields of the context (`context.go`), of `getGroupPath`
(`helpers.go`), of `quickSort` (`helpers/algo/quickSort.go`), of the reverse
URL builders `URLByIndex` and `URLByNames` (`route.go`), of the Redis store
(`middleware/session/redisstore/redisstore.go`) and of `SplitIpAndPort`
(`helpers/utilnet/ip.go`), followed by the theorems proved about them.

Conventions.
* Go `int` values that can be negative (`Ctx.index`, the scanner's `start`
  and `end`) are `Int`; lengths and slice bounds are `Nat`.
* A Go `string` is a byte sequence. Route paths are embedded as `List Char`;
  the scanners only compare against the ASCII bytes `<`, `>`, `:` and `*`, which
  never occur inside a multi-byte UTF-8 sequence, so scanning characters and
  scanning bytes agree on valid UTF-8 text.
* A result of `none` stands for a Go panic (or, for the handler loop, for an
  exhausted fuel budget).
* The session store and the codec are parameters; the outcome of a read of
  `rand.Reader` is an argument (`none` when the read fails). The Redis client
  and the regular-expression matcher are parameters as well.
-/

namespace Wx

/-! ## Handler chain (`context.go`) -/

/-- The observable behaviour of a `Handler func(*Ctx) error` with respect to its
`Ctx`: it may return (`ret`), call `c.Abort()` and go on, call `c.Next()` and go
on according to the error that call returned, read the rest of the context
(`get`) or overwrite it (`put`). -/
inductive Handler (ε σ : Type) where
  | ret : Option ε → Handler ε σ
  | abort : Handler ε σ → Handler ε σ
  | next : (Option ε → Handler ε σ) → Handler ε σ
  | get : (σ → Handler ε σ) → Handler ε σ
  | put : σ → Handler ε σ → Handler ε σ

/-- Ghost events: `call i` is logged when `handlers[i]` is invoked by the loop of
`Next`, `ret i r` when that invocation returns `r`. -/
inductive Event (ε : Type) where
  | call : Nat → Event ε
  | ret : Nat → Option ε → Event ε
  deriving DecidableEq

/-- The part of `Ctx` the chain protocol works on: `index`, every other field
(`st`), and the ghost event log. The `handlers` slice is passed separately. -/
structure Ctx (ε σ : Type) where
  index : Int
  st : σ
  trace : List (Event ε)

/-- `Ctx.Abort`: `c.index = len(c.handlers)`. -/
def Ctx.Abort (n : Nat) (c : Ctx ε σ) : Ctx ε σ :=
  { c with index := (n : Int) }

/-- Runs the body of one handler. `nextFn` is what a call of `c.Next()` does. -/
def runHandler (n : Nat) (nextFn : Ctx ε σ → Option (Option ε × Ctx ε σ)) :
    Handler ε σ → Ctx ε σ → Option (Option ε × Ctx ε σ)
  | .ret e, c => some (e, c)
  | .abort k, c => runHandler n nextFn k (c.Abort n)
  | .next k, c =>
    match nextFn c with
    | none => none
    | some (r, c1) => runHandler n nextFn (k r) c1
  | .get k, c => runHandler n nextFn (k c.st) c
  | .put s k, c => runHandler n nextFn k { c with st := s }

/-- The `for n := len(c.handlers); c.index < n; c.index++` loop of `Ctx.Next`,
entered with `c.index` already set. One unit of fuel is spent per handler
invocation on the current nesting path. -/
def loop (hs : List (Handler ε σ)) : Nat → Ctx ε σ → Option (Option ε × Ctx ε σ)
  | 0, c => if c.index < (hs.length : Int) then none else some (none, c)
  | fuel + 1, c =>
    if c.index < (hs.length : Int) then
      if c.index < 0 then none
      else
        match hs[c.index.toNat]? with
        | none => none
        | some h =>
          match runHandler hs.length
              (fun c1 => loop hs fuel { c1 with index := c1.index + 1 }) h
              { c with trace := c.trace ++ [Event.call c.index.toNat] } with
          | none => none
          | some (r, c1) =>
            let c2 : Ctx ε σ := { c1 with trace := c1.trace ++ [Event.ret c.index.toNat r] }
            match r with
            | some e => some (some e, c2)
            | none => loop hs fuel { c2 with index := c2.index + 1 }
    else some (none, c)

/-- `Ctx.Next`: `c.index++` followed by the loop. -/
def Ctx.Next (hs : List (Handler ε σ)) (fuel : Nat) (c : Ctx ε σ) :
    Option (Option ε × Ctx ε σ) :=
  loop hs fuel { c with index := c.index + 1 }

/-- A handler that calls neither `Next` nor `Abort`. -/
def Handler.plain : Handler ε σ → Prop
  | .ret _ => True
  | .abort _ => False
  | .next _ => False
  | .get k => ∀ s, (k s).plain
  | .put _ k => k.plain

/-- A handler that calls neither `Next` nor `Abort` and returns nil. -/
def Handler.plainNil : Handler ε σ → Prop
  | .ret e => e = none
  | .abort _ => False
  | .next _ => False
  | .get k => ∀ s, (k s).plainNil
  | .put _ k => k.plainNil

/-- A handler that never calls `Next`, returns nil, and has called `Abort` by
the time it returns (`aborted` tells whether it already has). -/
def Handler.abortsNil (aborted : Bool) : Handler ε σ → Prop
  | .ret e => e = none ∧ aborted = true
  | .abort k => k.abortsNil true
  | .next _ => False
  | .get k => ∀ s, (k s).abortsNil aborted
  | .put _ k => k.abortsNil aborted

/-- The event log of a run of consecutive handlers, the first at index `start`,
that call neither `Next` nor `Abort` and return the results `rs`. -/
def invocations (start : Nat) : List (Option ε) → List (Event ε)
  | [] => []
  | r :: rs => Event.call start :: Event.ret start r :: invocations (start + 1) rs

/-- Terminal state of the chain: `len(handlers) ≤ index`. -/
def Ctx.done (n : Nat) (c : Ctx ε σ) : Prop := (n : Int) ≤ c.index

/-! ## Errors (`error.go`) and the router (`router.go`) -/

/-- A Go `error` as the router sees it: a value implementing the `HTTPError`
interface (`*HttpError` is one), given by its `StatusCode()` and `Error()`, or
any other error, given by its `Error()`. -/
inductive GoError where
  | httpError (status : Int) (message : String) : GoError
  | plain (message : String) : GoError
  deriving DecidableEq

/-- The `Error()` method. -/
def GoError.Error : GoError → String
  | .httpError _ m => m
  | .plain m => m

/-- `NewHTTPError(status, message...)`. The library function `http.StatusText`
is a parameter. -/
def NewHTTPError (statusText : Int → String) (status : Int) (message : List String) : GoError :=
  match message with
  | m :: _ => GoError.httpError status m
  | [] => GoError.httpError status (statusText status)

/-- What the router writes of a fasthttp response. -/
structure Response where
  status : Int
  allow : Option String
  contentType : String
  body : String
  deriving DecidableEq

/-- The fields of `Ctx` other than `index` and `handlers` that the router's own
handlers use: the request line, the `bytes` scratch buffer, the response. -/
structure CtxFields where
  method : String
  path : String
  bytes : String
  Response : Response
  deriving DecidableEq

/-- `defaultContentType` of `helpers.go`. -/
def defaultContentType : String := "text/plain; charset=utf-8"

/-- `Ctx.Error(msg, statusCode)`. -/
def CtxFields.Error (c : CtxFields) (msg : String) (statusCode : Int) : CtxFields :=
  { c with Response :=
      { c.Response with
        status := statusCode
        contentType :=
          if c.Response.contentType.length = 0 then defaultContentType
          else c.Response.contentType
        body := msg } }

/-- `Router.handleError`. -/
def handleError (c : CtxFields) (err : GoError) : CtxFields :=
  match err with
  | .httpError status message => c.Error message status
  | .plain message => c.Error message 500

/-- The router: `stores` lists the entries of the map from method to route store
in the order a `range` over it yields them, a store being its `Get` (`none` for
no match); `handlers` are those registered with `Use`. -/
structure Router where
  stores : List (String × (String → Option (List (Handler GoError CtxFields))))
  handlers : List (Handler GoError CtxFields)

/-- `Router.findAllowedMethods`, as a function of `ctx.bytes`. -/
def findAllowedMethods
    (stores : List (String × (String → Option (List (Handler GoError CtxFields)))))
    (path : String) (bytes : String) : String :=
  stores.foldl (fun b ms => if (ms.2 path).isSome then b ++ ms.1 ++ "," else b) bytes

/-- `NotFoundHandler`. -/
def NotFoundHandler (statusText : Int → String) : Handler GoError CtxFields :=
  Handler.ret (some (NewHTTPError statusText 404 []))

/-- `MethodNotAllowedHandler`. -/
def MethodNotAllowedHandler
    (stores : List (String × (String → Option (List (Handler GoError CtxFields))))) :
    Handler GoError CtxFields :=
  Handler.get fun c =>
    let bytes := findAllowedMethods stores c.path c.bytes
    if bytes.length = 0 then
      Handler.put { c with bytes := bytes } (Handler.ret none)
    else
      let bytes := bytes ++ "OPTIONS"
      let resp : Response := { c.Response with allow := some bytes }
      let resp : Response := if c.method ≠ "OPTIONS" then { resp with status := 405 } else resp
      Handler.put { c with bytes := bytes, Response := resp } (Handler.abort (Handler.ret none))

/-- `Router.notFoundHandlers` as `New` and `Use` leave it. -/
def Router.notFoundHandlers (statusText : Int → String) (r : Router) :
    List (Handler GoError CtxFields) :=
  r.handlers ++ [MethodNotAllowedHandler r.stores, NotFoundHandler statusText]

/-- `Router.find`, handlers only. -/
def Router.find (statusText : Int → String) (r : Router) (method path : String) :
    List (Handler GoError CtxFields) :=
  match r.stores.lookup method with
  | some store =>
    match store path with
    | some hs => hs
    | none => r.notFoundHandlers statusText
  | none => r.notFoundHandlers statusText

/-- `Ctx.init`: a new request and an empty response are attached and `index` is
reset; no other field is touched. -/
def Ctx.init (c : Ctx GoError CtxFields) (method path : String) : Ctx GoError CtxFields :=
  { index := -1
    st := { c.st with
      method := method
      path := path
      Response := { status := 200, allow := none, contentType := "", body := "" } }
    trace := [] }

/-- The `Ctx` made by the pool's `New`. -/
def newCtx : Ctx GoError CtxFields :=
  { index := 0
    st := { method := "", path := "", bytes := "",
            Response := { status := 200, allow := none, contentType := "", body := "" } }
    trace := [] }

/-- `Router.HandleRequest` on the `Ctx` the pool handed out; the result is the
`Ctx` as it goes back to the pool, holding the response that was written. -/
def Router.HandleRequest (statusText : Int → String) (r : Router)
    (c : Ctx GoError CtxFields) (method path : String) : Option (Ctx GoError CtxFields) :=
  let c := c.init method path
  let hs := r.find statusText method path
  match c.Next hs hs.length with
  | none => none
  | some (none, c1) => some c1
  | some (some err, c1) => some { c1 with st := handleError c1.st err }

/-- A router with one route, `GET /a`. -/
def getOnlyRouter : Router :=
  { stores := [("GET", fun p => if p = "/a" then some [Handler.ret none] else none)]
    handlers := [] }

/-! ## Path templates (`route.go`) -/

/-- Go's `s[a:b]`; it panics unless `0 ≤ a ≤ b ≤ len(s)`. -/
def goSlice (s : List Char) (a b : Int) : Option (List Char) :=
  if 0 ≤ a ∧ a ≤ b ∧ b ≤ (s.length : Int) then
    some ((s.drop a.toNat).take (b.toNat - a.toNat))
  else none

/-- The parameter name found by the inner loop over a token text
`path[start+1:i]`: the text before the first `:`, the whole text when there is
no `:`. -/
def tokenName (tok : List Char) : List Char :=
  tok.takeWhile (fun c => c != ':')

/-- The regular expression source found by the inner loop of
`buildURLTemplate2`: the text `path[j+1:i]` after the first `:` when that text is
not empty. -/
def tokenRegexp (tok : List Char) : Option (List Char) :=
  match tok.dropWhile (fun c => c != ':') with
  | [] => none
  | _ :: re => if re = [] then none else some re

/-- The locals of the two scanners: what has been built so far, `start` and
`end`. -/
structure Scan (α : Type) where
  acc : α
  start : Int
  stop : Int

/-- One iteration of the loop of `buildURLTemplate`. -/
def buildURLTemplate.step (path : List Char) (st : Scan (List Char)) (i : Nat) :
    Option (Scan (List Char)) :=
  if path[i]? = some '<' ∧ st.start < 0 then
    some { st with start := (i : Int) }
  else if path[i]? = some '>' ∧ 0 ≤ st.start then do
    let tok ← goSlice path (st.start + 1) i
    let name := tokenName tok
    let lit ← goSlice path (st.stop + 1) st.start
    some { acc := st.acc ++ lit ++ ['<'] ++ name ++ ['>'], start := -1, stop := (i : Int) }
  else some st

/-- `buildURLTemplate`. -/
def buildURLTemplate (path : List Char) : Option (List Char) := do
  let st ← (List.range path.length).foldlM (buildURLTemplate.step path)
    { acc := [], start := -1, stop := -1 }
  if st.stop < 0 then some path
  else if st.stop < (path.length : Int) - 1 then do
    let rest ← goSlice path (st.stop + 1) path.length
    some (st.acc ++ rest)
  else some st.acc

/-- What `buildURLTemplate2` returns; a regexp is kept as the value `compile`
gave for it, `none` standing for a nil `*regexp.Regexp`. -/
structure Compiled (ρ : Type) where
  segments : List (List Char)
  paramNames : List (List Char)
  regexps : List (Option ρ)

/-- One iteration of the loop of `buildURLTemplate2`. `compile` is
`regexp.Compile`; `regexp.MustCompile` panics where it fails. -/
def buildURLTemplate2.step (compile : List Char → Option ρ) (path : List Char)
    (st : Scan (Compiled ρ)) (i : Nat) : Option (Scan (Compiled ρ)) :=
  if path[i]? = some '<' ∧ st.start < 0 then
    some { st with start := (i : Int) }
  else if path[i]? = some '>' ∧ 0 ≤ st.start then do
    let tok ← goSlice path (st.start + 1) i
    let name := tokenName tok
    let reg ← (match tokenRegexp tok with
      | none => some none
      | some re => (compile ('^' :: re)).map some)
    let lit ← goSlice path (st.stop + 1) st.start
    some { acc := { paramNames := st.acc.paramNames ++ [name]
                    regexps := st.acc.regexps ++ [reg]
                    segments := st.acc.segments ++ [lit, ['<'] ++ name ++ ['>']] }
           start := -1, stop := (i : Int) }
  else some st

/-- `buildURLTemplate2`. -/
def buildURLTemplate2 (compile : List Char → Option ρ) (path : List Char) :
    Option (Compiled ρ) := do
  let st ← (List.range path.length).foldlM (buildURLTemplate2.step compile path)
    { acc := { segments := [], paramNames := [], regexps := [] }, start := -1, stop := -1 }
  if st.stop < 0 then some { st.acc with segments := st.acc.segments ++ [path] }
  else if st.stop < (path.length : Int) - 1 then do
    let rest ← goSlice path (st.stop + 1) path.length
    some { st.acc with segments := st.acc.segments ++ [rest] }
  else some st.acc

/-- The fields of `Route` set by `newRoute`. -/
structure Route (ρ : Type) where
  name : List Char
  path : List Char
  template : List Char
  segments : List (List Char)
  paramNames : List (List Char)
  regexps : List (Option ρ)

/-- `newRoute(path, group)`: `groupPrefix` is `group.prefix`, `routes` is
`group.router.routes`; the result is the route and the updated map. -/
def newRoute (compile : List Char → Option ρ) (groupPrefix path : List Char)
    (routes : List Char → Option (Route ρ)) :
    Option (Route ρ × (List Char → Option (Route ρ))) := do
  let path := groupPrefix ++ path
  let name := path
  let path := if path.getLast? = some '*' then path.dropLast ++ "<*:.*>".toList else path
  let template ← buildURLTemplate path
  let c ← buildURLTemplate2 compile path
  let route : Route ρ :=
    { name := name, path := path, template := template
      segments := c.segments, paramNames := c.paramNames, regexps := c.regexps }
  some (route, fun k => if k = name then some route else routes k)

/-- `strings.Replace(s, old, new, -1)`: every non-overlapping occurrence of `old`
is replaced, left to right. `skip` counts the bytes of a matched occurrence still
to be passed over. -/
def replaceAll (old new : List Char) : Nat → List Char → List Char
  | 0, [] => if old = [] then new else []
  | _ + 1, [] => []
  | skip + 1, _ :: cs => replaceAll old new skip cs
  | 0, c :: cs =>
    if old.isPrefixOf (c :: cs) then new ++ replaceAll old new (old.length - 1) cs
    else c :: replaceAll old new 0 cs

/-- The upper-case hexadecimal digit of `n < 16`. -/
def upperhex (n : Nat) : Char :=
  "0123456789ABCDEF".toList.getD n '0'

/-- `url.QueryEscape`: letters, digits and `-_.~` are kept, a space becomes `+`,
every other byte becomes `%XX`. -/
def QueryEscape (s : List Char) : List Char :=
  s.flatMap fun c =>
    if c.isAlphanum ∨ c = '-' ∨ c = '_' ∨ c = '.' ∨ c = '~' then [c]
    else if c = ' ' then ['+']
    else (String.utf8EncodeChar c).flatMap fun b =>
      ['%', upperhex (b.toNat / 16), upperhex (b.toNat % 16)]

/-- The loop of `Route.URL` from position `i` on: `pairs` holds the `%v`
renderings of `pairs[i:]`. -/
def Route.URL.loop : List (List Char) → List Char → List Char
  | [], s => s
  | p :: rest, s =>
    let name := ['<'] ++ p ++ ['>']
    let value := match rest with
      | [] => []
      | v :: _ => QueryEscape v
    Route.URL.loop rest (replaceAll name value 0 s)

/-- `Route.URL(pairs...)`. -/
def Route.URL (r : Route ρ) (pairs : List (List Char)) : List Char :=
  Route.URL.loop pairs r.template

/-- `regexp.Compile` on the patterns of the examples: Go rejects `^(` (missing
closing parenthesis) and accepts `^.*` and `^\d+`. Every other pattern is taken
as accepted. -/
def sampleCompile (s : List Char) : Option (List Char) :=
  if s = "^(".toList then none else some s

/-! ### A character-stream reading of the scanners

Both scanners run the same loop; they differ in what is built when a token is
closed. `scanStep` is that loop body with the building step `emit` as a
parameter, and `streamStep` is the same scan told character by character:
`lit` is the text since the last closed token (up to a pending `<`), `tok` the
text after a pending `<`. The theorems relate the two. -/

/-- The common loop body of the two scanners. -/
def scanStep (emit : α → List Char → List Char → Option α) (path : List Char)
    (st : Scan α) (i : Nat) : Option (Scan α) :=
  if path[i]? = some '<' ∧ st.start < 0 then
    some { st with start := (i : Int) }
  else if path[i]? = some '>' ∧ 0 ≤ st.start then do
    let tok ← goSlice path (st.start + 1) i
    let lit ← goSlice path (st.stop + 1) st.start
    let a ← emit st.acc lit tok
    some { acc := a, start := -1, stop := (i : Int) }
  else some st

/-- What `buildURLTemplate` builds when a token is closed. -/
def emitTemplate (acc lit tok : List Char) : Option (List Char) :=
  some (acc ++ lit ++ ['<'] ++ tokenName tok ++ ['>'])

/-- What `buildURLTemplate2` builds when a token is closed. -/
def emitCompiled (compile : List Char → Option ρ) (acc : Compiled ρ) (lit tok : List Char) :
    Option (Compiled ρ) :=
  match tokenRegexp tok with
  | none =>
    some { paramNames := acc.paramNames ++ [tokenName tok]
           regexps := acc.regexps ++ [none]
           segments := acc.segments ++ [lit, ['<'] ++ tokenName tok ++ ['>']] }
  | some re =>
    match compile ('^' :: re) with
    | none => none
    | some r =>
      some { paramNames := acc.paramNames ++ [tokenName tok]
             regexps := acc.regexps ++ [some r]
             segments := acc.segments ++ [lit, ['<'] ++ tokenName tok ++ ['>']] }

/-- State of the character-stream scan. -/
structure Stream (α : Type) where
  acc : α
  lit : List Char
  tok : Option (List Char)
  closed : Bool

/-- One character of the character-stream scan. -/
def streamStep (emit : α → List Char → List Char → Option α) (s : Stream α) (c : Char) :
    Option (Stream α) :=
  match s.tok with
  | none =>
    if c = '<' then some { s with tok := some [] }
    else some { s with lit := s.lit ++ [c] }
  | some t =>
    if c = '>' then
      (emit s.acc s.lit t).map fun a => { acc := a, lit := [], tok := none, closed := true }
    else some { s with tok := some (t ++ [c]) }

/-- The text not yet consumed by a closed token. -/
def Stream.rest (s : Stream α) : List Char :=
  s.lit ++ (match s.tok with
    | none => []
    | some t => '<' :: t)

/-- The character-stream scan of a whole text, from a given state. -/
def stream (emit : α → List Char → List Char → Option α) (s : Stream α) (p : List Char) :
    Option (Stream α) :=
  p.foldlM (streamStep emit) s

/-- `path[a:b]` for bounds in range. -/
def sl (path : List Char) (a b : Nat) : List Char := (path.drop a).take (b - a)

/-- The index scan after `n` iterations agrees with the stream scan of the first
`n` characters. -/
def ScanRel (path : List Char) (n : Nat) (st : Scan α) (ss : Stream α) : Prop :=
  st.acc = ss.acc ∧ -1 ≤ st.stop ∧ st.stop < (n : Int) ∧ (ss.closed = true ↔ 0 ≤ st.stop) ∧
  ((st.start = -1 ∧ ss.tok = none ∧ ss.lit = sl path (st.stop + 1).toNat n) ∨
   (st.stop < st.start ∧ st.start < (n : Int) ∧ path[st.start.toNat]? = some '<' ∧
    ss.tok = some (sl path (st.start + 1).toNat n) ∧
    ss.lit = sl path (st.stop + 1).toNat st.start.toNat))

/-- The initial state of the stream scan. -/
def Stream.init (a : α) : Stream α := { acc := a, lit := [], tok := none, closed := false }

/-- A piece of a well-formed path: a literal run, or a token `<name>`
(`re = none`) or `<name:re>`. -/
inductive Piece where
  | lit (s : List Char) : Piece
  | param (name : List Char) (re : Option (List Char)) : Piece

/-- A literal run holds no `<`; a token name holds none of `:`, `<`, `>`; a
regular expression holds no `>`. -/
def Piece.wf : Piece → Prop
  | .lit s => '<' ∉ s
  | .param name re =>
    ':' ∉ name ∧ '<' ∉ name ∧ '>' ∉ name ∧ ∀ r, re = some r → '>' ∉ r

/-- The text of a piece in a route path. -/
def Piece.render : Piece → List Char
  | .lit s => s
  | .param name none => ['<'] ++ name ++ ['>']
  | .param name (some re) => ['<'] ++ name ++ [':'] ++ re ++ ['>']

/-- The text of a piece in the reverse-URL template. -/
def Piece.renderTemplate : Piece → List Char
  | .lit s => s
  | .param name _ => ['<'] ++ name ++ ['>']

/-- The pieces of the path `/users/<id:\d+>/x<n>`. -/
def samplePieces : List Piece :=
  [Piece.lit "/users/".toList, Piece.param "id".toList (some "\\d+".toList),
    Piece.lit "/x".toList, Piece.param "n".toList none]

/-- The `Ctx` after the chain has run for `POST /missing` on `getOnlyRouter`,
with `http.StatusText` taken as constantly empty. -/
def missingCtx : Ctx GoError CtxFields :=
  { index := 1
    st := { method := "POST", path := "/missing", bytes := "",
            Response := { status := 200, allow := none, contentType := "", body := "" } }
    trace := [Event.call 0, Event.ret 0 none, Event.call 1,
      Event.ret 1 (some (GoError.httpError 404 ""))] }

/-! ## Session tokens (`helpers/utilcrypt/utils.go`, `middleware/session/data.go`)

A `[]byte` is a list of naturals below 256. -/

/-- The `uint16` value `(uint16(bs[0])*uint16(bs[1]) + 99) * uint16(bs[2])`. -/
def SimpleHash.sum (bs : List Nat) : Nat :=
  ((bs.getD 0 0 * bs.getD 1 0 % 65536 + 99) % 65536 * bs.getD 2 0) % 65536

/-- `SimpleHash.AppendHash`: it panics on fewer than 5 bytes; otherwise
`binary.LittleEndian.AppendUint16(bs[:len(bs)-2], sum)` writes the two bytes of
`sum` in place over the last two bytes of `bs`. -/
def SimpleHash.AppendHash (bs : List Nat) : Option (List Nat) :=
  if bs.length < 5 then none
  else
    let sum := SimpleHash.sum bs
    some (bs.take (bs.length - 2) ++ [sum % 256, sum / 256 % 256])

/-- `SimpleHash.ValidateHash`. -/
def SimpleHash.ValidateHash (bs : List Nat) : Bool :=
  if bs.length < 3 then false
  else
    let sum := SimpleHash.sum bs
    let sum2 := bs.getD (bs.length - 2) 0 + 256 * bs.getD (bs.length - 1) 0
    sum == sum2

/-- `SimpleHash.EncodedLen`. -/
def SimpleHash.EncodedLen (input : Int) : Int := input + 2

/-- `SimpleHash.DecodedLen`. -/
def SimpleHash.DecodedLen (input : Int) : Int := input - 2

/-- The alphabet of `base64.RawURLEncoding`. -/
def encodeURL : List Nat :=
  "ABCDEFGHIJKLMNOPQRSTUVWXYZabcdefghijklmnopqrstuvwxyz0123456789-_".toList.map Char.toNat

/-- The character of a 6-bit value. -/
def b64char (v : Nat) : Nat := encodeURL.getD v 0

/-- The decode map of the encoding: the 6-bit value of a character of the
alphabet, `none` for any other byte. -/
def decodeMap (c : Nat) : Option Nat :=
  if encodeURL.indexOf c < 64 then some (encodeURL.indexOf c) else none

/-- The 6-bit values `Encode` writes: four for each full group of three bytes,
`val` being the 24-bit group; two or three for a last group of one or two bytes,
without padding. -/
def sextets : List Nat → List Nat
  | b0 :: b1 :: b2 :: rest =>
    let val := b0 * 65536 + b1 * 256 + b2
    val / 262144 % 64 :: val / 4096 % 64 :: val / 64 % 64 :: val % 64 :: sextets rest
  | [b0, b1] =>
    let val := b0 * 65536 + b1 * 256
    [val / 262144 % 64, val / 4096 % 64, val / 64 % 64]
  | [b0] =>
    let val := b0 * 65536
    [val / 262144 % 64, val / 4096 % 64]
  | [] => []

/-- `base64.RawURLEncoding.Encode`, as the bytes written. -/
def b64encode (src : List Nat) : List Nat := (sextets src).map b64char

/-- `base64.RawURLEncoding.EncodedLen`. -/
def EncodedLen (n : Nat) : Nat := n / 3 * 4 + (n % 3 * 8 + 5) / 6

/-- The 6-bit values of an encoded text: `\r` and `\n` are skipped, a byte
outside the alphabet is a `CorruptInputError`. -/
def decodeChars : List Nat → Option (List Nat)
  | [] => some []
  | c :: cs =>
    if c = 10 ∨ c = 13 then decodeChars cs
    else
      match decodeMap c, decodeChars cs with
      | some v, some vs => some (v :: vs)
      | _, _ => none

/-- The bytes of a sequence of 6-bit values: three for each full quantum of
four, one or two for a last quantum of two or three; a last quantum of one
value is a `CorruptInputError`. -/
def decodeQuanta : List Nat → Option (List Nat)
  | s0 :: s1 :: s2 :: s3 :: rest =>
    let val := s0 * 262144 + s1 * 4096 + s2 * 64 + s3
    match decodeQuanta rest with
    | some bs => some (val / 65536 % 256 :: val / 256 % 256 :: val % 256 :: bs)
    | none => none
  | [s0, s1, s2] =>
    let val := s0 * 262144 + s1 * 4096 + s2 * 64
    some [val / 65536 % 256, val / 256 % 256]
  | [s0, s1] =>
    let val := s0 * 262144 + s1 * 4096
    some [val / 65536 % 256]
  | [_] => none
  | [] => some []

/-- `base64.RawURLEncoding.Decode`: the decoded bytes, `none` for an error. -/
def b64decode (src : List Nat) : Option (List Nat) :=
  match decodeChars src with
  | some vs => decodeQuanta vs
  | none => none

/-- `GenerateToken2(dstRaw, dst, SimpleHash{})`. `rnd` is what the read of
`rand.Reader` into `dstRaw[:len(dstRaw)-2]` gave: the bytes, or `none` for an
error, on which the logger panics. `Encode` panics when `dst` is too short and
leaves the bytes of `dst` past the encoded text as they were. -/
def GenerateToken2 (rnd : Option (List Nat)) (dstRaw dst : List Nat) : Option (List Nat) :=
  if dstRaw.length < 2 then none
  else
    match rnd with
    | none => none
    | some r =>
      match SimpleHash.AppendHash (r ++ dstRaw.drop (dstRaw.length - 2)) with
      | none => none
      | some raw =>
        let enc := b64encode raw
        if dst.length < enc.length then none else some (enc ++ dst.drop enc.length)

/-- `GenerateToken(size, dst, appendHash, urlencoded)`: `useHash` tells whether
`appendHash` is `SimpleHash{}` or nil, `rnd` is what `rand.Read(rawToken[:size])`
gave. The buffer `dst` only provides storage. -/
def GenerateToken (rnd : Option (List Nat)) (size : Nat) (useHash urlencoded : Bool) :
    Option (List Nat) :=
  let rawTokenLen := if useHash then size + 2 else size
  match rnd with
  | none => none
  | some r =>
    let rawToken := r ++ List.replicate (rawTokenLen - size) 0
    match (if useHash then SimpleHash.AppendHash rawToken else some rawToken) with
    | none => none
    | some raw => if urlencoded then some (b64encode raw) else some raw

/-- `Data.isValidToken` with `SimpleHash{}`. -/
def isValidToken (token : List Nat) : Bool :=
  match b64decode token with
  | none => false
  | some bs => SimpleHash.ValidateHash bs

/-! ## Session data (`middleware/session/data.go`, `scs.go`, `manager.go`)

A `map[string]interface{}` is a list of entries with distinct keys, in no
meaningful order, or `none` for a nil map. A `[]byte` field that is resliced,
appended to or read through `unsafe` is a `Slice`: the bytes of its underlying
array from the slice's first element to the end of its capacity, the length,
and the bytes of the same allocation that precede the first element. The type
of an encoded record (`[]byte` in the source) is a parameter `β`. -/

/-- `Status`. -/
inductive Status where
  | Unmodified
  | Modified
  | Destroyed
  deriving DecidableEq

/-- A session value, an `interface{}`: nil, or a value of one of the types the
typed accessors know. -/
inductive Value where
  | nil
  | str (s : String)
  | bool (b : Bool)
  | int (i : Int)
  | bytes (b : List Nat)
  deriving DecidableEq

/-- The entries of a non-nil `map[string]interface{}`. -/
abbrev Values := List (String × Value)

/-- A byte slice together with its place in memory. -/
structure Slice where
  before : List Nat
  arr : List Nat
  len : Nat
  deriving DecidableEq

/-- The elements of the slice. -/
def Slice.bytes (s : Slice) : List Nat := s.arr.take s.len

/-- The nil slice. -/
def Slice.nil : Slice := { before := [], arr := [], len := 0 }

/-- `s[:n]`, which panics when `n` exceeds the capacity. -/
def Slice.reslice (s : Slice) (n : Nat) : Option Slice :=
  if n ≤ s.arr.length then some { s with len := n } else none

/-- `append(s, xs...)`: in place when the capacity allows, else into a new
array (taken to have no spare capacity). -/
def Slice.append (s : Slice) (xs : List Nat) : Slice :=
  if s.len + xs.length ≤ s.arr.length then
    { s with arr := s.arr.take s.len ++ xs ++ s.arr.drop (s.len + xs.length)
             len := s.len + xs.length }
  else { before := [], arr := s.arr.take s.len ++ xs, len := s.len + xs.length }

/-- `CsrfTokenLen`. -/
def CsrfTokenLen : Nat := 20

/-- `AppendHashCsrfTokenLen`. -/
def AppendHashCsrfTokenLen : Nat := CsrfTokenLen + 2

/-- `UrlEncodedCsrfTokenLen`. -/
def UrlEncodedCsrfTokenLen : Nat := (AppendHashCsrfTokenLen * 8 + 5) / 6

/-- `TokenLen`. -/
def TokenLen : Nat := 30

/-- `AppendHashTokenLen`. -/
def AppendHashTokenLen : Nat := TokenLen + 2

/-- `UrlEncodedTokenLen`. -/
def UrlEncodedTokenLen : Nat := (AppendHashTokenLen * 8 + 5) / 6

/-- `sessionPrefix`, as bytes. -/
def sessionPrefix : List Nat := "scs:session:".toList.map Char.toNat

/-- `UrlEncodedTokenWithPrefixLen`. -/
def UrlEncodedTokenWithPrefixLen : Nat := UrlEncodedTokenLen + sessionPrefix.length

/-- The slice `unsafe.Slice(&token[0] - len(sessionPrefix),
UrlEncodedTokenWithPrefixLen)`: the bytes of memory from `len(sessionPrefix)`
bytes before the first element of `token`, whatever the length of `token`;
`none` when that range leaves the allocation (undefined behaviour). -/
def tokenWithPrefix (token : Slice) : Option (List Nat) :=
  if sessionPrefix.length ≤ token.before.length ∧ UrlEncodedTokenLen ≤ token.arr.length then
    some (token.before.drop (token.before.length - sessionPrefix.length) ++
      token.arr.take UrlEncodedTokenLen)
  else none

/-- `Data`, without the back-reference to the manager. -/
structure Data where
  status : Status
  token : Slice
  csrfToken : Slice
  values : Option Values
  started : Bool
  deriving DecidableEq

/-- The `Data` made by the pool's `New`. -/
def Data.new : Data :=
  { status := Status.Unmodified
    token := { before := sessionPrefix, arr := List.replicate UrlEncodedTokenLen 0, len := 0 }
    csrfToken := { before := [], arr := List.replicate UrlEncodedCsrfTokenLen 0, len := 0 }
    values := some []
    started := false }

/-- `Data.reset`: `clear` empties a map and leaves a nil map nil. -/
def Data.reset (d : Data) : Data :=
  { status := Status.Unmodified
    token := { d.token with len := 0 }
    csrfToken := { d.csrfToken with len := 0 }
    values := d.values.map (fun _ => [])
    started := false }

/-- `Data.Put`: assignment to an entry of a nil map panics. -/
def Data.Put (d : Data) (key : String) (val : Value) : Option Data :=
  match d.values with
  | none => none
  | some m =>
    some { d with values := some ((key, val) :: m.filter (fun e => e.1 != key))
                  status := Status.Modified }

/-- `Data.Get`. -/
def Data.Get (d : Data) (key : String) : Value :=
  match d.values with
  | none => Value.nil
  | some m => (m.lookup key).getD Value.nil

/-- `Data.Exists`. -/
def Data.Exists (d : Data) (key : String) : Bool :=
  match d.values with
  | none => false
  | some m => (m.lookup key).isSome

/-- `Data.Pop`. -/
def Data.Pop (d : Data) (key : String) : Value × Data :=
  match d.values with
  | none => (Value.nil, d)
  | some m =>
    match m.lookup key with
    | none => (Value.nil, d)
    | some val =>
      (val, { d with values := some (m.filter (fun e => e.1 != key))
                     status := Status.Modified })

/-- `Data.Remove`. -/
def Data.Remove (d : Data) (key : String) : Data :=
  match d.values with
  | none => d
  | some m =>
    match m.lookup key with
    | none => d
    | some _ =>
      { d with values := some (m.filter (fun e => e.1 != key))
               status := Status.Modified }

/-- `Data.Clear`; the error it returns is always nil. -/
def Data.Clear (d : Data) : Data :=
  match d.values with
  | none => d
  | some m =>
    if m.length = 0 then d
    else { d with values := some [], status := Status.Modified }

/-- `Data.Flush`. -/
def Data.Flush (d : Data) : Data :=
  { d with values := d.values.map (fun _ => []) }

/-- `Data.GetBool`. -/
def Data.GetBool (d : Data) (key : String) : Bool :=
  match d.Get key with
  | Value.bool b => b
  | _ => false

/-- A call of `GenerateToken2(dstRaw, dst, SimpleHash{})` with
`dstRaw = make([]byte, rawLen)`: the token is the slice `dst` with the encoded
text written into it. -/
def generateInto (rnd : Option (List Nat)) (rawLen : Nat) (dst : Slice) : Option Slice :=
  match GenerateToken2 rnd (List.replicate rawLen 0) dst.bytes with
  | none => none
  | some tok => some { dst with arr := tok ++ dst.arr.drop dst.len }

/-- `Data.SetToken`; `rndToken` is the outcome of the random source if it is
read. -/
def Data.SetToken (d : Data) (token : List Nat) (rndToken : Option (List Nat)) :
    Option (Bool × Data) :=
  if token.length > 0 ∧ isValidToken token = true then
    some (false, { d with token := ({ d.token with len := 0 } : Slice).append token })
  else
    match d.token.reslice UrlEncodedTokenLen with
    | none => none
    | some dst =>
      match generateInto rndToken AppendHashTokenLen dst with
      | none => none
      | some tok => some (true, { d with token := tok })

/-- `Data.GenerateSessionId`. -/
def Data.GenerateSessionId (d : Data) (rndToken : Option (List Nat)) : Option Slice :=
  match d.token.reslice UrlEncodedTokenLen with
  | none => none
  | some dst => generateInto rndToken AppendHashTokenLen dst

/-- `Data.RegenerateCsrfToken`. -/
def Data.RegenerateCsrfToken (d : Data) (rndCsrf : Option (List Nat)) : Option Data :=
  match generateInto rndCsrf CsrfTokenLen { d.csrfToken with len := 0 } with
  | none => none
  | some tok => some { d with csrfToken := tok }

/-- The errors of the package: `*EncodingError`, `*StoreError`, or an error
value that came from the codec, the store or a downstream handler. -/
inductive SessionError where
  | EncodingError (s : String)
  | StoreError (s : String)
  | other (s : String)
  deriving DecidableEq

/-- The `Error()` method: `reflect.TypeOf(t).String() + t.s`. -/
def SessionError.Error : SessionError → String
  | .EncodingError s => "*session.EncodingError" ++ s
  | .StoreError s => "*session.StoreError" ++ s
  | .other s => s

/-- The methods of a store; `σ` is the state of the backing store, an error is
given by its message. -/
structure StoreOps (σ β : Type) where
  Find : σ → List Nat → σ × β × Bool × Option String
  Commit : σ → List Nat → β → Int → Bool → σ × Option String
  Delete : σ → List Nat → σ × Option String

/-- A `Store`: its `Find`, `Commit` and `Delete`, and its `FindCtx`, `CommitCtx`
and `DeleteCtx` when it implements `CtxStore`. -/
structure Store (σ β : Type) where
  base : StoreOps σ β
  ctx : Option (StoreOps σ β)

/-- A call made on the store; `ctx` tells whether the context-aware method was
used. -/
inductive StoreCall (β : Type) where
  | find (ctx : Bool) (key : List Nat)
  | commit (ctx : Bool) (key : List Nat) (data : β) (expiry : Int) (modified : Bool)
  | delete (ctx : Bool) (key : List Nat)

/-- The backing store and the log of the calls made on it. -/
structure World (σ β : Type) where
  store : σ
  calls : List (StoreCall β)

/-- A `Codec`; an error is given by its message. -/
structure Codec (β : Type) where
  Encode : List Nat → Option Values → Except String β
  Decode : β → Slice → Slice × Option Values × Option String

/-- `Manager`: the fields used here. `AppendHash` is `SimpleHash{}`. -/
structure Manager (σ β : Type) where
  Lifetime : Int
  Store : Store σ β
  Codec : Codec β

/-- The store methods a `doStore…` helper uses for a given `ctx`. -/
def Manager.ops (s : Manager σ β) (ctx : Bool) : StoreOps σ β × Bool :=
  if ctx then
    match s.Store.ctx with
    | some o => (o, true)
    | none => (s.Store.base, false)
  else (s.Store.base, false)

/-- `Manager.doStoreFind`; `ctx` tells whether the context is non-nil. -/
def Manager.doStoreFind (s : Manager σ β) (ctx : Bool) (token : Slice) (w : World σ β) :
    Option ((β × Bool × Option SessionError) × World σ β) :=
  match tokenWithPrefix token with
  | none => none
  | some key =>
    let r := (s.ops ctx).1.Find w.store key
    some ((r.2.1, r.2.2.1,
        r.2.2.2.map (fun e => SessionError.StoreError ("find session data:" ++ e))),
      { store := r.1, calls := w.calls ++ [StoreCall.find (s.ops ctx).2 key] })

/-- `Manager.doStoreCommit`. -/
def Manager.doStoreCommit (s : Manager σ β) (ctx : Bool) (token : Slice) (data : β)
    (expiry : Int) (modified : Bool) (w : World σ β) :
    Option (Option SessionError × World σ β) :=
  match tokenWithPrefix token with
  | none => none
  | some key =>
    let r := (s.ops ctx).1.Commit w.store key data expiry modified
    some (r.2.map (fun e => SessionError.StoreError ("commit session data:" ++ e)),
      { store := r.1
        calls := w.calls ++ [StoreCall.commit (s.ops ctx).2 key data expiry modified] })

/-- `Manager.doStoreDelete`. -/
def Manager.doStoreDelete (s : Manager σ β) (ctx : Bool) (token : Slice) (w : World σ β) :
    Option (Option SessionError × World σ β) :=
  match tokenWithPrefix token with
  | none => none
  | some key =>
    let r := (s.ops ctx).1.Delete w.store key
    some (r.2.map (fun e => SessionError.StoreError ("Delete:" ++ e)),
      { store := r.1, calls := w.calls ++ [StoreCall.delete (s.ops ctx).2 key] })

/-- `Manager.Commit`; `now` is `time.Now()`. -/
def Manager.Commit (s : Manager σ β) (ctx : Bool) (data : Data) (now : Int) (w : World σ β) :
    Option (Option SessionError × World σ β) :=
  match s.Codec.Encode data.csrfToken.bytes data.values with
  | .error e => some (some (SessionError.EncodingError e), w)
  | .ok serializedData =>
    s.doStoreCommit ctx data.token serializedData (now + s.Lifetime)
      (data.status == Status.Modified) w

/-- The call `d.manager.Store.Delete(tokenWithPrefix)` made by `LoadSession` and
`Migrate`; the error is only logged. -/
def Manager.storeDelete (s : Manager σ β) (token : Slice) (w : World σ β) :
    Option (World σ β) :=
  match tokenWithPrefix token with
  | none => none
  | some key =>
    some { store := (s.Store.base.Delete w.store key).1
           calls := w.calls ++ [StoreCall.delete false key] }

/-- `Data.LoadSession`. -/
def Data.LoadSession (s : Manager σ β) (d : Data) (ctx : Bool) (w : World σ β) :
    Option (Option SessionError × Data × World σ β) :=
  match s.doStoreFind ctx d.token w with
  | none => none
  | some ((dataBytes, found, err), w1) =>
    match err with
    | some e =>
      some (some (SessionError.StoreError
        ("find session data from session store: " ++ e.Error)), d, w1)
    | none =>
      if !found then some (none, d, w1)
      else
        let r := s.Codec.Decode dataBytes { d.csrfToken with len := 0 }
        let d1 : Data := { d with csrfToken := r.1, values := r.2.1 }
        match r.2.2 with
        | some _ =>
          match s.storeDelete d1.token w1 with
          | none => none
          | some w2 => some (none, d1, w2)
        | none => some (none, d1, w1)

/-- `Data.Start`. -/
def Data.Start (s : Manager σ β) (d : Data) (newToken : Bool) (ctx : Bool)
    (rndCsrf : Option (List Nat)) (w : World σ β) :
    Option (Option SessionError × Data × World σ β) :=
  match (if !newToken then d.LoadSession s ctx w else some (none, d, w)) with
  | none => none
  | some (some e, d1, w1) => some (some e, d1, w1)
  | some (none, d1, w1) =>
    if d1.csrfToken.len = 0 then
      match d1.csrfToken.reslice UrlEncodedCsrfTokenLen with
      | none => none
      | some dst =>
        match generateInto rndCsrf AppendHashCsrfTokenLen dst with
        | none => none
        | some tok => some (none, { d1 with csrfToken := tok, started := true }, w1)
    else some (none, { d1 with started := true }, w1)

/-- The loop of `MergeSession`: every entry whose key is not yet in `d.values`
is assigned to it. -/
def mergeValues (mine : Option Values) : Values → Option (Option Values)
  | [] => some mine
  | (k, v) :: rest =>
    match mine with
    | none => none
    | some m =>
      if (m.lookup k).isSome then mergeValues (some m) rest
      else mergeValues (some ((k, v) :: m.filter (fun e => e.1 != k))) rest

/-- `Data.MergeSession`. -/
def Data.MergeSession (s : Manager σ β) (d : Data) (ctx : Bool) (token : Slice)
    (w : World σ β) : Option (Option SessionError × Data × World σ β) :=
  if d.token.bytes = token.bytes then some (none, d, w)
  else
    match s.doStoreFind ctx token w with
    | none => none
    | some ((encodedData, found, err), w1) =>
      if err.isSome ∨ !found then some (none, d, w1)
      else
        let r := s.Codec.Decode encodedData Slice.nil
        match r.2.2 with
        | some e => some (some (SessionError.other e), d, w1)
        | none =>
          match mergeValues d.values (r.2.1.getD []) with
          | none => none
          | some vals =>
            match s.doStoreDelete ctx token w1 with
            | none => none
            | some (err2, w2) =>
              some (err2, { d with values := vals, status := Status.Modified }, w2)

/-- `Data.Migrate`. -/
def Data.Migrate (s : Manager σ β) (d : Data) (destroy : Bool)
    (rndToken : Option (List Nat)) (w : World σ β) : Option (Data × World σ β) :=
  match (if destroy ∧ d.token.len ≠ 0 then s.storeDelete d.token w else some w) with
  | none => none
  | some w1 =>
    match d.GenerateSessionId rndToken with
    | none => none
    | some tok => some ({ d with token := tok, status := Status.Modified }, w1)

/-- `Manager.RenewToken`; the error it returns is always nil. -/
def Manager.RenewToken (s : Manager σ β) (d : Data) (rndToken : Option (List Nat))
    (w : World σ β) : Option (Data × World σ β) :=
  d.Migrate s true rndToken w

/-- `Data.Regenerate`; the error it returns is always nil. -/
def Data.Regenerate (s : Manager σ β) (d : Data) (destroy : Bool)
    (rndToken rndCsrf : Option (List Nat)) (w : World σ β) : Option (Data × World σ β) :=
  match d.Migrate s destroy rndToken w with
  | none => none
  | some (d1, w1) =>
    match d1.RegenerateCsrfToken rndCsrf with
    | none => none
    | some d2 => some (d2, w1)

/-- What `handleStatefulRequest` does to the session cookie of the response. -/
inductive CookieAction where
  | nothing
  | delClientCookie
  | setCookie (value : List Nat) (rememberMe : Bool)
  deriving DecidableEq

/-- `Config.handleStatefulRequest`. `next` is what `c.Next()` does: the
downstream handlers reach `data` through the context. -/
def handleStatefulRequest (s : Manager σ β) (ctx : Bool) (data : Data) (newToken : Bool)
    (rndCsrf : Option (List Nat))
    (next : Data → World σ β → Option (Option SessionError × Data × World σ β))
    (now : Int) (w : World σ β) :
    Option (Option SessionError × Data × World σ β × CookieAction) :=
  match data.Start s newToken ctx rndCsrf w with
  | none => none
  | some (some e, d1, w1) => some (some e, d1, w1, CookieAction.nothing)
  | some (none, d1, w1) =>
    match next d1 w1 with
    | none => none
    | some (err, d2, w2) =>
      match s.Commit ctx d2 now w2 with
      | none => none
      | some (some e2, w3) => some (some (err.getD e2), d2, w3, CookieAction.nothing)
      | some (none, w3) =>
        if d2.status = Status.Destroyed then some (err, d2, w3, CookieAction.delClientCookie)
        else some (err, d2, w3, CookieAction.setCookie d2.token.bytes (d2.GetBool "__rememberMe"))

/-- `Config.Handle` when the request is not skipped: `data` is the `Data` the
pool hands out, `cookie` the value of the session cookie of the request (empty
when there is none); the `Data` in the result is the one released to the pool. -/
def Handle (s : Manager σ β) (data : Data) (cookie : List Nat)
    (rndToken rndCsrf : Option (List Nat))
    (next : Data → World σ β → Option (Option SessionError × Data × World σ β))
    (now : Int) (w : World σ β) :
    Option (Option SessionError × Data × World σ β × CookieAction) :=
  match data.SetToken cookie rndToken with
  | none => none
  | some (newToken, d1) =>
    match handleStatefulRequest s false d1 newToken rndCsrf next now w with
    | none => none
    | some (err, d2, w2, cok) => some (err, d2.reset, w2, cok)

/-- `Manager.sessionDataFromCxt`: `ctxData` is the session data stored in the
context, if any; the function panics when there is none. -/
def Manager.sessionDataFromCxt (ctxData : Option Data) : Option Data := ctxData

/-- `Manager.Put`. -/
def Manager.Put (ctxData : Option Data) (key : String) (val : Value) : Option Data :=
  match Manager.sessionDataFromCxt ctxData with
  | none => none
  | some sd => sd.Put key val

/-- `Manager.Remove`. -/
def Manager.Remove (ctxData : Option Data) (key : String) : Option Data :=
  match Manager.sessionDataFromCxt ctxData with
  | none => none
  | some sd => some (sd.Remove key)

/-- `Manager.Pop`. -/
def Manager.Pop (ctxData : Option Data) (key : String) : Option (Value × Data) :=
  match Manager.sessionDataFromCxt ctxData with
  | none => none
  | some sd => some (sd.Pop key)

/-- `Manager.Clear`. -/
def Manager.Clear (ctxData : Option Data) : Option Data :=
  match Manager.sessionDataFromCxt ctxData with
  | none => none
  | some sd => some sd.Clear

/-- `JSONCodec`; `marshal` and `unmarshal` are `sonic.Marshal` and
`sonic.Unmarshal` on `Aux`, given as the pair `(V, CR)`. -/
def JSONCodec (marshal : Option Values × List Nat → Except String (List Nat))
    (unmarshal : List Nat → Except String (Option Values × List Nat)) : Codec (List Nat) :=
  { Encode := fun csrfToken values => marshal (values, csrfToken)
    Decode := fun b dstCsrfToken =>
      match unmarshal b with
      | .error e => (Slice.nil, none, some e)
      | .ok aux => (dstCsrfToken.append aux.2, aux.1, none) }

/-- A session holding the two entries `a = 1` and `b = "x"`. -/
def sampleData : Data :=
  { Data.new with values := some [("a", Value.int 1), ("b", Value.str "x")] }

/-- A store that keeps the records in a list, newest first, and never fails. -/
def listStore (β : Type) [Inhabited β] : Store (List (List Nat × β)) β :=
  { base :=
      { Find := fun st key =>
          match st.lookup key with
          | some b => (st, b, true, none)
          | none => (st, default, false, none)
        Commit := fun st key b _ _ => ((key, b) :: st, none)
        Delete := fun st key => (st.filter (fun e => e.1 != key), none) }
    ctx := none }

/-- A codec whose encoded record is the pair it was given. -/
def pairCodec : Codec (List Nat × Option Values) :=
  { Encode := fun csrfToken values => .ok (csrfToken, values)
    Decode := fun b dst => (dst.append b.1, b.2, none) }


/-- A downstream handler that calls `session.Put(c, key, val)` and returns nil,
as the first handler of `TestEnable` does. -/
def putHandler (key : String) (val : Value) (d : Data) (w : World σ β) :
    Option (Option SessionError × Data × World σ β) :=
  match Manager.Put (some d) key val with
  | none => none
  | some d1 => some (none, d1, w)

/-- A downstream handler that changes nothing and returns nil. -/
def readHandler (d : Data) (w : World σ β) :
    Option (Option SessionError × Data × World σ β) :=
  some (none, d, w)

/-- A manager over `listStore` and `pairCodec` with a lifetime of one hour. -/
def sampleManager :
    Manager (List (List Nat × (List Nat × Option Values))) (List Nat × Option Values) :=
  { Lifetime := 3600, Store := listStore (List Nat × Option Values), Codec := pairCodec }

/-- The token `AAAA…A` of 43 characters, which decodes to 32 zero bytes. -/
def sampleToken : List Nat := List.replicate UrlEncodedTokenLen 65

/-- A pooled `Data` holding `sampleToken`. -/
def tokenData : Data :=
  { Data.new with token := { before := sessionPrefix, arr := sampleToken, len := UrlEncodedTokenLen } }

/-- A manager over `listStore` with a `JSONCodec` whose `Unmarshal` rejects
every record. -/
def corruptManager : Manager (List (List Nat × List Nat)) (List Nat) :=
  { Lifetime := 3600
    Store := listStore (List Nat)
    Codec := JSONCodec (fun _ => .ok []) (fun _ => .error "invalid character") }

/-- The token generated from the random bytes `0, 1, …, 29`, whose checksum is
`(0 * 1 + 99) * 2 = 198`. -/
def firstToken : List Nat := b64encode (List.range 30 ++ [198, 0])

/-- The CSRF token generated from the random bytes `0, 1, …, 19`. -/
def firstCsrfToken : List Nat := b64encode (List.range 20 ++ [198, 0])

/-- The store of `sampleManager` after a first request without cookie has run
`putHandler "foo" "bar"` at time 0, and the calls made on it. -/
def firstWorld :
    World (List (List Nat × (List Nat × Option Values))) (List Nat × Option Values) :=
  { store := [(sessionPrefix ++ firstToken, (firstCsrfToken, some [("foo", Value.str "bar")]))]
    calls := [StoreCall.commit false (sessionPrefix ++ firstToken)
      (firstCsrfToken, some [("foo", Value.str "bar")]) 3600 true] }

/-- The `Data` of that first request as it is released to the pool. -/
def firstData : Data :=
  { status := Status.Unmodified
    token := { before := sessionPrefix, arr := firstToken, len := 0 }
    csrfToken := { before := [], arr := firstCsrfToken, len := 0 }
    values := some []
    started := false }


/-! ## Destroying, listing and iterating sessions (`manager.go`, `data.go`, `scs.go`) -/

/-- `Manager.Destroy`: `sd.status = Destroyed` is followed by `sd.reset()`. -/
def Manager.Destroy (s : Manager σ β) (ctx : Bool) (ctxData : Option Data) (w : World σ β) :
    Option (Option SessionError × Data × World σ β) :=
  match Manager.sessionDataFromCxt ctxData with
  | none => none
  | some sd =>
    match s.doStoreDelete ctx sd.token w with
    | none => none
    | some (some err, w1) => some (some err, sd, w1)
    | some (none, w1) =>
      let sd1 : Data := { sd with status := Status.Destroyed }
      some (none, sd1.reset, w1)

/-- `Data.Status`. -/
def Data.Status (d : Data) : Status := d.status

/-- `Data.Keys`: the keys are copied in the order in which `range d.values`
yields the entries, an order the Go runtime chooses; `iter m` is that order for
the map `m`. There is no sorting step. -/
def Data.Keys (iter : Values → Values) (d : Data) : List String :=
  match d.values with
  | none => []
  | some m => (iter m).map Prod.fst

/-- `Manager.Keys`. -/
def Manager.Keys (iter : Values → Values) (ctxData : Option Data) : Option (List String) :=
  match Manager.sessionDataFromCxt ctxData with
  | none => none
  | some sd => some (sd.Keys iter)

/-- The `Max-Age` of the cookie written by `addCookieToResponse`:
`int(cfg.Lifetime.Seconds())` when `!cfg.DisableCokPersist || rememberMe`, and
none when no cookie is set. -/
def CookieAction.maxAge (disableCokPersist : Bool) (lifetimeSeconds : Int) :
    CookieAction → Option Int
  | .setCookie _ rememberMe =>
    if !disableCokPersist || rememberMe then some lifetimeSeconds else none
  | .delClientCookie => none
  | .nothing => none

/-- A downstream handler that calls `Manager.Destroy` with a non-nil context
and returns what it returned. -/
def destroyHandler (s : Manager σ β) (d : Data) (w : World σ β) :
    Option (Option SessionError × Data × World σ β) :=
  s.Destroy true (some d) w

/-- The `All` and `AllCtx` methods of a store that implements `IterableStore`
and `IterableCtxStore`; the map they return is given by its entries in the
order in which `range` yields them. -/
structure IterableOps (σ β : Type) where
  All : Option (σ → σ × List (List Nat × β) × Option String)
  AllCtx : Option (σ → σ × List (List Nat × β) × Option String)

/-- `Manager.doStoreAll`; it panics when the store is not iterable. -/
def Manager.doStoreAll (it : IterableOps σ β) (ctx : Bool) (st : σ) :
    Option (σ × List (List Nat × β) × Option SessionError) :=
  match (if ctx then it.AllCtx else none) with
  | some allCtx =>
    let r := allCtx st
    some (r.1, r.2.1, r.2.2.map (fun e => SessionError.StoreError ("iterate sessions:" ++ e)))
  | none =>
    match it.All with
    | some all =>
      let r := all st
      some (r.1, r.2.1, r.2.2.map (fun e => SessionError.StoreError ("Delete:" ++ e)))
    | none => none

/-- The `for token, b := range allSessions` loop of `Manager.Iterate`. `ctx`
tells whether the context is non-nil: `context.WithValue` panics on a nil
parent, and returns a non-nil context that the next iteration uses. `fn` may
change the `Data` it is given and has a state of its own; the ghost log records
the `Data` and the state with which `fn` is invoked. -/
def iterateLoop (codec : Codec β) (fn : Data → τ → Option SessionError × Data × τ) :
    Bool → List (List Nat × β) → Data → τ → List (Data × τ) →
      Option (Option SessionError × Data × τ × List (Data × τ))
  | _, [], data, t, log => some (none, data, t, log)
  | ctx, (token, b) :: rest, data, t, log =>
    let data1 : Data := { data with token := data.token.append token }
    let r := codec.Decode b { data1.csrfToken with len := 0 }
    let data2 : Data := { data1 with csrfToken := r.1, values := r.2.1 }
    match r.2.2 with
    | some e => some (some (SessionError.other e), data2, t, log)
    | none =>
      if ctx then
        let out := fn data2 t
        match out.1 with
        | some err => some (some err, out.2.1.reset, out.2.2, log ++ [(data2, t)])
        | none => iterateLoop codec fn true rest out.2.1.reset out.2.2 (log ++ [(data2, t)])
      else none

/-- `Manager.Iterate`; `ctx` tells whether the context passed is non-nil,
`pooled` is the `Data` the pool hands out, and the `Data` in the result is the
one the deferred `Release` puts back. The result is `none` for a panic: a
store that is not iterable, or `context.WithValue` on a nil context. -/
def Manager.Iterate (s : Manager σ β) (it : IterableOps σ β) (ctx : Bool) (pooled : Data)
    (fn : Data → τ → Option SessionError × Data × τ) (t : τ) (st : σ) :
    Option (Option SessionError × Data × τ × σ × List (Data × τ)) :=
  match Manager.doStoreAll it ctx st with
  | none => none
  | some (st1, _, some err) => some (some err, pooled, t, st1, [])
  | some (st1, allSessions, none) =>
    match iterateLoop s.Codec fn ctx allSessions pooled t [] with
    | none => none
    | some r => some (r.1, r.2.1.reset, r.2.2.1, st1, r.2.2.2)

/-- The store of `sampleManager` holding one record, for `sampleToken`. -/
def storedWorld :
    World (List (List Nat × (List Nat × Option Values))) (List Nat × Option Values) :=
  { store := [(sessionPrefix ++ sampleToken, (firstCsrfToken, some [("foo", Value.str "bar")]))]
    calls := [] }

/-- A store whose every call fails with the error `down`. -/
def downStore (β : Type) [Inhabited β] : Store (List (List Nat × β)) β :=
  { base :=
      { Find := fun st _ => (st, default, false, some "down")
        Commit := fun st _ _ _ _ => (st, some "down")
        Delete := fun st _ => (st, some "down") }
    ctx := none }

/-- A manager over `downStore` and `pairCodec`. -/
def downManager :
    Manager (List (List Nat × (List Nat × Option Values))) (List Nat × Option Values) :=
  { Lifetime := 3600, Store := downStore (List Nat × Option Values), Codec := pairCodec }

/-- A session holding the keys `b` and `a`, put in that order. -/
def dataBA : Data :=
  { Data.new with values := some [("a", Value.int 2), ("b", Value.int 1)] }

/-- A handler for `Iterate` that counts its calls and fails on the call whose
session holds the key `stop`. -/
def countingFn (d : Data) (n : Nat) : Option SessionError × Data × Nat :=
  (if d.Exists "stop" then some (SessionError.other "expected error") else none, d, n + 1)

/-- A started session for `sampleToken` holding `foo = "bar"`, as `Start`
leaves it once the record of `storedWorld` is loaded. -/
def loadedData : Data :=
  { status := Status.Unmodified
    token := { before := sessionPrefix, arr := sampleToken, len := UrlEncodedTokenLen }
    csrfToken := { before := [], arr := firstCsrfToken, len := UrlEncodedCsrfTokenLen }
    values := some [("foo", Value.str "bar")]
    started := true }

/-- How a `Data` with which `fn` is invoked relates to a session of the store:
it holds the token of the session and what `Decode` returned for its record. -/
def holdsSession (codec : Codec β) (x : Data × τ) (session : List Nat × β) : Prop :=
  x.1.token.bytes = session.1 ∧
    ∃ dst : Slice, dst.len = 0 ∧ codec.Decode session.2 dst = (x.1.csrfToken, x.1.values, none)

/-- The `All` of a store over a list of records: every record, under its key
without the prefix, as `RedisStore.All` returns them. -/
def listIterable (β : Type) : IterableOps (List (List Nat × β)) β :=
  { All := some (fun st => (st, st.map (fun e => (e.1.drop sessionPrefix.length, e.2)), none))
    AllCtx := none }

/-- A store of `sampleManager` holding two sessions; the second one holds the
key `stop`. -/
def twoSessions : List (List Nat × (List Nat × Option Values)) :=
  [(sessionPrefix ++ sampleToken, (firstCsrfToken, some [("foo", Value.str "bar")])),
   (sessionPrefix ++ firstToken, (firstCsrfToken, some [("stop", Value.bool true)]))]

/-- The sessions of `twoSessions` as `All` returns them. -/
def twoSessionsAll : List (List Nat × (List Nat × Option Values)) :=
  [(sampleToken, (firstCsrfToken, some [("foo", Value.str "bar")])),
   (firstToken, (firstCsrfToken, some [("stop", Value.bool true)]))]

/-! ## Pooled contexts (`context.go`, `router.go`) -/

/-- What the getters of `Ctx` read of the fasthttp request: the IP of
`RemoteAddr()`, the host and the port of the `Host` header as
`utilnet.SplitIpAndPort` and `strconv.Atoi` give them (no port when either
fails or the port is empty), `IsTLS()`, and the request headers. -/
structure RequestInfo where
  remoteIP : List Nat
  host : List Nat
  port : Option Int
  isTLS : Bool
  header : String → List Nat

/-- The fields `RSecure`, `RIP`, `RPort` and `RHost` of `Ctx`. -/
structure ClientCache where
  RSecure : Int
  RIP : List Nat
  RPort : Int
  RHost : List Nat
  deriving DecidableEq

/-- A value of the interface `XFFInfo`: each method reads the request and
writes the cached fields of the `Ctx` it is given. -/
structure XFFInfo where
  Host : RequestInfo → ClientCache → ClientCache
  Port : RequestInfo → ClientCache → ClientCache
  IP : RequestInfo → ClientCache → ClientCache
  Secure : RequestInfo → ClientCache → ClientCache

/-- The fields of `Ctx` that `init` and `clear` set or leave: the request, the
`XFFInfo`, the cached client fields, the `data` map, the route (by its name),
the `bytes` scratch buffer and `index`. -/
structure PooledCtx extends ClientCache where
  request : RequestInfo
  XFFInfo : Option XFFInfo
  data : Option Values
  route : Option (List Char)
  bytes : List Nat
  index : Int

/-- `PROTOUNKNOW`. -/
def PROTOUNKNOW : Int := 0

/-- `PROTOSECURE`. -/
def PROTOSECURE : Int := 2

/-- `Ctx.init`: the request is attached and `index` is set to -1 (`Serialize`
is not modelled); no other field is assigned. -/
def PooledCtx.init (c : PooledCtx) (req : RequestInfo) : PooledCtx :=
  { c with request := req, index := -1 }

/-- `Ctx.clear`: `c.data = nil; c.route = nil`. -/
def PooledCtx.clear (c : PooledCtx) : PooledCtx :=
  { c with data := none, route := none }

/-- `Ctx.Get`, for the pooled fields. -/
def PooledCtx.Get (c : PooledCtx) (name : String) : Value :=
  match c.data with
  | none => Value.nil
  | some m => (m.lookup name).getD Value.nil

/-- `Ctx.Set`, for the pooled fields. -/
def PooledCtx.Set (c : PooledCtx) (name : String) (value : Value) : PooledCtx :=
  let m := c.data.getD []
  { c with data := some ((name, value) :: m.filter (fun e => e.1 != name)) }

/-- `Ctx.Route`. -/
def PooledCtx.Route (c : PooledCtx) : Option (List Char) := c.route

/-- `Ctx.IP`; the three ways of reading the remote address all give its IP. -/
def PooledCtx.IP (c : PooledCtx) : List Nat × PooledCtx :=
  match c.XFFInfo with
  | some x =>
    if c.RIP.length ≠ 0 then (c.RIP, c)
    else
      let c1 : PooledCtx := { c with toClientCache := x.IP c.request c.toClientCache }
      if c1.RIP.length ≠ 0 then (c1.RIP, c1) else (c1.request.remoteIP, c1)
  | none => (c.request.remoteIP, c)

/-- `Ctx.Host`. -/
def PooledCtx.Host (c : PooledCtx) : List Nat × PooledCtx :=
  match c.XFFInfo with
  | some x =>
    if c.RHost.length ≠ 0 then (c.RHost, c)
    else
      let c1 : PooledCtx := { c with toClientCache := x.Host c.request c.toClientCache }
      if c1.RHost.length ≠ 0 then (c1.RHost, c1) else (c1.request.host, c1)
  | none => (c.request.host, c)

/-- `Ctx.Secure`. -/
def PooledCtx.Secure (c : PooledCtx) : Bool × PooledCtx :=
  match c.XFFInfo with
  | some x =>
    if c.RSecure ≠ PROTOUNKNOW then (c.RSecure == PROTOSECURE, c)
    else
      let c1 : PooledCtx := { c with toClientCache := x.Secure c.request c.toClientCache }
      if c1.RSecure ≠ PROTOUNKNOW then (c1.RSecure == PROTOSECURE, c1)
      else (c1.request.isTLS, c1)
  | none => (c.request.isTLS, c)

/-- The part of `Ctx.Port` after the `XFFInfo` block. -/
def PooledCtx.portOfRequest (c : PooledCtx) : Int × PooledCtx :=
  match c.request.port with
  | some p => (p, c)
  | none =>
    let r := c.Secure
    (if r.1 then 443 else 80, r.2)

/-- `Ctx.Port`. -/
def PooledCtx.Port (c : PooledCtx) : Int × PooledCtx :=
  match c.XFFInfo with
  | some x =>
    if c.RPort > 0 then (c.RPort, c)
    else
      let c1 : PooledCtx := { c with toClientCache := x.Port c.request c.toClientCache }
      let c2 : PooledCtx := if c1.RPort < 0 then { c1 with RPort := -c1.RPort } else c1
      if c2.RPort ≠ 0 then (c2.RPort, c2) else c2.portOfRequest
  | none => c.portOfRequest

/-- The `Ctx` made by the pool's `New` of the router. -/
def PooledCtx.new : PooledCtx :=
  { RSecure := 0, RIP := [], RPort := 0, RHost := []
    request := { remoteIP := [], host := [], port := none, isTLS := false, header := fun _ => [] }
    XFFInfo := none, data := none, route := none, bytes := [], index := 0 }

/-- An `XFFInfo` that trusts the forwarding headers, after `xff.go`: `IP`
appends the client of `X-Forwarded-For` to `RIP`, `Host` appends
`X-Forwarded-Host` to `RHost`, `Secure` sets `RSecure` from
`X-Forwarded-Proto`, `Port` leaves the port as it is. -/
def trustingXFF : XFFInfo :=
  { IP := fun req c => { c with RIP := c.RIP ++ req.header "X-Forwarded-For" }
    Host := fun req c => { c with RHost := c.RHost ++ req.header "X-Forwarded-Host" }
    Port := fun _ c => c
    Secure := fun req c =>
      if (req.header "X-Forwarded-Proto").length ≠ 0 then
        { c with RSecure := if req.header "X-Forwarded-Proto" = "https".toList.map Char.toNat
                            then 2 else 1 }
      else c }

/-- A request from the proxy `10.0.0.9` made for the client `a` over https. -/
def requestOfA : RequestInfo :=
  { remoteIP := "10.0.0.9".toList.map Char.toNat, host := "a.example".toList.map Char.toNat
    port := none, isTLS := false
    header := fun h =>
      if h = "X-Forwarded-For" then "1.1.1.1".toList.map Char.toNat
      else if h = "X-Forwarded-Proto" then "https".toList.map Char.toNat
      else [] }

/-- A request from the proxy `10.0.0.9` made for the client `b` over http. -/
def requestOfB : RequestInfo :=
  { remoteIP := "10.0.0.9".toList.map Char.toNat, host := "b.example".toList.map Char.toNat
    port := none, isTLS := false
    header := fun h =>
      if h = "X-Forwarded-For" then "2.2.2.2".toList.map Char.toNat
      else if h = "X-Forwarded-Proto" then "http".toList.map Char.toNat
      else [] }

/-- The first request on a `Ctx`: the XFF middleware sets `XFFInfo`, the handler
stores a data item and reads `IP()` and `Secure()`; then `clear` runs. -/
def ctxAfterA : PooledCtx :=
  let c := PooledCtx.new.init requestOfA
  let c : PooledCtx := { c with XFFInfo := some trustingXFF }
  let c := c.Set "user" (Value.str "a")
  let c := c.IP.2
  let c := c.Secure.2
  c.clear

/-! ## CSRF check (`middleware/csrf/verifyCsrfToken.go`) -/

/-- `strings.Contains(s, substr)`. -/
def strings.Contains (s substr : List Char) : Bool :=
  s.tails.any (fun t => substr.isPrefixOf t)

/-- `ReadingMethod`. -/
def ReadingMethod : List Char := "HEADGETOPTIONS".toList

/-- `mismatchError`. -/
def mismatchError : GoError := GoError.plain "csrf token mismatch"

/-- The fields of `csrf.Config` that `handle` reads. -/
structure CsrfConfig where
  except : List (List Char)
  noCookie : Bool

/-- What `handle` reads of the request: method, path, the form value `_token`
and the headers `X-CSRF-TOKEN` and `X-XSRF-TOKEN` (empty when absent). -/
structure CsrfRequest where
  method : List Char
  path : List Char
  formToken : List Nat
  headerMeta : List Nat
  headerCookie : List Nat

/-- `Config.isReading`. -/
def CsrfConfig.isReading (req : CsrfRequest) : Bool :=
  strings.Contains ReadingMethod req.method

/-- `Config.inExceptArray`. -/
def CsrfConfig.inExceptArray (cfg : CsrfConfig) (req : CsrfRequest) : Bool :=
  cfg.except.any (fun e => e.isPrefixOf req.path)

/-- `getTokenFromRequest`. -/
def getTokenFromRequest (req : CsrfRequest) : List Nat :=
  let token := req.formToken
  let token := if token.length = 0 then req.headerMeta else token
  if token.length = 0 then req.headerCookie else token

/-- `Config.tokensMatch`; `hmac.Equal` is equality of the two byte slices. -/
def CsrfConfig.tokensMatch (req : CsrfRequest) (token2 : List Nat) : Bool :=
  let token := getTokenFromRequest req
  if token.length ≠ 0 ∧ token2.length ≠ 0 then token == token2 else false

/-- `Config.handle`. The state of the context is the value of the `XSRF-TOKEN`
cookie of the response, if one is set; `sessionData` is the `*session.Data`
stored in the context, and the type assertion panics when there is none. -/
def CsrfConfig.handle (cfg : CsrfConfig) (req : CsrfRequest) (sessionData : Option Data) :
    Option (Handler GoError (Option (List Nat))) :=
  match sessionData with
  | none => none
  | some sd =>
    let token2 := sd.csrfToken.bytes
    if CsrfConfig.isReading req || cfg.inExceptArray req ||
        CsrfConfig.tokensMatch req token2 || SimpleHash.ValidateHash token2 then
      some (Handler.next fun err =>
        if cfg.noCookie || token2.length = 0 then Handler.ret err
        else Handler.put (some token2) (Handler.ret err))
    else some (Handler.ret (some mismatchError))

/-- The chain made of the CSRF handler and an application handler that returns
nil, run on a fresh context. -/
def runCsrf (cfg : CsrfConfig) (req : CsrfRequest) (sessionData : Option Data) :
    Option (Option GoError × Ctx GoError (Option (List Nat))) :=
  match cfg.handle req sessionData with
  | none => none
  | some h => Ctx.Next [h, Handler.ret none] 2 { index := -1, st := none, trace := [] }

/-- The CSRF token `AIciAAAAAAAAAAAAAAAAAAAAAAAmDQ`, which `GenerateToken2`
makes of the random bytes `0, 135, 34, 0, …, 0`. -/
def hashedCsrfToken : List Nat :=
  "AIciAAAAAAAAAAAAAAAAAAAAAAAmDQ".toList.map Char.toNat

/-- A started session whose CSRF token is `hashedCsrfToken`. -/
def hashedCsrfData : Data :=
  { loadedData with
    csrfToken := { before := [], arr := hashedCsrfToken, len := UrlEncodedCsrfTokenLen } }

/-- A `POST /transfer` that carries no CSRF token. -/
def postWithoutToken : CsrfRequest :=
  { method := "POST".toList, path := "/transfer".toList, formToken := [], headerMeta := [],
    headerCookie := [] }

/-! ## Group paths (`helpers.go`) -/

/-- `strings.TrimRight(s, cutset)`: `s` without its trailing characters that
occur in `cutset`. -/
def TrimRight (s cutset : List Char) : List Char :=
  s.rdropWhile (fun c => cutset.contains c)

/-- `getGroupPath(prefix, path)`. -/
def getGroupPath (groupPrefix path : List Char) : List Char :=
  if path.length = 0 then groupPrefix
  else
    let path := if path.head? ≠ some '/' then '/' :: path else path
    TrimRight groupPrefix ['/'] ++ path

/-! ## Quicksort (`helpers/algo/quickSort.go`)

A slice is the list of its elements; `cmp` returns a Go `int`. A result of
`none` stands for an index out of range, or for an exhausted fuel budget. -/

/-- The loop `for cmp(s[j], temp) >= 0 && j > p { j-- }`: the value of `j` when
it ends. -/
def scanDown (cmp : α → α → Int) (s : List α) (temp : α) (p : Nat) : Nat → Option Nat
  | 0 =>
    match s[0]? with
    | none => none
    | some _ => some 0
  | j + 1 =>
    match s[j + 1]? with
    | none => none
    | some x => if 0 ≤ cmp x temp ∧ p < j + 1 then scanDown cmp s temp p j else some (j + 1)

/-- The loop `for cmp(s[i], temp) <= 0 && i < p { i++ }` with `n = p - i`
iterations left at most: the value of `i` when it ends. -/
def scanUpAux (cmp : α → α → Int) (s : List α) (temp : α) (p : Nat) : Nat → Nat → Option Nat
  | 0, i =>
    match s[i]? with
    | none => none
    | some x => if cmp x temp ≤ 0 ∧ i < p then none else some i
  | n + 1, i =>
    match s[i]? with
    | none => none
    | some x => if cmp x temp ≤ 0 ∧ i < p then scanUpAux cmp s temp p n (i + 1) else some i

/-- The loop `for cmp(s[i], temp) <= 0 && i < p { i++ }`. -/
def scanUp (cmp : α → α → Int) (s : List α) (temp : α) (p i : Nat) : Option Nat :=
  scanUpAux cmp s temp p (p - i) i

/-- The statements `s[p] = s[k]; p = k`. -/
def moveTo (s : List α) (p k : Nat) : Option (List α × Nat) :=
  match s[k]? with
  | none => none
  | some x => if p < s.length then some (s.set p x, k) else none

/-- The loop `for j > i { … }` of `quickSort`, one unit of fuel per iteration:
the slice and `p` when it ends. -/
def partLoop (cmp : α → α → Int) (temp : α) :
    Nat → List α → Nat → Nat → Nat → Option (List α × Nat)
  | 0, s, i, j, p => if i < j then none else some (s, p)
  | fuel + 1, s, i, j, p =>
    if i < j then
      match scanDown cmp s temp p j with
      | none => none
      | some j1 =>
        match (if j1 ≠ p then moveTo s p j1 else some (s, p)) with
        | none => none
        | some (s1, p1) =>
          match scanUp cmp s1 temp p1 i with
          | none => none
          | some i1 =>
            match (if i1 ≠ p1 then moveTo s1 p1 i1 else some (s1, p1)) with
            | none => none
            | some (s2, p2) => partLoop cmp temp fuel s2 i1 j1 p2
    else some (s, p)

/-- `quickSort(s, cmp)`: the slice as the call leaves it. The recursive calls
work in place on `s[:p]` and `s[p+1:]`. One unit of fuel is spent per level of
recursion, and the loop of a call gets the fuel of the call. -/
def quickSort (cmp : α → α → Int) : Nat → List α → Option (List α)
  | 0, _ => none
  | fuel + 1, s =>
    match s[0]? with
    | none => none
    | some temp =>
      match partLoop cmp temp (fuel + 1) s 0 (s.length - 1) 0 with
      | none => none
      | some (s1, p) =>
        if p < s1.length then
          let s2 := s1.set p temp
          match (if 1 < p then (quickSort cmp fuel (s2.take p)).map (fun l => l ++ s2.drop p)
                 else some s2) with
          | none => none
          | some s3 =>
            if 2 < s.length - p then
              (quickSort cmp fuel (s3.drop (p + 1))).map (fun r => s3.take (p + 1) ++ r)
            else some s3
        else none

/-- `cmp.Compare` on integers. -/
def compareInt (a b : Int) : Int := if a < b then -1 else if b < a then 1 else 0

/-! ## Order of the handler invocations (`context.go`) -/

/-- The indices of the handlers invoked, in the order of the event log. -/
def calls : List (Event ε) → List Nat
  | [] => []
  | Event.call i :: t => i :: calls t
  | Event.ret _ _ :: t => calls t

/-- A chain of two handlers: the first calls Next, ignores what it returns,
calls Abort and returns nil; the second calls Next and returns what it
returned. -/
def chainNestedNext : List (Handler Nat Unit) :=
  [Handler.next (fun _ => Handler.abort (Handler.ret none)),
   Handler.next (fun r => Handler.ret r)]

/-! ## Reverse URLs by index and by name (`route.go`) -/

/-- The validation loop of `Route.URLByIndex` from position `i` on, over
`params[i:]`: `none` is an index out of range on `r.regexps[i]`, `some none`
is a pass, `some (some e)` the error returned. `matchString` is
`(*regexp.Regexp).MatchString` and `reString` is `(*regexp.Regexp).String`. -/
def Route.URLByIndex.check (matchString : ρ → List Char → Bool) (reString : ρ → String)
    (regexps : List (Option ρ)) : Nat → List (List Char) → Option (Option GoError)
  | _, [] => some none
  | i, p :: ps =>
    match regexps[i]? with
    | none => none
    | some none =>
      if strings.Contains p ['/'] then
        some (some (GoError.plain (String.mk p ++ " contains " ++ "/")))
      else Route.URLByIndex.check matchString reString regexps (i + 1) ps
    | some (some re) =>
      if !matchString re p then
        some (some (GoError.plain
          ("param: " ++ String.mk p ++ " doesn't match " ++ reString re)))
      else Route.URLByIndex.check matchString reString regexps (i + 1) ps

/-- The loop of `Route.URLByIndex` over `r.segments`, with the locals `j` and
`url`: `s[0]` panics on an empty segment and `params[j]` panics when `j` is out
of range. -/
def Route.URLByIndex.build (params : List (List Char)) :
    List (List Char) → Nat → List Char → Option (List Char)
  | [], _, url => some url
  | s :: ss, j, url =>
    match s[0]? with
    | none => none
    | some c =>
      if c = '<' then
        match params[j]? with
        | none => none
        | some p => Route.URLByIndex.build params ss (j + 1) (url ++ p)
      else Route.URLByIndex.build params ss j (url ++ s)

/-- `Route.URLByIndex(params)`: the pair `(url, err)` returned, `none` for a
panic. -/
def Route.URLByIndex (matchString : ρ → List Char → Bool) (reString : ρ → String)
    (r : Route ρ) (params : List (List Char)) : Option (List Char × Option GoError) :=
  if params.length ≠ r.paramNames.length then
    some ([], some (GoError.plain ("paramNames count error: need " ++
      toString r.paramNames.length ++ ",got " ++ toString params.length)))
  else
    match Route.URLByIndex.check matchString reString r.regexps 0 params with
    | none => none
    | some (some e) => some ([], some e)
    | some none => (Route.URLByIndex.build params r.segments 0 []).map fun url => (url, none)

/-- The inner loop of the validation of `Route.URLByNames` for the name `n`
at the even position `i` of `names`, over `r.paramNames[i1:]`: `none` is a
panic (an index out of range on `r.regexps[i1]`, `names[i+1]` or
`r.regexps[i]`, or a nil `r.regexps[i]` whose `String` is called),
`some none` a pass and `some (some e)` the error returned. -/
def Route.URLByNames.inner (matchString : ρ → List Char → Bool) (reString : ρ → String)
    (regexps : List (Option ρ)) (names : List (List Char)) (i : Nat) (n : List Char) :
    List (List Char) → Nat → Option (Option GoError)
  | [], _ => some (some (GoError.plain ("doesn't contain paramName:" ++ String.mk n)))
  | n1 :: ps, i1 =>
    if n = n1 then
      match regexps[i1]? with
      | none => none
      | some none =>
        match names[i + 1]? with
        | none => none
        | some v =>
          if strings.Contains v ['/'] then
            some (some (GoError.plain (String.mk v ++ " contains " ++ "/")))
          else some none
      | some (some re) =>
        match names[i + 1]? with
        | none => none
        | some v =>
          if !matchString re v then
            match regexps[i]? with
            | some (some rei) =>
              some (some (GoError.plain
                ("param: " ++ String.mk v ++ " doesn't match " ++ reString rei)))
            | _ => none
          else some none
    else Route.URLByNames.inner matchString reString regexps names i n ps (i1 + 1)

/-- The validation loop of `Route.URLByNames` from position `i` on, over
`names[i:]`. -/
def Route.URLByNames.validate (matchString : ρ → List Char → Bool) (reString : ρ → String)
    (r : Route ρ) (names : List (List Char)) : List (List Char) → Nat → Option (Option GoError)
  | [], _ => some none
  | n :: rest, i =>
    if i % 2 = 0 then
      match Route.URLByNames.inner matchString reString r.regexps names i n r.paramNames 0 with
      | none => none
      | some (some e) => some (some e)
      | some none => Route.URLByNames.validate matchString reString r names rest (i + 1)
    else Route.URLByNames.validate matchString reString r names rest (i + 1)

/-- The loop `for i := range names` run for a segment `s` that starts with
`<`, from position `i` on: what is appended to `url` (`some []` when no entry
is equal to `s[1:len(s)-1]`), `none` for a panic (the slice out of range, or
`names[i+1]` out of range). -/
def Route.URLByNames.lookup (names : List (List Char)) (s : List Char) :
    List (List Char) → Nat → Option (List Char)
  | [], _ => some []
  | n :: rest, i =>
    match goSlice s 1 ((s.length : Int) - 1) with
    | none => none
    | some key =>
      if key = n then names[i + 1]?
      else Route.URLByNames.lookup names s rest (i + 1)

/-- The loop of `Route.URLByNames` over `r.segments`, with the local `url`. -/
def Route.URLByNames.build (names : List (List Char)) :
    List (List Char) → List Char → Option (List Char)
  | [], url => some url
  | s :: ss, url =>
    match s[0]? with
    | none => none
    | some c =>
      if c = '<' then
        match Route.URLByNames.lookup names s names 0 with
        | none => none
        | some v => Route.URLByNames.build names ss (url ++ v)
      else Route.URLByNames.build names ss (url ++ s)

/-- `Route.URLByNames(names)`: the pair `(url, err)` returned, `none` for a
panic. -/
def Route.URLByNames (matchString : ρ → List Char → Bool) (reString : ρ → String)
    (r : Route ρ) (names : List (List Char)) : Option (List Char × Option GoError) :=
  if names.length / 2 ≠ r.paramNames.length then
    some ([], some (GoError.plain ("paramNames count error: need " ++
      toString r.paramNames.length ++ ",got " ++ toString (names.length / 2))))
  else
    match Route.URLByNames.validate matchString reString r names names 0 with
    | none => none
    | some (some e) => some ([], some e)
    | some none => (Route.URLByNames.build names r.segments []).map fun url => (url, none)

/-- The parameter token `<name>` of a segment list. -/
def paramToken (name : List Char) : List Char := ['<'] ++ name ++ ['>']

/-- The alternating segment list the specification describes: the k-th
literal run followed by the token of the k-th parameter name. -/
def alternate : List (List Char) → List (List Char) → List (List Char)
  | l :: ls, n :: ns => l :: paramToken n :: alternate ls ns
  | _, _ => []

/-- The URL the specification describes for a segment list and a list of
`(name, value)` pairs: the concatenation of the segments, a segment `<n>`
being replaced by the value paired with `n`. -/
def substituteByName (pairs : List (List Char × List Char)) (segments : List (List Char)) :
    List Char :=
  (segments.map fun s =>
    match pairs.find? (fun p => paramToken p.1 = s) with
    | some p => p.2
    | none => s).flatten

/-- A matcher for the patterns of the examples: the pattern `^\d+` accepts the
texts that start with a digit, every other pattern accepts every text. -/
def sampleMatch (re s : List Char) : Bool :=
  if re = "^\\d+".toList then (s.head?.map Char.isDigit).getD false else true

/-- The route of the path `p` registered on an empty router, with the sample
compiler. -/
def sampleRoute (p : String) : Option (Route (List Char)) :=
  (newRoute sampleCompile [] p.toList (fun _ => none)).map Prod.fst

/-- What holds of the state of `buildURLTemplate2` after every character: the
pending literal holds no `<`, there is one regexp per parameter name, a
closed token has left a parameter name, and the segments built so
far alternate between literal runs without `<` and the tokens of the
parameter names. -/
def AltInv (ss : Stream (Compiled ρ)) : Prop :=
  '<' ∉ ss.lit ∧ ss.acc.regexps.length = ss.acc.paramNames.length ∧
  (ss.closed = true → ss.acc.paramNames ≠ []) ∧
  ∃ lits : List (List Char), lits.length = ss.acc.paramNames.length ∧
    ss.acc.segments = alternate lits ss.acc.paramNames ∧ ∀ l ∈ lits, '<' ∉ l

/-- The states of the two scanners after the same characters: the same pending
literal and token, and the template built so far is the concatenation of the
segments built so far. -/
def BothRel (s1 : Stream (List Char)) (s2 : Stream (Compiled ρ)) : Prop :=
  s1.lit = s2.lit ∧ s1.tok = s2.tok ∧ s1.closed = s2.closed ∧
  s1.acc = s2.acc.segments.flatten ∧ (s2.closed = false → s2.acc.segments = [])

/-- What `buildURLTemplate2` returns for `/users/<id:\d+>/x<n>` with the
sample compiler. -/
def sampleCompiled : Compiled (List Char) :=
  { segments := ["/users/".toList, "<id>".toList, "/x".toList, "<n>".toList]
    paramNames := ["id".toList, "n".toList]
    regexps := [some "^\\d+".toList, none] }

/-- The token texts the scanners close in a text: a token is opened by a `<`
met outside a token and closed by the first `>` after it; `pending` is the
text of a token that is open where the text starts. A token still open at the
end is not listed. -/
def tokensFrom : Option (List Char) → List Char → List (List Char)
  | _, [] => []
  | none, c :: cs => if c = '<' then tokensFrom (some []) cs else tokensFrom none cs
  | some t, c :: cs =>
    if c = '>' then t :: tokensFrom none cs else tokensFrom (some (t ++ [c])) cs

/-- The token texts of a path. -/
def pathTokens (path : List Char) : List (List Char) := tokensFrom none path

/-- The regular expressions of a path: for each of its tokens, the text after
the first `:` when that text is not empty. -/
def pathRegexps (path : List Char) : List (List Char) :=
  (pathTokens path).filterMap tokenRegexp

/-- The cookie value `AAAA`, which decodes to three zero bytes. -/
def shortToken : List Nat := List.replicate 4 65

/-- The cookie value of 44 characters `A`, which decodes to 33 zero bytes. -/
def longToken : List Nat := List.replicate 44 65

/-! ## Redis store (`middleware/session/redisstore/redisstore.go`)

The Redis client is not part of the repository: it is a parameter. A command
sent with `cli.Do` and read with `Error`, `AsBytes`, `AsInt64`, `AsScanEntry`
or `AsStrSlice` is one operation on a connection state `κ`, which returns the
new state and either the error or the value read. -/

/-- The commands `RedisStore` sends. `Get` answers `none` for the null reply
(`rueidis.Nil`). `Scan` answers the next cursor and the elements of the
page. -/
structure RedisClient (κ : Type) where
  Get : κ → List Nat → κ × Except String (Option (List Nat))
  Set : κ → List Nat → List Nat → Int → κ × Option String
  Expireat : κ → List Nat → Int → κ × Except String Int
  Unlink : κ → List Nat → κ × Option String
  Del : κ → List Nat → κ × Option String
  Scan : κ → Nat → List Nat → Nat → κ × Except String (Nat × List (List Nat))
  Mget : κ → List (List Nat) → κ × Except String (List (List Nat))

/-- `RedisStore`; `keyPrefix` is the field `prefix`. -/
structure RedisStore (κ : Type) where
  cli : RedisClient κ
  keyPrefix : List Nat

/-- What `Find` and `FindCtx` do with the reply to `GET key`. -/
def RedisStore.findKey (r : RedisStore κ) (st : κ) (key : List Nat) :
    κ × List Nat × Bool × Option String :=
  match r.cli.Get st key with
  | (st1, Except.ok none) => (st1, [], false, none)
  | (st1, Except.error e) => (st1, [], false, some e)
  | (st1, Except.ok (some b)) => (st1, b, true, none)

/-- `RedisStore.Find`: the key is `BtoS(tokenWithPrefix)`. -/
def RedisStore.Find (r : RedisStore κ) (st : κ) (tokenWithPrefix : List Nat) :
    κ × List Nat × Bool × Option String :=
  r.findKey st tokenWithPrefix

/-- `RedisStore.FindCtx`: the key is `r.prefix+string(tokenWithPrefix)`. -/
def RedisStore.FindCtx (r : RedisStore κ) (st : κ) (tokenWithPrefix : List Nat) :
    κ × List Nat × Bool × Option String :=
  r.findKey st (r.keyPrefix ++ tokenWithPrefix)

/-- `RedisStore.Commit`; `expiry` is the Unix time of the expiry. -/
def RedisStore.Commit (r : RedisStore κ) (st : κ) (tokenWithPrefix encodedData : List Nat)
    (expiry : Int) (modified : Bool) : κ × Option String :=
  if !modified then
    match r.cli.Expireat st tokenWithPrefix expiry with
    | (st1, Except.error e) => (st1, some e)
    | (st1, Except.ok count) =>
      if count ≠ 0 then (st1, none)
      else r.cli.Set st1 tokenWithPrefix encodedData expiry
  else r.cli.Set st tokenWithPrefix encodedData expiry

/-- `RedisStore.CommitCtx`: the same commands as `Commit`. -/
def RedisStore.CommitCtx (r : RedisStore κ) (st : κ) (tokenWithPrefix encodedData : List Nat)
    (expiry : Int) (modified : Bool) : κ × Option String :=
  if !modified then
    match r.cli.Expireat st tokenWithPrefix expiry with
    | (st1, Except.error e) => (st1, some e)
    | (st1, Except.ok count) =>
      if count ≠ 0 then (st1, none)
      else r.cli.Set st1 tokenWithPrefix encodedData expiry
  else r.cli.Set st tokenWithPrefix encodedData expiry

/-- `RedisStore.Delete`: `UNLINK`, and `DEL` when that fails, both on the key
`r.prefix+string(tokenWithPrefix)`. -/
def RedisStore.Delete (r : RedisStore κ) (st : κ) (tokenWithPrefix : List Nat) :
    κ × Option String :=
  match r.cli.Unlink st (r.keyPrefix ++ tokenWithPrefix) with
  | (st1, some _) => r.cli.Del st1 (r.keyPrefix ++ tokenWithPrefix)
  | (st1, none) => (st1, none)

/-- `RedisStore.DeleteCtx`: `DEL` on the key `BtoS(tokenWithPrefix)`. -/
def RedisStore.DeleteCtx (r : RedisStore κ) (st : κ) (tokenWithPrefix : List Nat) :
    κ × Option String :=
  r.cli.Del st tokenWithPrefix

/-- The assignment `all[k] = v` on a map held as a list of entries. -/
def mapSet (all : List (List Nat × List Nat)) (k v : List Nat) : List (List Nat × List Nat) :=
  all.filter (fun e => e.1 != k) ++ [(k, v)]

/-- The loop `for i := range sega` of `All` and `AllCtx` from position `i` on,
over `sega[i:]`: `none` is a panic (`entry.Elements[i]` out of range, or an
element shorter than the key prefix). -/
def RedisStore.fill (keyPrefix : List Nat) (elements : List (List Nat)) :
    List (List Nat) → Nat → List (List Nat × List Nat) → Option (List (List Nat × List Nat))
  | [], _, all => some all
  | v :: rest, i, all =>
    if v = [] then RedisStore.fill keyPrefix elements rest (i + 1) all
    else
      match elements[i]? with
      | none => none
      | some e =>
        if keyPrefix.length ≤ e.length then
          RedisStore.fill keyPrefix elements rest (i + 1) (mapSet all (e.drop keyPrefix.length) v)
        else none

/-- What `All` and `AllCtx` return after their loop: a nil map when no record
was collected. -/
def RedisStore.allResult (all : List (List Nat × List Nat)) :
    Except String (Option (List (List Nat × List Nat))) :=
  if all.length ≠ 0 then Except.ok (some all) else Except.ok none

/-- The loop of `RedisStore.AllCtx`, with the locals `cursor` and `all`; the
pattern is `r.prefix+"*"` (the byte 42 is `*`). The outer `none` is fuel that
ran out before the loop ended, the inner `none` a panic. -/
def RedisStore.AllCtx.loop (r : RedisStore κ) :
    Nat → κ → Nat → List (List Nat × List Nat) →
      Option (Option (κ × Except String (Option (List (List Nat × List Nat)))))
  | 0, _, _, _ => none
  | fuel + 1, st, cursor, all =>
    match r.cli.Scan st cursor (r.keyPrefix ++ [42]) 1000 with
    | (st1, Except.error e) => some (some (st1, Except.error e))
    | (st1, Except.ok (next, elements)) =>
      if elements.length = 0 then RedisStore.AllCtx.loop r fuel st1 cursor all
      else
        match r.cli.Mget st1 elements with
        | (st2, Except.error e) => some (some (st2, Except.error e))
        | (st2, Except.ok sega) =>
          match RedisStore.fill r.keyPrefix elements sega 0 all with
          | none => some none
          | some all1 =>
            if next = 0 then some (some (st2, RedisStore.allResult all1))
            else RedisStore.AllCtx.loop r fuel st2 next all1

/-- `RedisStore.AllCtx`. -/
def RedisStore.AllCtx (r : RedisStore κ) (fuel : Nat) (st : κ) :
    Option (Option (κ × Except String (Option (List (List Nat × List Nat))))) :=
  RedisStore.AllCtx.loop r fuel st 0 []

/-- The loop of `RedisStore.All`, with the locals `cursor` and `all`. -/
def RedisStore.All.loop (r : RedisStore κ) :
    Nat → κ → Nat → List (List Nat × List Nat) →
      Option (Option (κ × Except String (Option (List (List Nat × List Nat)))))
  | 0, _, _, _ => none
  | fuel + 1, st, cursor, all =>
    match r.cli.Scan st cursor (r.keyPrefix ++ [42]) 1000 with
    | (st1, Except.error e) => some (some (st1, Except.error e))
    | (st1, Except.ok (next, elements)) =>
      if next = 0 then some (some (st1, RedisStore.allResult all))
      else if elements.length = 0 then RedisStore.All.loop r fuel st1 next all
      else
        match r.cli.Mget st1 elements with
        | (st2, Except.error e) => some (some (st2, Except.error e))
        | (st2, Except.ok sega) =>
          match RedisStore.fill r.keyPrefix elements sega 0 all with
          | none => some none
          | some all1 => RedisStore.All.loop r fuel st2 next all1

/-- `RedisStore.All`. -/
def RedisStore.All (r : RedisStore κ) (fuel : Nat) (st : κ) :
    Option (Option (κ × Except String (Option (List (List Nat × List Nat))))) :=
  RedisStore.All.loop r fuel st 0 []

/-- A Redis server for the examples: the keyspace is a list of keys with their
values (expiry times are not kept), no command fails, and `SCAN` answers the
keys that match `pattern` (a prefix followed by `*`) page by page, `count`
keys to a page, the cursor being the position of the next page. -/
def listRedis : RedisClient (List (List Nat × List Nat)) :=
  { Get := fun st key => (st, Except.ok (st.lookup key))
    Set := fun st key v _ => (st.filter (fun e => e.1 != key) ++ [(key, v)], none)
    Expireat := fun st key _ => (st, Except.ok (if (st.lookup key).isSome then 1 else 0))
    Unlink := fun st key => (st.filter (fun e => e.1 != key), none)
    Del := fun st key => (st.filter (fun e => e.1 != key), none)
    Scan := fun st cursor pattern count =>
      let keys := (st.map Prod.fst).filter (fun k => pattern.dropLast.isPrefixOf k)
      (st, Except.ok (if cursor + count < keys.length then cursor + count else 0,
        (keys.drop cursor).take count))
    Mget := fun st keys => (st, Except.ok (keys.map fun k => (st.lookup k).getD [])) }

/-- The store `redisstore.New` gives on the server of the examples. -/
def sampleRedisStore : RedisStore (List (List Nat × List Nat)) :=
  { cli := listRedis, keyPrefix := sessionPrefix }

/-- The `tokenWithPrefix` of `sampleToken`. -/
def sampleKey : List Nat := sessionPrefix ++ sampleToken

/-- An encoded record. -/
def sampleRecord : List Nat := [1, 2, 3]

/-! ## Host and port of an address (`helpers/utilnet/ip.go`, `context.go`) -/

/-- `strings.Index(s, substr)` for a `substr` of one byte `c`: the position of
the first `c`, or -1. -/
def strings.Index (s : List Char) (c : Char) : Int :=
  if c ∈ s then (s.indexOf c : Int) else -1

/-- `strings.LastIndex(s, substr)` for a `substr` of one byte `c`: the position
of the last `c`, or -1. -/
def strings.LastIndex (s : List Char) (c : Char) : Int :=
  if c ∈ s then (s.length : Int) - 1 - (s.reverse.indexOf c : Int) else -1

/-- `strings.Count(s, substr)` for a `substr` of one byte `c`. -/
def strings.Count (s : List Char) (c : Char) : Nat := s.count c

/-- `InvalidIP`. -/
def InvalidIP : GoError := GoError.plain "invalid ip format"

/-- `SplitIpAndPort(addr)`: the triple `(ip, port, err)` returned, `none` for
a panic (an index or a slice out of range). -/
def SplitIpAndPort (addr : List Char) : Option (List Char × List Char × Option GoError) :=
  match addr[0]? with
  | none => none
  | some c0 =>
    if c0 = '[' then
      let i := strings.Index addr ']'
      if i = -1 then some ([], [], some InvalidIP)
      else if i = (addr.length : Int) - 1 then
        (goSlice addr 1 i).map fun ip => (ip, [], none)
      else
        match addr[(i + 1).toNat]? with
        | none => none
        | some c =>
          if c = ':' then do
            let ip ← goSlice addr 1 i
            let port ← goSlice addr (i + 2) addr.length
            if port.length = 0 then some (ip, port, some InvalidIP)
            else some (ip, port, none)
          else some ([], [], some InvalidIP)
    else
      let colonCount := strings.Count addr ':'
      if colonCount = 1 ∨ colonCount = 8 then do
        let i := strings.LastIndex addr ':'
        let ip ← goSlice addr 0 i
        let port ← goSlice addr (i + 1) addr.length
        some (ip, port, none)
      else if colonCount ≠ 0 then some ([], [], some InvalidIP)
      else some (addr, [], none)

/-- The last two lines of `Ctx.Host`, reached when `c.XFFInfo` is nil or has
set no `RHost`: `header` is `c.Request.Header.Host()`, which is empty for a
request without a `Host` header. -/
def Ctx.hostFromHeader (header : List Char) : Option (List Char) :=
  (SplitIpAndPort header).map fun r => r.1

/-- Concatenation of a list of strings. -/
def joinAll : List String → String
  | [] => ""
  | s :: ss => s ++ joinAll ss

/-- The value of the Allow header for a path, spelled out: every method whose
store matches the path, each followed by a comma, in the order of the `range`
over the stores, then `OPTIONS`. -/
def allowHeader
    (stores : List (String × (String → Option (List (Handler GoError CtxFields)))))
    (path : String) : String :=
  joinAll ((stores.filter (fun ms => (ms.2 path).isSome)).map (fun ms => ms.1 ++ ","))
    ++ "OPTIONS"

/-- A chain of three handlers that call neither Next nor Abort; the second one
returns an error. -/
def chainFailingSecond : List (Handler Nat Unit) :=
  [Handler.ret none, Handler.ret (some 7), Handler.ret none]

/-- A chain of three handlers whose second handler calls Abort and returns nil;
the first one wraps the rest of the chain with a call of Next. -/
def chainAbortSecond : List (Handler Nat Unit) :=
  [Handler.next (fun r => Handler.ret r), Handler.abort (Handler.ret none), Handler.ret (some 1)]

/-- Two handlers that just return nil. -/
def chainPlainNil : List (Handler Nat Unit) :=
  [Handler.ret none, Handler.ret none]

/-- The context of a fresh request: `init` has set `index = -1`. -/
def freshCtx : Ctx Nat Unit := { index := -1, st := (), trace := [] }

/-! ## Theorems: handler chain -/

theorem runHandler_plain (n : Nat) (nextFn : Ctx ε σ → Option (Option ε × Ctx ε σ))
    (h : Handler ε σ) (hp : h.plain) (c : Ctx ε σ) :
    ∃ e s, runHandler n nextFn h c = some (e, { c with st := s }) := by
  induction h generalizing c with
  | ret e => exact ⟨e, c.st, rfl⟩
  | abort k _ => exact absurd hp (by simp [Handler.plain])
  | next k _ => exact absurd hp (by simp [Handler.plain])
  | get k ih =>
    simp only [Handler.plain] at hp
    simpa [runHandler] using ih c.st (hp c.st) c
  | put s k ih =>
    simp only [Handler.plain] at hp
    obtain ⟨e, s1, h1⟩ := ih hp { c with st := s }
    exact ⟨e, s1, by simpa [runHandler] using h1⟩

theorem loop_plain (hs : List (Handler ε σ)) (hp : ∀ h ∈ hs, h.plain) (fuel : Nat) :
    ∀ (d s : Nat) (c : Ctx ε σ), c.index = (s : Int) → s + d = hs.length → d ≤ fuel →
      ∃ r c1 rs, loop hs fuel c = some (r, c1) ∧ c1.trace = c.trace ++ invocations s rs ∧
        ((r = none ∧ (∀ x ∈ rs, x = none) ∧ s + rs.length = hs.length) ∨
         (∃ e k, r = some e ∧ rs = List.replicate k none ++ [some e] ∧
            s + k < hs.length)) := by
  induction fuel with
  | zero =>
    intro d s c hc hd hf
    have hd0 : d = 0 := by omega
    refine ⟨none, c, [], ?_, by simp [invocations], Or.inl ⟨rfl, by simp, by simpa [hd0] using hd⟩⟩
    have : ¬ (c.index < (hs.length : Int)) := by omega
    simp [loop, this]
  | succ fuel ih =>
    intro d s c hc hd hf
    by_cases hlt : c.index < (hs.length : Int)
    · have hs0 : ¬ c.index < 0 := by omega
      have hsn : s < hs.length := by omega
      have hget : hs[c.index.toNat]? = some (hs[s]) := by
        have : c.index.toNat = s := by omega
        rw [this]; exact List.getElem?_eq_getElem hsn
      have hpl : (hs[s]).plain := hp _ (List.getElem_mem hsn)
      obtain ⟨e, st1, hrun⟩ := runHandler_plain hs.length
        (fun c1 => loop hs fuel { c1 with index := c1.index + 1 }) (hs[s]) hpl
        { c with trace := c.trace ++ [Event.call c.index.toNat] }
      have htn : c.index.toNat = s := by omega
      cases e with
      | some err =>
        let t1 := c.trace ++ [Event.call c.index.toNat] ++ [Event.ret c.index.toNat (some err)]
        refine ⟨some err, { index := c.index, st := st1, trace := t1 },
          [some err], ?_, ?_, Or.inr ⟨err, 0, rfl, by simp, by omega⟩⟩
        · simp only [loop, hlt, hs0, if_true, if_false, hget, hrun]
        · simp [t1, invocations, htn]
      | none =>
        let t1 := c.trace ++ [Event.call c.index.toNat] ++ [Event.ret c.index.toNat none]
        obtain ⟨r, c1, rs, hl, htr, hcase⟩ := ih (d - 1) (s + 1)
          { index := c.index + 1, st := st1, trace := t1 }
          (by simp [hc]) (by omega) (by omega)
        refine ⟨r, c1, none :: rs, ?_, ?_, ?_⟩
        · simp only [loop, hlt, hs0, if_true, if_false, hget, hrun]
          exact hl
        · simp [htr, t1, invocations, htn]
        · rcases hcase with ⟨h1, h2, h3⟩ | ⟨e, k, h1, h2, h3⟩
          · refine Or.inl ⟨h1, ?_, by simp; omega⟩
            intro x hx
            rcases List.mem_cons.1 hx with hx | hx
            · exact hx
            · exact h2 x hx
          · exact Or.inr ⟨e, k + 1, h1, by simp [h2, List.replicate_succ], by omega⟩
    · have hd0 : d = 0 := by omega
      refine ⟨none, c, [], ?_, by simp [invocations], Or.inl ⟨rfl, by simp, by simpa [hd0] using hd⟩⟩
      simp [loop, hlt]

/-- C1: in a chain whose handlers call neither Next nor Abort, `Ctx.Next` (with
fuel for every handler) returns; the handlers it invokes are those at the
consecutive indices after the current one, each returning before the next is
invoked; either all of them returned nil, every handler up to the last was
invoked and Next returns nil, or the last one invoked is the first to return an
error, Next returns exactly that error and nothing is invoked after it. -/
theorem Next_plain_chain (hs : List (Handler ε σ)) (hp : ∀ h ∈ hs, h.plain)
    (c : Ctx ε σ) (h0 : -1 ≤ c.index) (h1 : c.index < (hs.length : Int))
    (fuel : Nat) (hf : hs.length ≤ fuel) :
    ∃ r c1 rs, c.Next hs fuel = some (r, c1) ∧
      c1.trace = c.trace ++ invocations (c.index + 1).toNat rs ∧
      ((r = none ∧ (∀ x ∈ rs, x = none) ∧ (c.index + 1).toNat + rs.length = hs.length) ∨
       (∃ e k, r = some e ∧ rs = List.replicate k none ++ [some e] ∧
          (c.index + 1).toNat + k < hs.length)) := by
  have := loop_plain hs hp fuel (hs.length - (c.index + 1).toNat) (c.index + 1).toNat
    { c with index := c.index + 1 } (by simp; omega) (by omega) (by omega)
  simpa [Ctx.Next] using this

/-- Hoare-style rule for handler bodies: a predicate kept by `Abort`, by writes to
the rest of the context and by `Next` (which must return) holds when the handler
returns, and the handler does return. -/
theorem runHandler_inv (P : Ctx ε σ → Prop) (n : Nat)
    (nextFn : Ctx ε σ → Option (Option ε × Ctx ε σ))
    (hAbort : ∀ c, P c → P (c.Abort n))
    (hPut : ∀ c s, P c → P { c with st := s })
    (hNext : ∀ c, P c → ∃ r c1, nextFn c = some (r, c1) ∧ P c1)
    (h : Handler ε σ) (c : Ctx ε σ) (hc : P c) :
    ∃ r c1, runHandler n nextFn h c = some (r, c1) ∧ P c1 := by
  induction h generalizing c with
  | ret e => exact ⟨e, c, rfl, hc⟩
  | abort k ih => simpa [runHandler] using ih (c.Abort n) (hAbort c hc)
  | next k ih =>
    obtain ⟨r, c1, h1, h2⟩ := hNext c hc
    obtain ⟨r2, c2, h3, h4⟩ := ih r c1 h2
    exact ⟨r2, c2, by simp [runHandler, h1, h3], h4⟩
  | get k ih => simpa [runHandler] using ih c.st c hc
  | put s k ih => simpa [runHandler] using ih { c with st := s } (hPut c s hc)

theorem runHandler_abortsNil (n : Nat) (nextFn : Ctx ε σ → Option (Option ε × Ctx ε σ))
    (h : Handler ε σ) (b : Bool) (ha : h.abortsNil b) (c : Ctx ε σ)
    (hb : b = true → c.index = (n : Int)) :
    ∃ s, runHandler n nextFn h c = some (none, { index := (n : Int), st := s, trace := c.trace }) := by
  induction h generalizing c b with
  | ret e =>
    obtain ⟨he, hb1⟩ := ha
    refine ⟨c.st, ?_⟩
    have := hb hb1
    cases c
    simp_all [runHandler]
  | abort k ih => simpa [runHandler, Ctx.Abort] using ih true ha (c.Abort n) (fun _ => rfl)
  | next k _ => exact absurd ha (by simp [Handler.abortsNil])
  | get k ih =>
    simp only [Handler.abortsNil] at ha
    simpa [runHandler] using ih c.st b (ha c.st) c hb
  | put s k ih =>
    simp only [Handler.abortsNil] at ha
    obtain ⟨s1, h1⟩ := ih b ha { c with st := s } hb
    exact ⟨s1, by simpa [runHandler] using h1⟩

theorem loop_done (hs : List (Handler ε σ)) (fuel : Nat) (c : Ctx ε σ)
    (hc : c.done hs.length) : loop hs fuel c = some (none, c) := by
  have : ¬ (c.index < (hs.length : Int)) := by
    simp only [Ctx.done] at hc; omega
  cases fuel <;> simp [loop, this]

/-- The loop returns when it has one unit of fuel per remaining handler; the
index it leaves is at least `min index n`, and the log only grows. -/
theorem loop_total (hs : List (Handler ε σ)) (fuel : Nat) :
    ∀ c : Ctx ε σ, 0 ≤ c.index → (hs.length : Int) ≤ c.index + fuel →
      ∃ r c1, loop hs fuel c = some (r, c1) ∧ min c.index hs.length ≤ c1.index ∧
        c.trace <+: c1.trace ∧
        (c.index < (hs.length : Int) → c.trace ++ [Event.call c.index.toNat] <+: c1.trace) := by
  induction fuel with
  | zero =>
    intro c h0 hf
    have : c.done hs.length := by simp only [Ctx.done]; omega
    exact ⟨none, c, loop_done hs 0 c this, by omega, List.prefix_refl _, fun h => by omega⟩
  | succ fuel ih =>
    intro c h0 hf
    by_cases hlt : c.index < (hs.length : Int)
    · have hs0 : ¬ c.index < 0 := by omega
      have hsn : c.index.toNat < hs.length := by omega
      have hget : hs[c.index.toNat]? = some (hs[c.index.toNat]) := List.getElem?_eq_getElem hsn
      let t0 := c.trace ++ [Event.call c.index.toNat]
      obtain ⟨r, c1, hrun, hidx, htr⟩ := runHandler_inv
        (fun c1 : Ctx ε σ => c.index ≤ c1.index ∧ t0 <+: c1.trace) hs.length
        (fun c1 => loop hs fuel { c1 with index := c1.index + 1 })
        (fun c1 h1 => ⟨by simp only [Ctx.Abort]; omega, h1.2⟩)
        (fun c1 s h1 => h1)
        (fun c1 h1 => by
          obtain ⟨r, c2, h2, h3, h4, _⟩ := ih { c1 with index := c1.index + 1 }
            (by simp only; omega) (by simp only; omega)
          refine ⟨r, c2, h2, ?_, h1.2.trans h4⟩
          simp only at h3
          omega)
        (hs[c.index.toNat]) { c with trace := t0 } ⟨le_refl _, List.prefix_refl _⟩
      have hpre : c.trace <+: c1.trace := (List.prefix_append _ _).trans htr
      cases r with
      | some e =>
        refine ⟨some e, { c1 with trace := c1.trace ++ [Event.ret c.index.toNat (some e)] },
          ?_, ?_, ?_, fun _ => ?_⟩
        · simp only [loop, hlt, hs0, if_true, if_false, hget, hrun, t0]
        · simp only; omega
        · exact hpre.trans (List.prefix_append _ _)
        · exact htr.trans (List.prefix_append _ _)
      | none =>
        let t1 := c1.trace ++ [Event.ret c.index.toNat none]
        obtain ⟨r, c2, h2, h3, h4, _⟩ := ih { index := c1.index + 1, st := c1.st, trace := t1 }
          (by simp only; omega) (by simp only; omega)
        refine ⟨r, c2, ?_, ?_, ?_, fun _ => ?_⟩
        · simp only [loop, hlt, hs0, if_true, if_false, hget, hrun, t0]
          exact h2
        · simp only at h3; omega
        · exact (hpre.trans (List.prefix_append _ _)).trans h4
        · exact (htr.trans (List.prefix_append _ _)).trans h4
    · have : c.done hs.length := by simp only [Ctx.done]; omega
      exact ⟨none, c, loop_done hs _ c this, by omega, List.prefix_refl _, fun h => absurd h hlt⟩

/-- Invariant of a chain whose handler `k` aborts and returns nil: the loop is
only ever entered at an index `≤ k` or in the terminal state, it leaves the
index below `k` (an earlier handler failed) or terminal, and no index above
`k` enters the log. -/
theorem loop_abort_inv (hs : List (Handler ε σ)) (k : Nat) (h : Handler ε σ)
    (hk : hs[k]? = some h) (ha : h.abortsNil false) (fuel : Nat) :
    ∀ c : Ctx ε σ, 0 ≤ c.index → (hs.length : Int) ≤ c.index + fuel →
      (c.index ≤ k ∨ (hs.length : Int) ≤ c.index) →
      (∀ j, Event.call j ∈ c.trace → j ≤ k) →
      ∃ r c1, loop hs fuel c = some (r, c1) ∧ min c.index hs.length ≤ c1.index ∧
        (c1.index < k ∨ (hs.length : Int) ≤ c1.index) ∧
        (∀ j, Event.call j ∈ c1.trace → j ≤ k) := by
  have hkn : k < hs.length := (List.getElem?_eq_some_iff.1 hk).1
  induction fuel with
  | zero =>
    intro c h0 hf hr ht
    have : c.done hs.length := by simp only [Ctx.done]; omega
    exact ⟨none, c, loop_done hs 0 c this, by omega, Or.inr (by omega), ht⟩
  | succ fuel ih =>
    intro c h0 hf hr ht
    by_cases hlt : c.index < (hs.length : Int)
    · have hs0 : ¬ c.index < 0 := by omega
      have hsn : c.index.toNat < hs.length := by omega
      have hget : hs[c.index.toNat]? = some (hs[c.index.toNat]) := List.getElem?_eq_getElem hsn
      have hik : c.index.toNat ≤ k := by omega
      let t0 := c.trace ++ [Event.call c.index.toNat]
      have ht0 : ∀ j, Event.call j ∈ t0 → j ≤ k := by
        intro j hj
        rcases List.mem_append.1 hj with hj | hj
        · exact ht j hj
        · simp only [List.mem_singleton, Event.call.injEq] at hj
          omega
      have hstep : ∃ r c1, runHandler hs.length
          (fun c1 => loop hs fuel { c1 with index := c1.index + 1 }) (hs[c.index.toNat])
          { c with trace := t0 } = some (r, c1) ∧ c.index ≤ c1.index ∧
          (c1.index < k ∨ (hs.length : Int) ≤ c1.index) ∧
          (∀ j, Event.call j ∈ c1.trace → j ≤ k) := by
        by_cases hck : c.index.toNat = k
        · have hh : hs[c.index.toNat] = h := by
            have h2 : hs[c.index.toNat]? = some h := by rw [hck]; exact hk
            exact Option.some.inj (hget.symm.trans h2)
          obtain ⟨s1, h1⟩ := runHandler_abortsNil hs.length
            (fun c1 => loop hs fuel { c1 with index := c1.index + 1 }) h false ha
            { c with trace := t0 } (by simp)
          rw [hh]
          exact ⟨none, _, h1, by simp only; omega, Or.inr (le_refl _), ht0⟩
        · obtain ⟨r, c1, hrun, hP⟩ := runHandler_inv
            (fun c1 : Ctx ε σ => c.index ≤ c1.index ∧
              (c1.index < k ∨ (hs.length : Int) ≤ c1.index) ∧
              (∀ j, Event.call j ∈ c1.trace → j ≤ k)) hs.length
            (fun c1 => loop hs fuel { c1 with index := c1.index + 1 })
            (fun c1 h1 => ⟨by simp only [Ctx.Abort]; omega,
              Or.inr (by simp only [Ctx.Abort]; omega), h1.2.2⟩)
            (fun c1 s h1 => h1)
            (fun c1 h1 => by
              obtain ⟨r, c2, h2, h3, h4, h5⟩ := ih { c1 with index := c1.index + 1 }
                (by simp only; omega) (by simp only; omega)
                (by simp only; omega) h1.2.2
              refine ⟨r, c2, h2, ?_, h4, h5⟩
              simp only at h3
              omega)
            (hs[c.index.toNat]) { c with trace := t0 } ⟨le_refl _, Or.inl (by simp only; omega), ht0⟩
          exact ⟨r, c1, hrun, hP⟩
      obtain ⟨r, c1, hrun, hidx, hnil, htr⟩ := hstep
      have htr1 : ∀ j, Event.call j ∈ c1.trace ++ [Event.ret c.index.toNat r] → j ≤ k := by
        intro j hj
        rcases List.mem_append.1 hj with hj | hj
        · exact htr j hj
        · simp at hj
      cases r with
      | some e =>
        refine ⟨some e, { c1 with trace := c1.trace ++ [Event.ret c.index.toNat (some e)] },
          ?_, ?_, ?_, htr1⟩
        · simp only [loop, hlt, hs0, if_true, if_false, hget, hrun, t0]
        · simp only; omega
        · exact hnil
      | none =>
        let t1 := c1.trace ++ [Event.ret c.index.toNat none]
        obtain ⟨r, c2, h2, h3, h4, h5⟩ := ih { index := c1.index + 1, st := c1.st, trace := t1 }
          (by simp only; omega) (by simp only; omega)
          (by simp only; omega) htr1
        refine ⟨r, c2, ?_, ?_, h4, h5⟩
        · simp only [loop, hlt, hs0, if_true, if_false, hget, hrun, t0]
          exact h2
        · simp only at h3; omega
    · have : c.done hs.length := by simp only [Ctx.done]; omega
      exact ⟨none, c, loop_done hs _ c this, by omega, Or.inr (by omega), ht⟩

theorem runHandler_plainNil (n : Nat) (nextFn : Ctx ε σ → Option (Option ε × Ctx ε σ))
    (h : Handler ε σ) (hp : h.plainNil) (c : Ctx ε σ) :
    ∃ s, runHandler n nextFn h c = some (none, { c with st := s }) := by
  induction h generalizing c with
  | ret e =>
    simp only [Handler.plainNil] at hp
    exact ⟨c.st, by simp [runHandler, hp]⟩
  | abort k _ => exact absurd hp (by simp [Handler.plainNil])
  | next k _ => exact absurd hp (by simp [Handler.plainNil])
  | get k ih =>
    simp only [Handler.plainNil] at hp
    simpa [runHandler] using ih c.st (hp c.st) c
  | put s k ih =>
    simp only [Handler.plainNil] at hp
    obtain ⟨s1, h1⟩ := ih hp { c with st := s }
    exact ⟨s1, by simpa [runHandler] using h1⟩

/-- C2: let handler `k` call Abort and return nil without calling Next. Then
(a) whenever it runs it returns nil and leaves the Ctx in the terminal state
`index = len(handlers)`; (b) the terminal state is absorbing: Abort keeps it, and
every call of Next made in it returns nil at once, invokes no handler and keeps
it; (c) a request, started at index -1 with fuel for every handler, runs to
completion and never invokes a handler with index greater than `k`. -/
theorem abort_ends_chain (hs : List (Handler ε σ)) (k : Nat) (h : Handler ε σ)
    (hk : hs[k]? = some h) (ha : h.abortsNil false) :
    (∀ (nextFn : Ctx ε σ → Option (Option ε × Ctx ε σ)) (c : Ctx ε σ),
      ∃ s, runHandler hs.length nextFn h c =
        some (none, { index := (hs.length : Int), st := s, trace := c.trace })) ∧
    (∀ c : Ctx ε σ, c.done hs.length →
      (c.Abort hs.length).done hs.length ∧
      ∀ fuel, ∃ c1, c.Next hs fuel = some (none, c1) ∧ c1.done hs.length ∧
        c1.trace = c.trace ∧ c1.st = c.st) ∧
    (∀ (fuel : Nat) (st : σ), hs.length ≤ fuel →
      ∃ r c1, Ctx.Next hs fuel { index := -1, st := st, trace := [] } = some (r, c1) ∧
        ∀ j, Event.call j ∈ c1.trace → j ≤ k) := by
  refine ⟨fun nextFn c => runHandler_abortsNil hs.length nextFn h false ha c (by simp), ?_, ?_⟩
  · intro c hc
    refine ⟨by simp [Ctx.done, Ctx.Abort], fun fuel => ?_⟩
    have hd : Ctx.done hs.length ({ c with index := c.index + 1 } : Ctx ε σ) := by
      simp only [Ctx.done] at hc ⊢; omega
    exact ⟨_, loop_done hs fuel _ hd, hd, rfl, rfl⟩
  · intro fuel st hf
    obtain ⟨r, c1, h1, _, _, h4⟩ := loop_abort_inv hs k h hk ha fuel
      { index := -1 + 1, st := st, trace := [] } (by simp) (by simp only; omega)
      (Or.inl (by simp)) (by simp)
    exact ⟨r, c1, h1, h4⟩

/-- C3 (as the code behaves): a handler that returns nil without calling Next
and without calling Abort does not end the chain. When it is not the last
handler, the loop of Next goes on and invokes the handler at the next index
right after it has returned. -/
theorem plainNil_continues (hs : List (Handler ε σ)) (k : Nat) (h : Handler ε σ)
    (hk : hs[k]? = some h) (hp : h.plainNil) (hk1 : k + 1 < hs.length)
    (c : Ctx ε σ) (hc : c.index + 1 = (k : Int)) (fuel : Nat) (hf : hs.length ≤ k + fuel) :
    ∃ r c1, c.Next hs fuel = some (r, c1) ∧
      c.trace ++ [Event.call k, Event.ret k none, Event.call (k + 1)] <+: c1.trace := by
  obtain ⟨f, rfl⟩ : ∃ f, fuel = f + 1 := ⟨fuel - 1, by omega⟩
  have hlt : c.index + 1 < (hs.length : Int) := by omega
  have hs0 : ¬ c.index + 1 < 0 := by omega
  have htn : (c.index + 1).toNat = k := by omega
  obtain ⟨s1, hrun⟩ := runHandler_plainNil hs.length
    (fun c1 => loop hs f { c1 with index := c1.index + 1 }) h hp
    { index := c.index + 1, st := c.st, trace := c.trace ++ [Event.call k] }
  let t1 := c.trace ++ [Event.call k] ++ [Event.ret k none]
  obtain ⟨r, c1, h1, _, _, h4⟩ := loop_total hs f
    { index := c.index + 1 + 1, st := s1, trace := t1 }
    (by simp only; omega) (by simp only; omega)
  refine ⟨r, c1, ?_, ?_⟩
  · simp only [Ctx.Next, loop, hlt, hs0, if_true, if_false, htn, hk, hrun]
    exact h1
  · have h5 := h4 (by simp only; omega)
    have h6 : (c.index + 1 + 1).toNat = k + 1 := by omega
    simpa [t1, h6] using h5

theorem Next_plain_chain_witness :
    ∃ r c1 rs, freshCtx.Next chainFailingSecond 3 = some (r, c1) ∧
      c1.trace = freshCtx.trace ++ invocations (freshCtx.index + 1).toNat rs ∧
      ((r = none ∧ (∀ x ∈ rs, x = none) ∧
          (freshCtx.index + 1).toNat + rs.length = chainFailingSecond.length) ∨
       (∃ e k, r = some e ∧ rs = List.replicate k none ++ [some e] ∧
          (freshCtx.index + 1).toNat + k < chainFailingSecond.length)) :=
  Next_plain_chain chainFailingSecond (by simp [chainFailingSecond, Handler.plain]) freshCtx
    (by decide) (by decide) 3 (by decide)

theorem abort_ends_chain_witness :
    ∃ r c1, Ctx.Next chainAbortSecond 3 { index := -1, st := (), trace := [] } = some (r, c1) ∧
      ∀ j, Event.call j ∈ c1.trace → j ≤ 1 :=
  (abort_ends_chain chainAbortSecond 1 (Handler.abort (Handler.ret none)) rfl
    (by simp [Handler.abortsNil])).2.2 3 () (by decide)

/-- C3 (as stated) fails: in a chain of two handlers that return nil without
calling Next or Abort the second handler is invoked, while it is not when the
first handler calls Abort. -/
theorem return_nil_is_not_abort :
    (freshCtx.Next chainPlainNil 2).map (fun p => p.2.trace) =
        some [Event.call 0, Event.ret 0 none, Event.call 1, Event.ret 1 none] ∧
      (freshCtx.Next [Handler.abort (Handler.ret none), Handler.ret none] 2).map
          (fun p => p.2.trace) = some [Event.call 0, Event.ret 0 none] := by
  decide

theorem plainNil_continues_witness :
    ∃ r c1, freshCtx.Next chainPlainNil 2 = some (r, c1) ∧
      freshCtx.trace ++ [Event.call 0, Event.ret 0 none, Event.call (0 + 1)] <+: c1.trace :=
  plainNil_continues chainPlainNil 0 (Handler.ret none) rfl (by simp [Handler.plainNil])
    (by decide) freshCtx (by decide) 2 (by decide)

/-! ## Theorems: router -/

theorem findAllowedMethods_append
    (stores : List (String × (String → Option (List (Handler GoError CtxFields)))))
    (path : String) :
    ∀ b : String, findAllowedMethods stores path b = b ++ findAllowedMethods stores path "" := by
  induction stores with
  | nil => intro b; simp [findAllowedMethods]
  | cons ms rest ih =>
    intro b
    unfold findAllowedMethods at ih ⊢
    simp only [List.foldl_cons]
    by_cases h : (ms.2 path).isSome = true
    · simp only [h, if_true]
      rw [ih (b ++ ms.1 ++ ","), ih ("" ++ ms.1 ++ ",")]
      simp [String.append_assoc]
    · simp only [h, if_false]
      exact ih b

theorem findAllowedMethods_join
    (stores : List (String × (String → Option (List (Handler GoError CtxFields)))))
    (path : String) :
    findAllowedMethods stores path "" =
      joinAll ((stores.filter (fun ms => (ms.2 path).isSome)).map (fun ms => ms.1 ++ ",")) := by
  induction stores with
  | nil => rfl
  | cons ms rest ih =>
    have h0 : findAllowedMethods (ms :: rest) path "" =
        findAllowedMethods rest path (if (ms.2 path).isSome then "" ++ ms.1 ++ "," else "") := rfl
    by_cases h : (ms.2 path).isSome = true
    · rw [h0, if_pos h, findAllowedMethods_append, ih]
      simp [List.filter_cons, h, joinAll]
    · rw [h0, if_neg h, ih]
      simp [List.filter_cons, h]

theorem findAllowedMethods_empty_iff
    (stores : List (String × (String → Option (List (Handler GoError CtxFields)))))
    (path : String) :
    (findAllowedMethods stores path "").length = 0 ↔ ∀ ms ∈ stores, ms.2 path = none := by
  induction stores with
  | nil => simp [findAllowedMethods]
  | cons ms rest ih =>
    have h0 : findAllowedMethods (ms :: rest) path "" =
        findAllowedMethods rest path (if (ms.2 path).isSome then "" ++ ms.1 ++ "," else "") := rfl
    by_cases h : (ms.2 path).isSome = true
    · rw [h0, if_pos h, findAllowedMethods_append]
      have hne : ms.2 path ≠ none := by
        intro hn; rw [hn] at h; simp at h
      have hc : ",".length = 1 := rfl
      simp only [String.length_append, hc, List.mem_cons, forall_eq_or_imp, hne, false_and,
        iff_false]
      omega
    · have hn : ms.2 path = none := by
        cases hq : ms.2 path with
        | none => rfl
        | some x => rw [hq] at h; simp at h
      rw [h0, if_neg h, ih]
      simp only [List.mem_cons, forall_eq_or_imp, hn, true_and]

/-- On a `Ctx` whose `bytes` buffer is empty (one made by the pool's `New`),
`MethodNotAllowedHandler` does what its comment says: when no method store
matches the path it changes nothing and returns nil without aborting; when some
store matches it sets the Allow header to the matching methods followed by
OPTIONS, sets status 405 unless the method is OPTIONS, aborts and returns nil. -/
theorem MethodNotAllowedHandler_fresh
    (stores : List (String × (String → Option (List (Handler GoError CtxFields)))))
    (n : Nat) (nextFn : Ctx GoError CtxFields → Option (Option GoError × Ctx GoError CtxFields))
    (c : Ctx GoError CtxFields) (hb : c.st.bytes = "") :
    ((∀ ms ∈ stores, ms.2 c.st.path = none) →
      runHandler n nextFn (MethodNotAllowedHandler stores) c = some (none, c)) ∧
    ((∃ ms ∈ stores, ms.2 c.st.path ≠ none) →
      runHandler n nextFn (MethodNotAllowedHandler stores) c =
        some (none,
          { index := (n : Int)
            st := { c.st with
              bytes := allowHeader stores c.st.path
              Response := { c.st.Response with
                allow := some (allowHeader stores c.st.path)
                status := if c.st.method ≠ "OPTIONS" then 405 else c.st.Response.status } }
            trace := c.trace })) := by
  constructor
  · intro h
    have h1 := (findAllowedMethods_empty_iff stores c.st.path).2 h
    have h2 : findAllowedMethods stores c.st.path "" = "" := by
      apply String.ext
      exact List.eq_nil_of_length_eq_zero h1
    simp only [MethodNotAllowedHandler, runHandler, hb, h1, if_true, h2]
    cases c with
    | mk index st trace =>
      cases st
      simp_all
  · intro h
    have h1 : ¬ (findAllowedMethods stores c.st.path "").length = 0 := by
      rw [findAllowedMethods_empty_iff]
      push_neg
      exact h
    rw [findAllowedMethods_join] at h1
    simp only [MethodNotAllowedHandler, runHandler, hb, findAllowedMethods_join, h1, if_false,
      Ctx.Abort, allowHeader]
    by_cases hm : c.st.method = "OPTIONS" <;> simp [hm]

/-- `HandleRequest` always runs the chain to completion: the fuel it passes, one
unit per handler, is enough whatever the handlers do. -/
theorem HandleRequest_returns (statusText : Int → String) (r : Router)
    (c : Ctx GoError CtxFields) (method path : String) :
    ∃ c1, r.HandleRequest statusText c method path = some c1 := by
  obtain ⟨res, c1, h1, _⟩ := loop_total (r.find statusText method path)
    (r.find statusText method path).length
    { c.init method path with index := (c.init method path).index + 1 }
    (by simp [Ctx.init]) (by simp [Ctx.init])
  have h2 : (c.init method path).Next (r.find statusText method path)
      (r.find statusText method path).length = some (res, c1) := h1
  cases res with
  | none => exact ⟨c1, by simp only [Router.HandleRequest, h2]⟩
  | some e =>
    exact ⟨{ c1 with st := handleError c1.st e }, by simp only [Router.HandleRequest, h2]⟩

/-- C4 (evaluation at the failing input): on a `Ctx` taken fresh from the pool a
POST of an unknown path is answered 404 by NotFoundHandler; after the same
`Ctx` has served one 405 response, the same request is answered 405 with the
Allow header `GET,OPTIONSOPTIONS`, although no method store matches the path,
and NotFoundHandler is never invoked. -/
theorem MethodNotAllowed_stale_bytes (statusText : Int → String) :
    (getOnlyRouter.HandleRequest statusText newCtx "POST" "/missing").map
        (fun c => (c.st.Response.status, c.st.Response.allow, c.st.Response.body, c.trace)) =
      some (404, none, statusText 404,
        [Event.call 0, Event.ret 0 none, Event.call 1,
          Event.ret 1 (some (GoError.httpError 404 (statusText 404)))]) ∧
    ((getOnlyRouter.HandleRequest statusText newCtx "POST" "/a").bind
        (fun c => getOnlyRouter.HandleRequest statusText c "POST" "/missing")).map
        (fun c => (c.st.Response.status, c.st.Response.allow, c.trace)) =
      some (405, some "GET,OPTIONSOPTIONS", [Event.call 0, Event.ret 0 none]) := by
  constructor <;> rfl

/-- C5: for every error, `handleError` writes a response whose body is the
error's message and whose status is the error's `StatusCode()` when it implements
HTTPError and 500 otherwise; `HandleRequest` hands every error of the chain to
it; and `NewHTTPError(status)` without a message is an HTTPError with that
status whose message is `http.StatusText(status)`. -/
theorem handleError_response (statusText : Int → String) (c : CtxFields) (err : GoError) :
    (handleError c err).Response.body = err.Error ∧
    (handleError c err).Response.status =
      (match err with
        | GoError.httpError status _ => status
        | GoError.plain _ => 500) ∧
    (∀ (r : Router) (c0 c1 : Ctx GoError CtxFields) (method path : String),
      (c0.init method path).Next (r.find statusText method path)
          (r.find statusText method path).length = some (some err, c1) →
        r.HandleRequest statusText c0 method path =
          some { c1 with st := handleError c1.st err }) ∧
    (∀ status : Int,
      NewHTTPError statusText status [] = GoError.httpError status (statusText status) ∧
      (NewHTTPError statusText status []).Error = statusText status) := by
  refine ⟨?_, ?_, ?_, fun status => ⟨rfl, rfl⟩⟩
  · cases err <;> rfl
  · cases err <;> rfl
  · intro r c0 c1 method path h
    simp only [Router.HandleRequest, h]

/-! ## Theorems: path templates -/

theorem sl_succ (path : List Char) (a n : Nat) (c : Char) (ha : a ≤ n)
    (hc : path[n]? = some c) : sl path a (n + 1) = sl path a n ++ [c] := by
  unfold sl
  have h1 : n + 1 - a = (n - a) + 1 := by omega
  rw [h1, List.take_succ, List.getElem?_drop]
  have h2 : a + (n - a) = n := by omega
  rw [h2, hc]
  rfl

theorem sl_self (path : List Char) (a : Nat) : sl path a a = [] := by
  simp [sl]

theorem goSlice_eq (path : List Char) (a b : Int) (h0 : 0 ≤ a) (h1 : a ≤ b)
    (h2 : b ≤ (path.length : Int)) : goSlice path a b = some (sl path a.toNat b.toNat) := by
  simp [goSlice, sl, h0, h1, h2]

theorem scanStep_refines (emit : α → List Char → List Char → Option α) (path : List Char)
    (n : Nat) (c : Char) (hc : path[n]? = some c) (st : Scan α) (ss : Stream α)
    (hr : ScanRel path n st ss) :
    (∃ st1 ss1, scanStep emit path st n = some st1 ∧ streamStep emit ss c = some ss1 ∧
      ScanRel path (n + 1) st1 ss1) ∨
    (scanStep emit path st n = none ∧ streamStep emit ss c = none) := by
  have hn : n < path.length := (List.getElem?_eq_some_iff.1 hc).1
  obtain ⟨hacc, hstop, hstopn, hclosed, hcase⟩ := hr
  rcases hcase with ⟨hstart, htok, hlit⟩ | ⟨hss, hsn, hlt, htok, hlit⟩
  · by_cases hc1 : c = '<'
    · subst hc1
      refine Or.inl ⟨{ st with start := (n : Int) }, { ss with tok := some [] }, ?_, ?_, ?_⟩
      · simp [scanStep, hc, hstart]
      · simp [streamStep, htok]
      · refine ⟨hacc, hstop, by simp only; omega, hclosed, Or.inr ⟨by simpa using hstopn,
          by simp, by simpa using hc, ?_, ?_⟩⟩
        · simp [sl_self]
        · simpa using hlit
    · refine Or.inl ⟨st, { ss with lit := ss.lit ++ [c] }, ?_, ?_, ?_⟩
      · have h2 : ¬ (0 ≤ st.start) := by omega
        simp [scanStep, hc, hc1, h2]
      · simp [streamStep, htok, hc1]
      · refine ⟨hacc, hstop, by omega, hclosed, Or.inl ⟨hstart, htok, ?_⟩⟩
        simp only [hlit]
        exact (sl_succ path _ n c (by omega) hc).symm
  · have h0 : 0 ≤ st.start := by omega
    have hnlt : ¬ st.start < 0 := by omega
    by_cases hc1 : c = '>'
    · subst hc1
      have htokS : goSlice path (st.start + 1) n = some (sl path (st.start + 1).toNat n) := by
        simpa using goSlice_eq path (st.start + 1) n (by omega) (by omega) (by omega)
      have hlitS : goSlice path (st.stop + 1) st.start =
          some (sl path (st.stop + 1).toNat st.start.toNat) :=
        goSlice_eq path (st.stop + 1) st.start (by omega) (by omega) (by omega)
      cases he : emit ss.acc ss.lit (sl path (st.start + 1).toNat n) with
      | none =>
        refine Or.inr ⟨?_, ?_⟩
        · simp [scanStep, hc, hnlt, h0, htokS, hlitS, hacc, ← hlit, he]
        · simp [streamStep, htok, he]
      | some a =>
        refine Or.inl ⟨{ acc := a, start := -1, stop := (n : Int) },
          { acc := a, lit := [], tok := none, closed := true }, ?_, ?_, ?_⟩
        · simp [scanStep, hc, hnlt, h0, htokS, hlitS, hacc, ← hlit, he]
        · simp [streamStep, htok, he]
        · exact ⟨rfl, by simp only; omega, by simp only; omega, by simp,
            Or.inl ⟨rfl, rfl, by simp [sl_self]⟩⟩
    · refine Or.inl ⟨st, { ss with tok := some (sl path (st.start + 1).toNat n ++ [c]) }, ?_, ?_, ?_⟩
      · simp [scanStep, hc, hc1, hnlt]
      · simp [streamStep, htok, hc1]
      · refine ⟨hacc, hstop, by omega, hclosed, Or.inr ⟨hss, by omega, hlt, ?_, hlit⟩⟩
        simp only [Option.some.injEq]
        exact (sl_succ path _ n c (by omega) hc).symm

theorem scan_refines (emit : α → List Char → List Char → Option α) (path : List Char)
    (init : α) (n : Nat) (hn : n ≤ path.length) :
    (∃ st ss, (List.range n).foldlM (scanStep emit path) { acc := init, start := -1, stop := -1 }
        = some st ∧
      stream emit { acc := init, lit := [], tok := none, closed := false } (path.take n) = some ss ∧
      ScanRel path n st ss) ∨
    ((List.range n).foldlM (scanStep emit path) { acc := init, start := -1, stop := -1 } = none ∧
      stream emit { acc := init, lit := [], tok := none, closed := false } (path.take n) = none) := by
  induction n with
  | zero =>
    refine Or.inl ⟨_, _, rfl, rfl, rfl, by simp, by simp, by simp, Or.inl ⟨rfl, rfl, ?_⟩⟩
    simp [sl]
  | succ n ih =>
    have hlt : n < path.length := by omega
    have hc : path[n]? = some path[n] := List.getElem?_eq_getElem hlt
    have htake : path.take (n + 1) = path.take n ++ [path[n]] := by
      rw [List.take_succ, hc]; rfl
    rw [List.range_succ, List.foldlM_append, htake]
    unfold stream
    rw [List.foldlM_append]
    rcases ih (by omega) with ⟨st, ss, h1, h2, h3⟩ | ⟨h1, h2⟩
    · unfold stream at h2
      rw [h1, h2]
      rcases scanStep_refines emit path n _ hc st ss h3 with ⟨st1, ss1, h4, h5, h6⟩ | ⟨h4, h5⟩
      · exact Or.inl ⟨st1, ss1, by simp [h4], by simp [h5], h6⟩
      · exact Or.inr ⟨by simp [h4], by simp [h5]⟩
    · unfold stream at h2
      rw [h1, h2]
      exact Or.inr ⟨rfl, rfl⟩

theorem buildURLTemplate_step_eq (path : List Char) :
    buildURLTemplate.step path = scanStep emitTemplate path := by
  funext st i
  unfold buildURLTemplate.step scanStep emitTemplate
  split
  · rfl
  · split
    · cases goSlice path (st.start + 1) i <;> cases goSlice path (st.stop + 1) st.start <;> rfl
    · rfl

theorem buildURLTemplate2_step_eq (compile : List Char → Option ρ) (path : List Char) :
    buildURLTemplate2.step compile path = scanStep (emitCompiled compile) path := by
  funext st i
  unfold buildURLTemplate2.step scanStep emitCompiled
  split
  · rfl
  · split
    · cases h1 : goSlice path (st.start + 1) i with
      | none => rfl
      | some tok =>
        cases h2 : goSlice path (st.stop + 1) st.start with
        | none =>
          cases h3 : tokenRegexp tok with
          | none => simp [h3]
          | some re => cases h4 : compile ('^' :: re) <;> simp [h3, h4]
        | some lit =>
          cases h3 : tokenRegexp tok with
          | none => simp [h3]
          | some re => cases h4 : compile ('^' :: re) <;> simp [h3, h4]
    · rfl

theorem sl_full (path : List Char) (a : Nat) : sl path a path.length = path.drop a := by
  unfold sl
  rw [List.take_of_length_le]
  simp

theorem sl_split (path : List Char) (a b : Nat) (c : Char) (hab : a ≤ b)
    (hc : path[b]? = some c) :
    path.drop a = sl path a b ++ c :: path.drop (b + 1) := by
  have hb : b < path.length := (List.getElem?_eq_some_iff.1 hc).1
  have h1 : path.drop a = (path.drop a).take (b - a) ++ (path.drop a).drop (b - a) :=
    (List.take_append_drop _ _).symm
  have h2 : (path.drop a).drop (b - a) = path.drop b := by
    rw [List.drop_drop]; congr 1; omega
  have h3 : path.drop b = c :: path.drop (b + 1) := by
    have h4 : path[b] = c := by
      have := List.getElem?_eq_getElem hb
      rw [this] at hc
      exact Option.some.inj hc
    rw [← h4]
    exact List.drop_eq_getElem_cons hb
  rw [h1, h2, h3]
  rfl

/-- What the index scan has in hand when the loop is over, in terms of the
stream scan. -/
theorem scan_final (path : List Char) (st : Scan α) (ss : Stream α)
    (h : ScanRel path path.length st ss) :
    (st.stop < 0 ↔ ss.closed = false) ∧
    (0 ≤ st.stop → goSlice path (st.stop + 1) path.length = some ss.rest) ∧
    (0 ≤ st.stop → (st.stop < (path.length : Int) - 1 ↔ ss.rest ≠ [])) ∧
    (st.stop < 0 → ss.rest = path) := by
  obtain ⟨_, hstop, hstopn, hclosed, hcase⟩ := h
  have hrest : ss.rest = path.drop (st.stop + 1).toNat := by
    rcases hcase with ⟨_, htok, hlit⟩ | ⟨hss, hsn, hlt, htok, hlit⟩
    · simp [Stream.rest, htok, hlit, sl_full]
    · have h1 := sl_split path (st.stop + 1).toNat st.start.toNat '<' (by omega) hlt
      have h2 : st.start.toNat + 1 = (st.start + 1).toNat := by omega
      rw [h1, h2]
      simp [Stream.rest, htok, hlit, sl_full]
  refine ⟨?_, ?_, ?_, ?_⟩
  · constructor
    · intro h0
      cases hcl : ss.closed with
      | false => rfl
      | true => exact absurd (hclosed.1 hcl) (by omega)
    · intro h0
      by_contra h1
      have := hclosed.2 (by omega)
      simp [h0] at this
  · intro h0
    rw [goSlice_eq path (st.stop + 1) path.length (by omega) (by omega) (by simp), hrest]
    simp [sl_full]
  · intro h0
    rw [hrest, ne_eq, List.drop_eq_nil_iff]
    omega
  · intro h0
    have : (st.stop + 1).toNat = 0 := by omega
    rw [hrest, this]
    rfl

theorem buildURLTemplate_eq_stream (path : List Char) :
    buildURLTemplate path =
      (stream emitTemplate (Stream.init []) path).map
        (fun ss => if ss.closed then ss.acc ++ ss.rest else path) := by
  unfold buildURLTemplate
  rw [buildURLTemplate_step_eq]
  have h := scan_refines emitTemplate path [] path.length (le_refl _)
  rw [List.take_length] at h
  rcases h with ⟨st, ss, h1, h2, h3⟩ | ⟨h1, h2⟩
  · obtain ⟨f1, f2, f3, f4⟩ := scan_final path st ss h3
    have hacc : st.acc = ss.acc := h3.1
    simp only [Stream.init]
    rw [h1, h2]
    by_cases h0 : st.stop < 0
    · have hc := f1.1 h0
      simp [h0, hc]
    · have hc : ss.closed = true := by
        cases hcl : ss.closed with
        | true => rfl
        | false => exact absurd (f1.2 hcl) h0
      have h0' : 0 ≤ st.stop := by omega
      by_cases h5 : st.stop < (path.length : Int) - 1
      · simp [h0, hc, h5, f2 h0', hacc]
      · have : ss.rest = [] := by
          by_contra h6
          exact h5 ((f3 h0').2 h6)
        simp [h0, hc, h5, this, hacc]
  · simp only [Stream.init]
    rw [h1, h2]
    rfl

theorem buildURLTemplate2_eq_stream (compile : List Char → Option ρ) (path : List Char) :
    buildURLTemplate2 compile path =
      (stream (emitCompiled compile)
          (Stream.init { segments := [], paramNames := [], regexps := [] }) path).map
        (fun ss => { ss.acc with
          segments := ss.acc.segments ++
            (if ss.closed then (if ss.rest = [] then [] else [ss.rest]) else [path]) }) := by
  unfold buildURLTemplate2
  rw [buildURLTemplate2_step_eq]
  have h := scan_refines (emitCompiled compile) path
    { segments := [], paramNames := [], regexps := [] } path.length (le_refl _)
  rw [List.take_length] at h
  rcases h with ⟨st, ss, h1, h2, h3⟩ | ⟨h1, h2⟩
  · obtain ⟨f1, f2, f3, f4⟩ := scan_final path st ss h3
    have hacc : st.acc = ss.acc := h3.1
    simp only [Stream.init]
    rw [h1, h2]
    by_cases h0 : st.stop < 0
    · have hc := f1.1 h0
      simp [h0, hc, hacc]
    · have hc : ss.closed = true := by
        cases hcl : ss.closed with
        | true => rfl
        | false => exact absurd (f1.2 hcl) h0
      have h0' : 0 ≤ st.stop := by omega
      by_cases h5 : st.stop < (path.length : Int) - 1
      · have h6 := (f3 h0').1 h5
        simp [h0, hc, h5, f2 h0', hacc, h6]
      · have : ss.rest = [] := by
          by_contra h6
          exact h5 ((f3 h0').2 h6)
        simp [h0, hc, h5, this, hacc]
  · simp only [Stream.init]
    rw [h1, h2]
    rfl

theorem stream_cons (emit : α → List Char → List Char → Option α) (s : Stream α) (c : Char)
    (p : List Char) :
    stream emit s (c :: p) = (streamStep emit s c).bind (fun s1 => stream emit s1 p) := by
  simp only [stream, List.foldlM_cons]
  rfl

theorem stream_append (emit : α → List Char → List Char → Option α) (s : Stream α)
    (a b : List Char) :
    stream emit s (a ++ b) = (stream emit s a).bind (fun s1 => stream emit s1 b) := by
  simp only [stream, List.foldlM_append]
  rfl

theorem stream_lit (emit : α → List Char → List Char → Option α) (str : List Char) :
    ∀ s : Stream α, s.tok = none → '<' ∉ str →
      stream emit s str = some { s with lit := s.lit ++ str } := by
  induction str with
  | nil => intro s _ _; simp [stream]
  | cons c cs ih =>
    intro s ht hn
    have hc : c ≠ '<' := fun h => hn (by simp [h])
    have hcs : '<' ∉ cs := fun h => hn (List.mem_cons_of_mem _ h)
    rw [stream_cons]
    simp only [streamStep, ht, hc, if_false, Option.some_bind]
    rw [ih { acc := s.acc, lit := s.lit ++ [c], tok := none, closed := s.closed } rfl hcs]
    simp

theorem stream_tok (emit : α → List Char → List Char → Option α) (str : List Char) :
    ∀ (s : Stream α) (t : List Char), s.tok = some t → '>' ∉ str →
      stream emit s str = some { s with tok := some (t ++ str) } := by
  induction str with
  | nil => intro s t ht _; simp [stream, ← ht]
  | cons c cs ih =>
    intro s t ht hn
    have hc : c ≠ '>' := fun h => hn (by simp [h])
    have hcs : '>' ∉ cs := fun h => hn (List.mem_cons_of_mem _ h)
    rw [stream_cons]
    simp only [streamStep, ht, hc, if_false, Option.some_bind]
    rw [ih _ (t ++ [c]) rfl hcs]
    simp

theorem tokenName_plain (name : List Char) (h : ':' ∉ name) : tokenName name = name := by
  unfold tokenName
  rw [List.takeWhile_eq_self_iff]
  intro c hc
  have : c ≠ ':' := fun h1 => h (h1 ▸ hc)
  simpa using this

theorem tokenName_colon (name re : List Char) (h : ':' ∉ name) :
    tokenName (name ++ ':' :: re) = name := by
  unfold tokenName
  induction name with
  | nil => simp
  | cons c cs ih =>
    have hc : c ≠ ':' := fun h1 => h (by simp [h1])
    have hcs : ':' ∉ cs := fun h1 => h (List.mem_cons_of_mem _ h1)
    simp [List.takeWhile_cons, hc, ih hcs]

/-- Scanning one token with the stream scan: `tt` is the text between the angle
brackets. -/
theorem stream_token (emit : α → List Char → List Char → Option α) (s : Stream α)
    (tt : List Char) (ht : s.tok = none) (hn : '>' ∉ tt) :
    stream emit s (['<'] ++ tt ++ ['>']) =
      (emit s.acc s.lit tt).map
        (fun a => { acc := a, lit := [], tok := none, closed := true }) := by
  rw [List.append_assoc, List.singleton_append, stream_cons]
  simp only [streamStep, ht, if_true, Option.some_bind]
  rw [stream_append, stream_tok emit tt _ [] rfl hn]
  simp only [Option.some_bind, List.nil_append]
  rw [stream_cons]
  simp only [streamStep, if_true]
  cases emit s.acc s.lit tt <;> simp [stream]

theorem stream_piece (p : Piece) (hp : p.wf) (s : Stream (List Char)) (ht : s.tok = none) :
    ∃ ss, stream emitTemplate s p.render = some ss ∧ ss.tok = none ∧
      ss.acc ++ ss.lit = s.acc ++ s.lit ++ p.renderTemplate ∧
      (s.closed = true → ss.closed = true) ∧
      (ss.closed = false → p.render = p.renderTemplate) := by
  cases p with
  | lit str =>
    refine ⟨{ s with lit := s.lit ++ str }, stream_lit emitTemplate str s ht hp, ht, ?_,
      fun h => h, fun _ => rfl⟩
    simp [Piece.renderTemplate]
  | param name re =>
    obtain ⟨h1, h2, h3, h4⟩ := hp
    cases re with
    | none =>
      let a1 := s.acc ++ s.lit ++ ['<'] ++ name ++ ['>']
      refine ⟨{ acc := a1, lit := [], tok := none, closed := true }, ?_, rfl, ?_,
        fun _ => rfl, fun h => by simp at h⟩
      · simp only [Piece.render]
        rw [stream_token emitTemplate s name ht h3]
        simp [emitTemplate, tokenName_plain name h1, a1]
      · simp [Piece.renderTemplate, a1]
    | some r =>
      let a1 := s.acc ++ s.lit ++ ['<'] ++ name ++ ['>']
      refine ⟨{ acc := a1, lit := [], tok := none, closed := true }, ?_, rfl, ?_,
        fun _ => rfl, fun h => by simp at h⟩
      · simp only [Piece.render]
        have hn : '>' ∉ name ++ [':'] ++ r := by
          have := h4 r rfl
          simp only [List.mem_append, List.mem_singleton, not_or]
          exact ⟨⟨h3, by decide⟩, this⟩
        have heq : ['<'] ++ name ++ [':'] ++ r ++ ['>'] = ['<'] ++ (name ++ [':'] ++ r) ++ ['>'] := by
          simp
        rw [heq, stream_token emitTemplate s _ ht hn]
        have : name ++ [':'] ++ r = name ++ ':' :: r := by simp
        simp [emitTemplate, this, tokenName_colon name r h1, a1]
      · simp [Piece.renderTemplate, a1]

theorem stream_pieces (ps : List Piece) (hp : ∀ p ∈ ps, p.wf) :
    ∀ s : Stream (List Char), s.tok = none →
      ∃ ss, stream emitTemplate s (ps.flatMap Piece.render) = some ss ∧ ss.tok = none ∧
        ss.acc ++ ss.lit = s.acc ++ s.lit ++ ps.flatMap Piece.renderTemplate ∧
        (s.closed = true → ss.closed = true) ∧
        (ss.closed = false → ps.flatMap Piece.render = ps.flatMap Piece.renderTemplate) := by
  induction ps with
  | nil =>
    intro s ht
    exact ⟨s, by simp [stream], ht, by simp, fun h => h, fun _ => rfl⟩
  | cons p ps ih =>
    intro s ht
    obtain ⟨s1, h1, h2, h3, h4, h5⟩ := stream_piece p (hp p (List.mem_cons_self _ _)) s ht
    obtain ⟨s2, g1, g2, g3, g4, g5⟩ := ih (fun q hq => hp q (List.mem_cons_of_mem _ hq)) s1 h2
    refine ⟨s2, ?_, g2, ?_, fun h => g4 (h4 h), fun h => ?_⟩
    · simp only [List.flatMap_cons]
      rw [stream_append, h1]
      exact g1
    · simp only [List.flatMap_cons]
      rw [g3, h3]
      simp
    · have hs1 : s1.closed = false := by
        cases hc : s1.closed with
        | false => rfl
        | true => rw [g4 hc] at h; exact absurd h (by simp)
      simp only [List.flatMap_cons]
      rw [h5 hs1, g5 h]

/-- C7: for a path made of literal runs (holding no `<`) and well-formed tokens
`<name>` or `<name:regex>`, `buildURLTemplate` returns the same text with every
token replaced by `<name>` and every literal run unchanged; in particular a path
that holds no `<` is returned unchanged. -/
theorem buildURLTemplate_wellformed (ps : List Piece) (hp : ∀ p ∈ ps, p.wf) :
    buildURLTemplate (ps.flatMap Piece.render) = some (ps.flatMap Piece.renderTemplate) ∧
    (∀ path : List Char, '<' ∉ path → buildURLTemplate path = some path) := by
  have main : ∀ qs : List Piece, (∀ p ∈ qs, p.wf) →
      buildURLTemplate (qs.flatMap Piece.render) = some (qs.flatMap Piece.renderTemplate) := by
    intro qs hq
    obtain ⟨ss, h1, h2, h3, _, h5⟩ := stream_pieces qs hq (Stream.init []) rfl
    rw [buildURLTemplate_eq_stream, h1]
    by_cases hc : ss.closed = true
    · simp only [Option.map_some', hc, if_true, Stream.rest, h2, List.append_nil]
      rw [h3]
      simp [Stream.init]
    · have hc1 : ss.closed = false := by simpa using hc
      rw [h5 hc1]
      simp [hc1]
  refine ⟨main ps hp, fun path hpath => ?_⟩
  have := main [Piece.lit path] (by simpa [Piece.wf] using hpath)
  simpa [Piece.render, Piece.renderTemplate] using this

/-- The stream scan cannot fail when `emit` succeeds on every token text of the
path; a `<` still pending at the end is followed by no `>`. -/
theorem stream_total (emit : α → List Char → List Char → Option α) (path : List Char)
    (hemit : ∀ acc lit tok, tok <:+: path → (emit acc lit tok).isSome) :
    ∀ (p pre : List Char) (s : Stream α), pre ++ p = path →
      (∀ t, s.tok = some t → ∃ a, pre = a ++ '<' :: t ∧ '>' ∉ t) →
      ∃ s1, stream emit s p = some s1 ∧
        (∀ t, s1.tok = some t → ∃ a, path = a ++ '<' :: t ∧ '>' ∉ t) := by
  intro p
  induction p with
  | nil =>
    intro pre s hpre hs
    refine ⟨s, by simp [stream], ?_⟩
    simpa [← hpre] using hs
  | cons c p ih =>
    intro pre s hpre hs
    have hpre1 : (pre ++ [c]) ++ p = path := by simpa using hpre
    rw [stream_cons]
    cases ht : s.tok with
    | none =>
      by_cases hc : c = '<'
      · simp only [streamStep, ht, hc, if_true, Option.some_bind]
        exact ih (pre ++ [c]) _ hpre1 (fun t h => ⟨pre, by
          simp only [Option.some.injEq] at h
          simp [← h, hc]⟩)
      · simp only [streamStep, ht, hc, if_false, Option.some_bind]
        exact ih (pre ++ [c]) _ hpre1 (fun t h => by simp [ht] at h)
    | some t =>
      obtain ⟨a, ha, hat⟩ := hs t ht
      by_cases hc : c = '>'
      · have hinf : t <:+: path := ⟨a ++ ['<'], c :: p, by rw [← hpre, ha]; simp⟩
        obtain ⟨a1, ha1⟩ := Option.isSome_iff_exists.1 (hemit s.acc s.lit t hinf)
        simp only [streamStep, ht, hc, if_true, ha1, Option.map_some', Option.some_bind]
        exact ih (pre ++ [c]) _ hpre1 (fun t h => by simp at h)
      · simp only [streamStep, ht, hc, if_false, Option.some_bind]
        refine ih (pre ++ [c]) _ hpre1 (fun t1 h => ⟨a, ?_⟩)
        simp only [Option.some.injEq] at h
        subst h
        refine ⟨by simp [ha], ?_⟩
        simp only [List.mem_append, List.mem_singleton, not_or]
        exact ⟨hat, fun h1 => hc h1.symm⟩

theorem tokenRegexp_suffix (tok re : List Char) (h : tokenRegexp tok = some re) :
    re <:+ tok ∧ re ≠ [] := by
  unfold tokenRegexp at h
  have hsuf := List.dropWhile_suffix (fun c => c != ':') (l := tok)
  cases hd : tok.dropWhile (fun c => c != ':') with
  | nil => simp [hd] at h
  | cons x xs =>
    rw [hd] at h hsuf
    by_cases hx : xs = []
    · simp [hx] at h
    · simp only [hx, if_false, Option.some.injEq] at h
      subst h
      exact ⟨(List.suffix_cons x xs).trans hsuf, hx⟩

theorem stream_unclosed (emit : α → List Char → List Char → Option α) (rest : List Char)
    (hr : '>' ∉ rest) (s1 : Stream α) :
    ∃ s2, stream emit s1 ('<' :: rest) = some s2 ∧ s2.acc = s1.acc ∧ s2.closed = s1.closed ∧
      s2.rest = s1.rest ++ '<' :: rest := by
  rw [stream_cons]
  cases ht : s1.tok with
  | none =>
    simp only [streamStep, ht, if_true, Option.some_bind]
    rw [stream_tok emit rest _ [] rfl hr]
    exact ⟨_, rfl, rfl, rfl, by simp [Stream.rest, ht]⟩
  | some t =>
    have hne : ('<' : Char) ≠ '>' := by decide
    simp only [streamStep, ht, hne, if_false, Option.some_bind]
    rw [stream_tok emit rest _ (t ++ ['<']) rfl hr]
    exact ⟨_, rfl, rfl, rfl, by simp [Stream.rest, ht]⟩

theorem buildURLTemplate_total (path : List Char) : ∃ t, buildURLTemplate path = some t := by
  obtain ⟨s1, h1, _⟩ := stream_total emitTemplate path (fun _ _ _ _ => rfl) path []
    (Stream.init []) rfl (fun t h => by simp [Stream.init] at h)
  rw [buildURLTemplate_eq_stream, h1]
  exact ⟨_, rfl⟩

/-- C8 (as stated) fails: `regexp.MustCompile` panics on the regular expression
of the token `<a:(>`, in `buildURLTemplate2` and so in `newRoute`. -/
theorem buildURLTemplate2_panics :
    (buildURLTemplate2 sampleCompile "<a:(>".toList).isNone = true ∧
      (newRoute sampleCompile [] "<a:(>".toList (fun _ => none)).isNone = true := by
  decide

theorem stream_wellclosed (emit : α → List Char → List Char → Option α) (pre : List Char)
    (hemit : ∀ acc lit tok, tok <:+: pre → (emit acc lit tok).isSome)
    (hwf : ∀ a b, pre = a ++ '<' :: b → '>' ∈ b) (a0 : α) :
    ∃ s1, stream emit (Stream.init a0) pre = some s1 ∧ s1.tok = none := by
  obtain ⟨s1, h1, h2⟩ := stream_total emit pre hemit pre [] (Stream.init a0) rfl
    (fun t h => by simp [Stream.init] at h)
  refine ⟨s1, h1, ?_⟩
  cases ht : s1.tok with
  | none => rfl
  | some t =>
    obtain ⟨a, ha, hat⟩ := h2 t ht
    exact absurd (hwf a t ha) hat

/-- C9 (as stated) fails on a path with a `<` that is still open at the final
`*`: the `*` is swallowed by that token, so the parameter is named `b<*`; or the
whole rewritten token becomes the regular expression of the open token, and the
template does not end with `<*>`. -/
theorem newRoute_star_in_open_token :
    (newRoute sampleCompile "/api".toList "/a<b*".toList (fun _ => none)).map
        (fun x => x.1.paramNames) = some ["b<*".toList] ∧
      (newRoute sampleCompile "/api".toList "/<a:*".toList (fun _ => none)).map
        (fun x => (x.1.paramNames, x.1.template)) = some (["a".toList], "/api/<a>".toList) := by
  decide

theorem handleError_response_witness :
    getOnlyRouter.HandleRequest (fun _ => "") newCtx "POST" "/missing" =
      some { missingCtx with st := handleError missingCtx.st (GoError.httpError 404 "") } :=
  (handleError_response (fun _ => "") newCtx.st (GoError.httpError 404 "")).2.2.1
    getOnlyRouter newCtx missingCtx "POST" "/missing" rfl

/-- C6 (evaluation at the failing inputs): on the template `/<a>/<b>`,
`URL("a", "b")` returns `/b/`, the token `<b>` being replaced by the empty
string, and `URL("a", "b", "b", "c")` returns `/b/b`: the loop advances by one,
so every value is used as a parameter name as well. -/
theorem Route_URL_value_taken_as_name :
    (newRoute sampleCompile [] "/<a>/<b>".toList (fun _ => none)).map
        (fun x => x.1.URL ["a".toList, "b".toList]) = some "/b/".toList ∧
      (newRoute sampleCompile [] "/<a>/<b>".toList (fun _ => none)).map
        (fun x => x.1.URL ["a".toList, "b".toList, "b".toList, "c".toList]) =
          some "/b/b".toList := by
  decide

theorem buildURLTemplate_wellformed_witness :
    buildURLTemplate (samplePieces.flatMap Piece.render) =
      some (samplePieces.flatMap Piece.renderTemplate) :=
  (buildURLTemplate_wellformed samplePieces (by
    intro p hp
    simp only [samplePieces, List.mem_cons, List.mem_singleton, List.not_mem_nil, or_false] at hp
    rcases hp with rfl | rfl | rfl | rfl
    · show '<' ∉ "/users/".toList
      decide
    · refine ⟨by decide, by decide, by decide, ?_⟩
      intro r hr
      simp only [Option.some.injEq] at hr
      subst hr
      decide
    · show '<' ∉ "/x".toList
      decide
    · exact ⟨by decide, by decide, by decide, fun r hr => by simp at hr⟩)).1

/-! ## Theorems: session tokens -/

theorem b64char_decode : ∀ v, v < 64 → decodeMap (b64char v) = some v := by decide

theorem b64char_not_newline : ∀ v, v < 64 → b64char v ≠ 10 ∧ b64char v ≠ 13 := by decide

theorem sextets_lt (bs : List Nat) : ∀ v ∈ sextets bs, v < 64 := by
  induction bs using sextets.induct with
  | case1 b0 b1 b2 rest ih =>
    intro v hv
    simp only [sextets, List.mem_cons] at hv
    rcases hv with rfl | rfl | rfl | rfl | hv
    · exact Nat.mod_lt _ (by decide)
    · exact Nat.mod_lt _ (by decide)
    · exact Nat.mod_lt _ (by decide)
    · exact Nat.mod_lt _ (by decide)
    · exact ih v hv
  | case2 b0 b1 =>
    intro v hv
    simp only [sextets, List.mem_cons, List.mem_singleton, List.not_mem_nil, or_false] at hv
    rcases hv with rfl | rfl | rfl <;> exact Nat.mod_lt _ (by decide)
  | case3 b0 =>
    intro v hv
    simp only [sextets, List.mem_cons, List.mem_singleton, List.not_mem_nil, or_false] at hv
    rcases hv with rfl | rfl <;> exact Nat.mod_lt _ (by decide)
  | case4 => intro v hv; simp [sextets] at hv

theorem sextets_length (bs : List Nat) : (sextets bs).length = EncodedLen bs.length := by
  induction bs using sextets.induct with
  | case1 b0 b1 b2 rest ih =>
    simp only [EncodedLen] at ih
    simp only [sextets, List.length_cons, ih, EncodedLen]
    omega
  | case2 b0 b1 => simp [sextets, EncodedLen]
  | case3 b0 => simp [sextets, EncodedLen]
  | case4 => simp [sextets, EncodedLen]

theorem decodeChars_b64char (vs : List Nat) (h : ∀ v ∈ vs, v < 64) :
    decodeChars (vs.map b64char) = some vs := by
  induction vs with
  | nil => rfl
  | cons v vs ih =>
    have hv : v < 64 := h v (List.mem_cons_self _ _)
    have h1 := b64char_not_newline v hv
    have h2 := b64char_decode v hv
    have h3 := ih (fun w hw => h w (List.mem_cons_of_mem _ hw))
    simp only [List.map_cons, decodeChars, h1.1, h1.2, or_self, if_false, h2, h3]

theorem decodeQuanta_sextets (bs : List Nat) (h : ∀ b ∈ bs, b < 256) :
    decodeQuanta (sextets bs) = some bs := by
  induction bs using sextets.induct with
  | case1 b0 b1 b2 rest ih =>
    have h0 : b0 < 256 := h b0 (by simp)
    have h1 : b1 < 256 := h b1 (by simp)
    have h2 : b2 < 256 := h b2 (by simp)
    have hr := ih (fun b hb => h b (by simp [hb]))
    simp only [sextets, decodeQuanta, hr]
    have e0 : ((b0 * 65536 + b1 * 256 + b2) / 262144 % 64 * 262144 +
        (b0 * 65536 + b1 * 256 + b2) / 4096 % 64 * 4096 +
        (b0 * 65536 + b1 * 256 + b2) / 64 % 64 * 64 +
        (b0 * 65536 + b1 * 256 + b2) % 64) = b0 * 65536 + b1 * 256 + b2 := by omega
    rw [e0]
    have e1 : (b0 * 65536 + b1 * 256 + b2) / 65536 % 256 = b0 := by omega
    have e2 : (b0 * 65536 + b1 * 256 + b2) / 256 % 256 = b1 := by omega
    have e3 : (b0 * 65536 + b1 * 256 + b2) % 256 = b2 := by omega
    rw [e1, e2, e3]
  | case2 b0 b1 =>
    have h0 : b0 < 256 := h b0 (by simp)
    have h1 : b1 < 256 := h b1 (by simp)
    simp only [sextets, decodeQuanta]
    have e1 : ((b0 * 65536 + b1 * 256) / 262144 % 64 * 262144 +
        (b0 * 65536 + b1 * 256) / 4096 % 64 * 4096 +
        (b0 * 65536 + b1 * 256) / 64 % 64 * 64) / 65536 % 256 = b0 := by omega
    have e2 : ((b0 * 65536 + b1 * 256) / 262144 % 64 * 262144 +
        (b0 * 65536 + b1 * 256) / 4096 % 64 * 4096 +
        (b0 * 65536 + b1 * 256) / 64 % 64 * 64) / 256 % 256 = b1 := by omega
    rw [e1, e2]
  | case3 b0 =>
    have h0 : b0 < 256 := h b0 (by simp)
    simp only [sextets, decodeQuanta]
    have e1 : ((b0 * 65536) / 262144 % 64 * 262144 +
        (b0 * 65536) / 4096 % 64 * 4096) / 65536 % 256 = b0 := by omega
    rw [e1]
  | case4 => rfl

/-- Decoding inverts encoding on byte sequences. -/
theorem b64decode_encode (bs : List Nat) (h : ∀ b ∈ bs, b < 256) :
    b64decode (b64encode bs) = some bs := by
  simp only [b64decode, b64encode, decodeChars_b64char _ (sextets_lt bs)]
  exact decodeQuanta_sextets bs h

theorem getD_take_append (bs tl : List Nat) (k i : Nat) (hk : k ≤ bs.length) (hi : i < k) :
    (bs.take k ++ tl).getD i 0 = bs.getD i 0 := by
  have h1 : i < (bs.take k).length := by rw [List.length_take]; omega
  rw [List.getD_eq_getElem?_getD, List.getD_eq_getElem?_getD,
    List.getElem?_append_left h1, List.getElem?_take_of_lt hi]

theorem SimpleHash.AppendHash_spec (bs : List Nat) (h : 5 ≤ bs.length) :
    ∃ bs1, SimpleHash.AppendHash bs = some bs1 ∧ SimpleHash.ValidateHash bs1 = true ∧
      bs1.length = bs.length ∧
      bs1.take (bs.length - 2) = bs.take (bs.length - 2) ∧
      (∀ i, i + 2 < bs.length → bs1[i]? = bs[i]?) ∧
      ((∀ b ∈ bs, b < 256) → ∀ b ∈ bs1, b < 256) := by
  have hlen : (bs.take (bs.length - 2)).length = bs.length - 2 := by
    rw [List.length_take]; omega
  have hsum : ∀ tl : List Nat, SimpleHash.sum (bs.take (bs.length - 2) ++ tl) = SimpleHash.sum bs := by
    intro tl
    unfold SimpleHash.sum
    rw [getD_take_append bs tl _ 0 (by omega) (by omega),
      getD_take_append bs tl _ 1 (by omega) (by omega),
      getD_take_append bs tl _ 2 (by omega) (by omega)]
  have hlt : SimpleHash.sum bs < 65536 := Nat.mod_lt _ (by decide)
  refine ⟨bs.take (bs.length - 2) ++
    [SimpleHash.sum bs % 256, SimpleHash.sum bs / 256 % 256], ?_, ?_, ?_, ?_, ?_, ?_⟩
  · have : ¬ bs.length < 5 := by omega
    simp [SimpleHash.AppendHash, this]
  · have hl : (bs.take (bs.length - 2) ++
        [SimpleHash.sum bs % 256, SimpleHash.sum bs / 256 % 256]).length = bs.length := by
      rw [List.length_append, hlen]; simp; omega
    have h3 : ¬ bs.length < 3 := by omega
    unfold SimpleHash.ValidateHash
    rw [hl, hsum]
    simp only [h3, if_false, beq_iff_eq]
    have g1 : (bs.take (bs.length - 2) ++
        [SimpleHash.sum bs % 256, SimpleHash.sum bs / 256 % 256]).getD (bs.length - 2) 0 =
        SimpleHash.sum bs % 256 := by
      rw [List.getD_eq_getElem?_getD, List.getElem?_append_right (by omega), hlen]
      simp
    have g2 : (bs.take (bs.length - 2) ++
        [SimpleHash.sum bs % 256, SimpleHash.sum bs / 256 % 256]).getD (bs.length - 1) 0 =
        SimpleHash.sum bs / 256 % 256 := by
      rw [List.getD_eq_getElem?_getD, List.getElem?_append_right (by omega), hlen]
      have : bs.length - 1 - (bs.length - 2) = 1 := by omega
      rw [this]
      simp
    rw [g1, g2]
    omega
  · rw [List.length_append, hlen]; simp; omega
  · rw [List.take_append_of_le_length (by omega), List.take_take]
    simp
  · intro i hi
    rw [List.getElem?_append_left (by omega), List.getElem?_take_of_lt (by omega)]
  · intro hb b hmem
    rcases List.mem_append.1 hmem with hm | hm
    · exact hb b (List.mem_of_mem_take hm)
    · simp only [List.mem_cons, List.mem_singleton, List.not_mem_nil, or_false] at hm
      rcases hm with rfl | rfl <;> exact Nat.mod_lt _ (by decide)

/-- C10: for a raw token of at least 5 bytes filled by any successful read of
the random source, the token of `GenerateToken2` (written into a buffer of the
encoded length) and the token of `GenerateToken` with `urlencoded = true`
base64url-decode without error to bytes that pass `ValidateHash`, so
`isValidToken` accepts them; and for every byte slice of at least 5 bytes
`AppendHash` does not panic, keeps the length and every byte but the last two,
and leaves a slice that passes `ValidateHash`. -/
theorem generated_token_valid (rnd dstRaw dst : List Nat) (hlen : 5 ≤ dstRaw.length)
    (hr : rnd.length = dstRaw.length - 2) (hb : ∀ b ∈ rnd, b < 256)
    (hraw : ∀ b ∈ dstRaw, b < 256) (hdst : dst.length = EncodedLen dstRaw.length) :
    (∃ tok bs, GenerateToken2 (some rnd) dstRaw dst = some tok ∧
      b64decode tok = some bs ∧ SimpleHash.ValidateHash bs = true ∧
      bs.take rnd.length = rnd ∧ isValidToken tok = true) ∧
    (∃ tok bs, GenerateToken (some rnd) rnd.length true true = some tok ∧
      b64decode tok = some bs ∧ SimpleHash.ValidateHash bs = true ∧
      bs.take rnd.length = rnd ∧ isValidToken tok = true) ∧
    (∀ bs : List Nat, 5 ≤ bs.length →
      ∃ bs1, SimpleHash.AppendHash bs = some bs1 ∧ SimpleHash.ValidateHash bs1 = true ∧
        bs1.length = bs.length ∧ ∀ i, i + 2 < bs.length → bs1[i]? = bs[i]?) := by
  have key : ∀ tl : List Nat, tl.length = 2 → (∀ b ∈ tl, b < 256) →
      ∃ raw, SimpleHash.AppendHash (rnd ++ tl) = some raw ∧
        b64decode (b64encode raw) = some raw ∧ SimpleHash.ValidateHash raw = true ∧
        raw.take rnd.length = rnd ∧ raw.length = dstRaw.length := by
    intro tl htl hbt
    have hl : (rnd ++ tl).length = dstRaw.length := by
      rw [List.length_append, htl, hr]; omega
    obtain ⟨raw, h1, h2, h3, h4, _, h6⟩ := SimpleHash.AppendHash_spec (rnd ++ tl) (by omega)
    have hbytes : ∀ b ∈ raw, b < 256 := h6 (fun b hm => by
      rcases List.mem_append.1 hm with hm | hm
      · exact hb b hm
      · exact hbt b hm)
    refine ⟨raw, h1, b64decode_encode raw hbytes, h2, ?_, by rw [h3, hl]⟩
    have h5 : (rnd ++ tl).length - 2 = rnd.length := by rw [hl, hr]
    rw [h5] at h4
    rw [h4]
    simp
  refine ⟨?_, ?_, ?_⟩
  · obtain ⟨raw, h1, h2, h3, h4, h5⟩ := key (dstRaw.drop (dstRaw.length - 2))
      (by rw [List.length_drop]; omega) (fun b hm => hraw b (List.mem_of_mem_drop hm))
    have henc : (b64encode raw).length = dst.length := by
      rw [b64encode, List.length_map, sextets_length, h5, hdst]
    refine ⟨b64encode raw, raw, ?_, h2, h3, h4, by simp [isValidToken, h2, h3]⟩
    have h2lt : ¬ dstRaw.length < 2 := by omega
    simp only [GenerateToken2, h2lt, if_false, h1, henc, lt_self_iff_false]
    simp
  · obtain ⟨raw, h1, h2, h3, h4, _⟩ := key (List.replicate 2 0) (by simp)
      (fun b hm => by simp only [List.mem_replicate] at hm; omega)
    refine ⟨b64encode raw, raw, ?_, h2, h3, h4, by simp [isValidToken, h2, h3]⟩
    have : rnd.length + 2 - rnd.length = 2 := by omega
    simp only [GenerateToken, if_true, this, h1]
  · intro bs hbs
    obtain ⟨bs1, h1, h2, h3, _, h5, _⟩ := SimpleHash.AppendHash_spec bs hbs
    exact ⟨bs1, h1, h2, h3, h5⟩

theorem generated_token_valid_witness :
    ∃ tok bs, GenerateToken2 (some [200, 201, 3]) [0, 0, 0, 0, 0] [0, 0, 0, 0, 0, 0, 0] = some tok ∧
      b64decode tok = some bs ∧ SimpleHash.ValidateHash bs = true ∧
      bs.take [200, 201, 3].length = [200, 201, 3] ∧ isValidToken tok = true :=
  (generated_token_valid [200, 201, 3] [0, 0, 0, 0, 0] [0, 0, 0, 0, 0, 0, 0] (by decide)
    (by decide) (by decide) (by decide) (by decide)).1

/-! ## Theorems: checksum sensitivity -/

theorem getD_set (bs : List Nat) (i j v : Nat) (hi : i < bs.length) :
    (bs.set i v).getD j 0 = if i = j then v else bs.getD j 0 := by
  rw [List.getD_eq_getElem?_getD, List.getD_eq_getElem?_getD, List.getElem?_set]
  by_cases h : i = j
  · subst h
    simp [hi]
  · simp [h]

/-- C11 (as the code behaves): in a decoded token of at least 5 bytes that passes
`ValidateHash`, replacing one of the last two bytes by a different value makes
`ValidateHash` fail; replacing a byte at a position from 3 up to the third from
last leaves it passing, those bytes not entering the checksum; and replacing
one of the first three bytes makes it fail exactly when the checksum of the
first three bytes changes. -/
theorem ValidateHash_mutation (bs : List Nat) (i v : Nat) (hlen : 5 ≤ bs.length)
    (hb : ∀ b ∈ bs, b < 256) (hv : v < 256) (hi : i < bs.length) (hne : bs.getD i 0 ≠ v)
    (hvalid : SimpleHash.ValidateHash bs = true) :
    (bs.length - 2 ≤ i → SimpleHash.ValidateHash (bs.set i v) = false) ∧
    (3 ≤ i → i < bs.length - 2 → SimpleHash.ValidateHash (bs.set i v) = true) ∧
    (i < 3 → (SimpleHash.ValidateHash (bs.set i v) = true ↔
        SimpleHash.sum (bs.set i v) = SimpleHash.sum bs)) := by
  have h3 : ¬ bs.length < 3 := by omega
  have hval : SimpleHash.sum bs =
      bs.getD (bs.length - 2) 0 + 256 * bs.getD (bs.length - 1) 0 := by
    simpa [SimpleHash.ValidateHash, h3] using hvalid
  have hbd : ∀ j, j < bs.length → bs.getD j 0 < 256 := by
    intro j hj
    rw [List.getD_eq_getElem?_getD, List.getElem?_eq_getElem hj]
    exact hb _ (List.getElem_mem hj)
  have h1 := hbd (bs.length - 2) (by omega)
  have h2 := hbd (bs.length - 1) (by omega)
  have hsum : 3 ≤ i → SimpleHash.sum (bs.set i v) = SimpleHash.sum bs := by
    intro h
    unfold SimpleHash.sum
    rw [getD_set bs i 0 v hi, getD_set bs i 1 v hi, getD_set bs i 2 v hi]
    have e0 : ¬ i = 0 := by omega
    have e1 : ¬ i = 1 := by omega
    have e2 : ¬ i = 2 := by omega
    simp [e0, e1, e2]
  refine ⟨?_, ?_, ?_⟩
  · intro h
    have hs := hsum (by omega)
    simp only [SimpleHash.ValidateHash, List.length_set, h3, if_false, hs, hval,
      getD_set bs i _ v hi, beq_eq_false_iff_ne, ne_eq]
    by_cases e : i = bs.length - 2
    · have e' : ¬ i = bs.length - 1 := by omega
      rw [e] at hne
      simp only [e, e', if_true, if_false]
      omega
    · have e' : i = bs.length - 1 := by omega
      rw [e'] at hne
      have e'' : ¬ bs.length - 1 = bs.length - 2 := by omega
      simp only [e', e'', if_true, if_false]
      omega
  · intro h h'
    have hs := hsum h
    have e1 : ¬ i = bs.length - 2 := by omega
    have e2 : ¬ i = bs.length - 1 := by omega
    simp only [SimpleHash.ValidateHash, List.length_set, h3, if_false, hs, hval,
      getD_set bs i _ v hi, e1, e2, beq_self_eq_true]
  · intro h
    have e1 : ¬ i = bs.length - 2 := by omega
    have e2 : ¬ i = bs.length - 1 := by omega
    simp only [SimpleHash.ValidateHash, List.length_set, h3, if_false,
      getD_set bs i (bs.length - 2) v hi, getD_set bs i (bs.length - 1) v hi, e1, e2,
      beq_iff_eq, ← hval]

/-- C11 (as stated) fails: a byte outside the first three and the last two is
not covered by the checksum, and the checksum of the first three bytes is 0
whenever the third is 0. -/
theorem ValidateHash_blind_spots :
    SimpleHash.ValidateHash [0, 0, 0, 5, 0, 0] = true ∧
      SimpleHash.ValidateHash ([0, 0, 0, 5, 0, 0].set 3 6) = true ∧
      SimpleHash.ValidateHash [1, 2, 0, 9, 0, 0] = true ∧
      SimpleHash.ValidateHash ([1, 2, 0, 9, 0, 0].set 0 7) = true := by
  decide

theorem ValidateHash_mutation_witness :
    SimpleHash.ValidateHash ([0, 0, 0, 5, 0, 0].set 4 1) = false :=
  (ValidateHash_mutation [0, 0, 0, 5, 0, 0] 4 1 (by decide) (by decide) (by decide)
    (by decide) (by decide) (by decide)).1 (by decide)

/-! ## Theorems: session data -/

theorem lookup_filter_self (m : Values) (k : String) :
    (m.filter (fun e => e.1 != k)).lookup k = none := by
  induction m with
  | nil => rfl
  | cons e m ih =>
    obtain ⟨k1, v1⟩ := e
    by_cases h : k1 = k
    · simp [List.filter_cons, h, ih]
    · have h1 : (k == k1) = false := by simpa using fun h2 : k = k1 => h h2.symm
      simp [List.filter_cons, h, List.lookup_cons, h1, ih]

theorem lookup_filter_other (m : Values) (k k1 : String) (h : k1 ≠ k) :
    (m.filter (fun e => e.1 != k)).lookup k1 = m.lookup k1 := by
  induction m with
  | nil => rfl
  | cons e m ih =>
    obtain ⟨k2, v2⟩ := e
    by_cases h2 : k2 = k
    · subst h2
      have h3 : (k1 == k2) = false := by simpa using h
      simp [List.filter_cons, List.lookup_cons, h3, ih]
    · by_cases h4 : k1 = k2
      · simp [List.filter_cons, h2, List.lookup_cons, h4]
      · have h3 : (k1 == k2) = false := by simpa using h4
        simp [List.filter_cons, h2, List.lookup_cons, h3, ih]

/-- C15: on a `Data` whose values map is allocated, `Put(k, v)` returns, after
which `Get(k)` is `v`, `Exists(k)` is true, every other key has the value and
presence it had, status is Modified, and token, csrfToken and started are
unchanged; `Manager.Put` is `Put` on the session data of the context. -/
theorem Data.Put_spec (d : Data) (m : Values) (hv : d.values = some m) (k : String)
    (v : Value) :
    ∃ d1, d.Put k v = some d1 ∧ Manager.Put (some d) k v = some d1 ∧
      d1.Get k = v ∧ d1.Exists k = true ∧
      (∀ k1, k1 ≠ k → d1.Get k1 = d.Get k1 ∧ d1.Exists k1 = d.Exists k1) ∧
      d1.status = Status.Modified ∧ d1.token = d.token ∧ d1.csrfToken = d.csrfToken ∧
      d1.started = d.started := by
  refine ⟨{ d with values := some ((k, v) :: m.filter (fun e => e.1 != k))
                   status := Status.Modified }, ?_, ?_, ?_, ?_, ?_, rfl, rfl, rfl, rfl⟩
  · simp [Data.Put, hv]
  · simp [Manager.Put, Manager.sessionDataFromCxt, Data.Put, hv]
  · simp [Data.Get, List.lookup_cons]
  · simp [Data.Exists, List.lookup_cons]
  · intro k1 hk
    have h3 : (k1 == k) = false := by simpa using hk
    simp [Data.Get, Data.Exists, hv, List.lookup_cons, h3, lookup_filter_other m k k1 hk]

theorem Data.Put_spec_witness :
    ∃ d1, sampleData.Put "c" (Value.bool true) = some d1 ∧
      Manager.Put (some sampleData) "c" (Value.bool true) = some d1 ∧
      d1.Get "c" = Value.bool true ∧ d1.Exists "c" = true ∧
      (∀ k1, k1 ≠ "c" → d1.Get k1 = sampleData.Get k1 ∧ d1.Exists k1 = sampleData.Exists k1) ∧
      d1.status = Status.Modified ∧ d1.token = sampleData.token ∧
      d1.csrfToken = sampleData.csrfToken ∧ d1.started = sampleData.started :=
  Data.Put_spec sampleData [("a", Value.int 1), ("b", Value.str "x")] rfl "c" (Value.bool true)

/-- C16: `Remove(k)` and `Pop(k)` on a key that is not present leave the `Data`
as it is, `Pop` returning nil, and so does `Clear` on a session with no values;
on a key that is present `Remove` and `Pop` leave the same `Data`, in which the
key is absent, every other key is as before, status is Modified and the tokens
are unchanged, `Pop` returning the value the key had; `Clear` on a session with
values leaves no key and sets status to Modified. -/
theorem Data.Remove_Pop_Clear_spec (d : Data) (k : String) :
    (d.Exists k = false → d.Remove k = d ∧ d.Pop k = (Value.nil, d)) ∧
    ((d.values = none ∨ d.values = some []) → d.Clear = d) ∧
    (∀ m v, d.values = some m → m.lookup k = some v →
      d.Pop k = (v, d.Remove k) ∧
      (d.Remove k).Exists k = false ∧ (d.Remove k).Get k = Value.nil ∧
      (∀ k1, k1 ≠ k → (d.Remove k).Get k1 = d.Get k1 ∧
        (d.Remove k).Exists k1 = d.Exists k1) ∧
      (d.Remove k).status = Status.Modified ∧ (d.Remove k).token = d.token ∧
      (d.Remove k).csrfToken = d.csrfToken) ∧
    (∀ m, d.values = some m → m ≠ [] →
      d.Clear.values = some [] ∧ (∀ k1, d.Clear.Exists k1 = false) ∧
      d.Clear.status = Status.Modified ∧ d.Clear.token = d.token ∧
      d.Clear.csrfToken = d.csrfToken) := by
  refine ⟨?_, ?_, ?_, ?_⟩
  · intro h
    cases hv : d.values with
    | none => simp [Data.Remove, Data.Pop, hv]
    | some m =>
      have : m.lookup k = none := by
        simpa [Data.Exists, hv] using h
      simp [Data.Remove, Data.Pop, hv, this]
  · rintro (h | h) <;> simp [Data.Clear, h]
  · intro m v hv hl
    refine ⟨by simp [Data.Pop, Data.Remove, hv, hl], ?_, ?_, ?_, ?_, ?_, ?_⟩
    · simp [Data.Remove, Data.Exists, hv, hl, lookup_filter_self]
    · simp [Data.Remove, Data.Get, hv, hl, lookup_filter_self]
    · intro k1 hk
      simp [Data.Remove, Data.Get, Data.Exists, hv, hl, lookup_filter_other m k k1 hk]
    · simp [Data.Remove, hv, hl]
    · simp [Data.Remove, hv, hl]
    · simp [Data.Remove, hv, hl]
  · intro m hv hm
    have hl : ¬ m.length = 0 := by
      intro h; exact hm (List.eq_nil_of_length_eq_zero h)
    refine ⟨by simp [Data.Clear, hv, hl], ?_, by simp [Data.Clear, hv, hl],
      by simp [Data.Clear, hv, hl], by simp [Data.Clear, hv, hl]⟩
    intro k1
    simp [Data.Clear, Data.Exists, hv, hl]

theorem Data.Remove_Pop_Clear_spec_witness :
    sampleData.Pop "a" = (Value.int 1, sampleData.Remove "a") ∧
      (sampleData.Remove "a").Exists "a" = false ∧
      (sampleData.Remove "a").Get "a" = Value.nil ∧
      (∀ k1, k1 ≠ "a" → (sampleData.Remove "a").Get k1 = sampleData.Get k1 ∧
        (sampleData.Remove "a").Exists k1 = sampleData.Exists k1) ∧
      (sampleData.Remove "a").status = Status.Modified ∧
      (sampleData.Remove "a").token = sampleData.token ∧
      (sampleData.Remove "a").csrfToken = sampleData.csrfToken :=
  (Data.Remove_Pop_Clear_spec sampleData "a").2.2.1
    [("a", Value.int 1), ("b", Value.str "x")] (Value.int 1) rfl rfl

/-! ## Theorems: session token of a `Data` -/

/-- What `GenerateToken2` returns when the buffer has the encoded length. -/
theorem GenerateToken2_spec (rnd dstRaw dst : List Nat) (hlen : 5 ≤ dstRaw.length)
    (hr : rnd.length = dstRaw.length - 2) (hb : ∀ b ∈ rnd, b < 256)
    (hraw : ∀ b ∈ dstRaw, b < 256) (hdst : dst.length = EncodedLen dstRaw.length) :
    ∃ raw, GenerateToken2 (some rnd) dstRaw dst = some (b64encode raw) ∧
      b64decode (b64encode raw) = some raw ∧ SimpleHash.ValidateHash raw = true ∧
      raw.take rnd.length = rnd ∧ raw.length = dstRaw.length ∧
      (b64encode raw).length = dst.length := by
  have hl : (rnd ++ dstRaw.drop (dstRaw.length - 2)).length = dstRaw.length := by
    rw [List.length_append, List.length_drop, hr]; omega
  obtain ⟨raw, h1, h2, h3, h4, _, h6⟩ :=
    SimpleHash.AppendHash_spec (rnd ++ dstRaw.drop (dstRaw.length - 2)) (by omega)
  have hbytes : ∀ b ∈ raw, b < 256 := h6 (fun b hm => by
    rcases List.mem_append.1 hm with hm | hm
    · exact hb b hm
    · exact hraw b (List.mem_of_mem_drop hm))
  have henc : (b64encode raw).length = dst.length := by
    rw [b64encode, List.length_map, sextets_length, h3, hl, hdst]
  refine ⟨raw, ?_, b64decode_encode raw hbytes, h2, ?_, by rw [h3, hl], henc⟩
  · have h2lt : ¬ dstRaw.length < 2 := by omega
    simp only [GenerateToken2, h2lt, if_false, h1, henc, lt_self_iff_false]
    simp
  · have h5 : (rnd ++ dstRaw.drop (dstRaw.length - 2)).length - 2 = rnd.length := by
      rw [hl, hr]
    rw [h5] at h4
    rw [h4]
    simp

/-- A token generated into a slice of the encoded length: the slice keeps its
place and capacity and holds a valid token. -/
theorem generateInto_spec (rnd : List Nat) (rawLen : Nat) (dst : Slice) (hlen : 5 ≤ rawLen)
    (hr : rnd.length = rawLen - 2) (hb : ∀ b ∈ rnd, b < 256)
    (hdst : dst.len = EncodedLen rawLen) (hcap : dst.len ≤ dst.arr.length) :
    ∃ raw, generateInto (some rnd) rawLen dst =
        some (Slice.mk dst.before (b64encode raw ++ dst.arr.drop dst.len) dst.len) ∧
      (Slice.mk dst.before (b64encode raw ++ dst.arr.drop dst.len) dst.len).bytes =
        b64encode raw ∧
      (b64encode raw).length = dst.len ∧
      b64decode (b64encode raw) = some raw ∧ SimpleHash.ValidateHash raw = true ∧
      raw.take rnd.length = rnd ∧ raw.length = rawLen := by
  have hbl : dst.bytes.length = dst.len := by
    simp [Slice.bytes, List.length_take, hcap]
  obtain ⟨raw, h1, h2, h3, h4, h5, h6⟩ := GenerateToken2_spec rnd (List.replicate rawLen 0)
    dst.bytes (by simpa using hlen) (by simpa using hr) hb
    (fun b hm => by simp only [List.mem_replicate] at hm; omega)
    (by rw [hbl, hdst]; simp)
  rw [hbl] at h6
  refine ⟨raw, by simp [generateInto, h1], ?_, h6, h2, h3, h4, by simpa using h5⟩
  simp only [Slice.bytes]
  rw [← h6]
  simp

theorem isValidToken_iff (token : List Nat) :
    isValidToken token = true ↔
      ∃ bs, b64decode token = some bs ∧ SimpleHash.ValidateHash bs = true := by
  unfold isValidToken
  cases h : b64decode token with
  | none => simp
  | some bs => simp

theorem Slice.append_bytes (s : Slice) (xs : List Nat) (h : s.len = 0) :
    (s.append xs).bytes = xs := by
  unfold Slice.append Slice.bytes
  split <;> simp [h]

/-- C12: on a `Data` whose token slice has the capacity the pool gives it, and
with a random source that delivers, `SetToken` returns. It returns false
exactly when the presented token is non-empty, base64url-decodes and its
decoded bytes pass `ValidateHash`, and then the token held is the presented one;
otherwise it returns true and the token held is the encoding of the random
bytes followed by their checksum. In both cases the token held passes
`isValidToken`, and nothing but the token is changed. -/
theorem Data.SetToken_spec (d : Data) (token rnd : List Nat)
    (hcap : UrlEncodedTokenLen ≤ d.token.arr.length) (hr : rnd.length = TokenLen)
    (hb : ∀ b ∈ rnd, b < 256) :
    ∃ nt d1, d.SetToken token (some rnd) = some (nt, d1) ∧
      (nt = false ↔ (token ≠ [] ∧
        ∃ bs, b64decode token = some bs ∧ SimpleHash.ValidateHash bs = true)) ∧
      (nt = false → d1.token.bytes = token ∧ ∀ r, d.SetToken token r = some (nt, d1)) ∧
      (nt = true → ∃ raw, d1.token.bytes = b64encode raw ∧ raw.take TokenLen = rnd ∧
        raw.length = AppendHashTokenLen ∧ d1.token.bytes.length = UrlEncodedTokenLen) ∧
      isValidToken d1.token.bytes = true ∧
      d1.status = d.status ∧ d1.values = d.values ∧ d1.csrfToken = d.csrfToken ∧
      d1.started = d.started := by
  by_cases hv : token.length > 0 ∧ isValidToken token = true
  · have hne : token ≠ [] := by
      intro h; rw [h] at hv; simp at hv
    have hset : ∀ r, d.SetToken token r = some (false,
        { d with token := ({ d.token with len := 0 } : Slice).append token }) := by
      intro r
      simp only [Data.SetToken, hv, and_self, if_true]
    refine ⟨false, _, hset _, ?_, fun _ => ⟨Slice.append_bytes _ _ rfl, hset⟩,
      fun h => by simp at h, ?_, rfl, rfl, rfl, rfl⟩
    · simp only [true_iff]
      exact ⟨hne, (isValidToken_iff token).1 hv.2⟩
    · rw [Slice.append_bytes _ _ rfl]
      exact hv.2
  · have hdst : d.token.reslice UrlEncodedTokenLen =
        some (Slice.mk d.token.before d.token.arr UrlEncodedTokenLen) := by
      simp [Slice.reslice, hcap]
    obtain ⟨raw, h1, h2, h3, h4, h5, h6, h7⟩ := generateInto_spec rnd AppendHashTokenLen
      (Slice.mk d.token.before d.token.arr UrlEncodedTokenLen) (by decide)
      (by rw [hr]; decide) hb (by show UrlEncodedTokenLen = _; decide) hcap
    let tk : Slice := Slice.mk d.token.before
      (b64encode raw ++ d.token.arr.drop UrlEncodedTokenLen) UrlEncodedTokenLen
    refine ⟨true, { d with token := tk },
      ?_, ?_, fun h => by simp at h, fun _ => ?_, ?_, rfl, rfl, rfl, rfl⟩
    · simp only [Data.SetToken, hv, if_false, hdst]
      simp only [h1]
    · simp only [Bool.true_eq_false, false_iff]
      intro h
      apply hv
      refine ⟨?_, (isValidToken_iff token).2 h.2⟩
      exact List.length_pos.2 h.1
    · refine ⟨raw, h2, ?_, h7, ?_⟩
      · rw [← hr]; exact h6
      · rw [h2, h3]
    · rw [h2]
      exact (isValidToken_iff _).2 ⟨raw, h4, h5⟩

theorem Data.SetToken_spec_witness :
    ∃ nt d1, Data.new.SetToken [] (some (List.range 30)) = some (nt, d1) ∧
      (nt = false ↔ (([] : List Nat) ≠ [] ∧
        ∃ bs, b64decode [] = some bs ∧ SimpleHash.ValidateHash bs = true)) ∧
      (nt = false → d1.token.bytes = [] ∧ ∀ r, Data.new.SetToken [] r = some (nt, d1)) ∧
      (nt = true → ∃ raw, d1.token.bytes = b64encode raw ∧
        raw.take TokenLen = List.range 30 ∧
        raw.length = AppendHashTokenLen ∧ d1.token.bytes.length = UrlEncodedTokenLen) ∧
      isValidToken d1.token.bytes = true ∧
      d1.status = Data.new.status ∧ d1.values = Data.new.values ∧
      d1.csrfToken = Data.new.csrfToken ∧ d1.started = Data.new.started :=
  Data.SetToken_spec Data.new [] (List.range 30) (by decide) (by decide) (by decide)

theorem tokenWithPrefix_pooled (token : Slice) (hpre : token.before = sessionPrefix)
    (hlen : token.len = UrlEncodedTokenLen) (hcap : token.len ≤ token.arr.length) :
    tokenWithPrefix token = some (sessionPrefix ++ token.bytes) := by
  have h1 : UrlEncodedTokenLen ≤ token.arr.length := by omega
  simp [tokenWithPrefix, hpre, h1, Slice.bytes, hlen]

theorem tokenWithPrefix_some (token : Slice)
    (hpre : sessionPrefix.length ≤ token.before.length)
    (hcap : UrlEncodedTokenLen ≤ token.arr.length) :
    ∃ key, tokenWithPrefix token = some key := by
  simp [tokenWithPrefix, hpre, hcap]

/-- C17: on a `Data` whose token slice lies in the prefixed buffer of the pool,
and with a random source that delivers, `Migrate(destroy)` returns with a newly
generated valid token, status Modified, and values, csrfToken and started
unchanged. When destroy is true and the old token is not empty, the one call it
makes on the store is `Delete` of the record of the old token, whose key is
read before the new token is written; otherwise it makes no call.
`Manager.RenewToken` is `Migrate(true)`. -/
theorem Data.Migrate_spec (s : Manager σ β) (d : Data) (destroy : Bool) (rnd : List Nat)
    (w : World σ β) (hpre : sessionPrefix.length ≤ d.token.before.length)
    (hcap : UrlEncodedTokenLen ≤ d.token.arr.length) (hr : rnd.length = TokenLen)
    (hb : ∀ b ∈ rnd, b < 256) :
    ∃ d1 w1, d.Migrate s destroy (some rnd) w = some (d1, w1) ∧
      isValidToken d1.token.bytes = true ∧
      (∃ raw, d1.token.bytes = b64encode raw ∧ raw.take TokenLen = rnd) ∧
      d1.status = Status.Modified ∧ d1.values = d.values ∧ d1.csrfToken = d.csrfToken ∧
      d1.started = d.started ∧
      ((destroy = true ∧ d.token.len ≠ 0) →
        ∃ key, tokenWithPrefix d.token = some key ∧
          w1.calls = w.calls ++ [StoreCall.delete false key] ∧
          w1.store = (s.Store.base.Delete w.store key).1 ∧
          (d.token.before = sessionPrefix → d.token.len = UrlEncodedTokenLen →
            key = sessionPrefix ++ d.token.bytes)) ∧
      (¬ (destroy = true ∧ d.token.len ≠ 0) → w1 = w) ∧
      s.RenewToken d (some rnd) w = d.Migrate s true (some rnd) w := by
  obtain ⟨key, hkey⟩ := tokenWithPrefix_some d.token hpre hcap
  have hdst : d.token.reslice UrlEncodedTokenLen =
      some (Slice.mk d.token.before d.token.arr UrlEncodedTokenLen) := by
    simp [Slice.reslice, hcap]
  obtain ⟨raw, h1, h2, h3, h4, h5, h6, h7⟩ := generateInto_spec rnd AppendHashTokenLen
    (Slice.mk d.token.before d.token.arr UrlEncodedTokenLen) (by decide)
    (by rw [hr]; decide) hb (by show UrlEncodedTokenLen = _; decide) hcap
  let tk : Slice := Slice.mk d.token.before
    (b64encode raw ++ d.token.arr.drop UrlEncodedTokenLen) UrlEncodedTokenLen
  have hgen : d.GenerateSessionId (some rnd) = some tk := by
    simp only [Data.GenerateSessionId, hdst]
    exact h1
  have hvalid : isValidToken tk.bytes = true := by
    rw [h2]; exact (isValidToken_iff _).2 ⟨raw, h4, h5⟩
  by_cases hd : destroy = true ∧ d.token.len ≠ 0
  · let w1 : World σ β :=
      { store := (s.Store.base.Delete w.store key).1
        calls := w.calls ++ [StoreCall.delete false key] }
    refine ⟨{ d with token := tk, status := Status.Modified }, w1, ?_, hvalid,
      ⟨raw, h2, by rw [← hr]; exact h6⟩, rfl, rfl, rfl, rfl, ?_, fun h => absurd hd h, rfl⟩
    · simp only [Data.Migrate, hd, and_self, if_true, Manager.storeDelete, hkey, hgen, w1,
        ne_eq, not_false_eq_true]
    · intro _
      refine ⟨key, hkey, rfl, rfl, fun hp hl => ?_⟩
      have := tokenWithPrefix_pooled d.token hp hl (by omega)
      rw [hkey] at this
      exact Option.some.inj this
  · refine ⟨{ d with token := tk, status := Status.Modified }, w, ?_, hvalid,
      ⟨raw, h2, by rw [← hr]; exact h6⟩, rfl, rfl, rfl, rfl, fun h => absurd h hd,
      fun _ => rfl, rfl⟩
    simp only [Data.Migrate, hd, if_false, hgen]

theorem b64encode_length_pos (raw : List Nat) (h : 1 ≤ raw.length) :
    0 < (b64encode raw).length := by
  rw [b64encode, List.length_map, sextets_length, EncodedLen]
  omega

theorem Data.RegenerateCsrfToken_none (d : Data) (rndCsrf : Option (List Nat)) :
    d.RegenerateCsrfToken rndCsrf = none := by
  have hg : generateInto rndCsrf CsrfTokenLen { d.csrfToken with len := 0 } = none := by
    unfold generateInto GenerateToken2
    have h2 : ¬ (List.replicate CsrfTokenLen 0).length < 2 := by decide
    simp only [h2, if_false]
    cases rndCsrf with
    | none => rfl
    | some r =>
      simp only
      cases ha : SimpleHash.AppendHash
          (r ++ (List.replicate CsrfTokenLen 0).drop ((List.replicate CsrfTokenLen 0).length - 2)) with
      | none => rfl
      | some raw =>
        have hlen : 1 ≤ raw.length := by
          unfold SimpleHash.AppendHash at ha
          split at ha
          · exact absurd ha (by simp)
          · simp only [Option.some.injEq] at ha
            rw [← ha]
            simp only [List.length_append, List.length_take, List.length_cons, List.length_nil]
            omega
        have hpos := b64encode_length_pos raw hlen
        have hb : ({ d.csrfToken with len := 0 } : Slice).bytes.length = 0 := by
          simp [Slice.bytes]
        simp only [hb, hpos, if_true]
  simp only [Data.RegenerateCsrfToken, hg]

/-- C18 (evaluation at every input): `Regenerate` never returns. After
`Migrate`, `RegenerateCsrfToken` hands `GenerateToken2` the destination
`d.csrfToken[:0]`, of length 0, and `base64.Encode` panics writing into it; the
raw buffer it passes has `CsrfTokenLen` bytes where `Start` passes
`AppendHashCsrfTokenLen`, so the encoded length would be 27, not
`UrlEncodedCsrfTokenLen`. -/
theorem Data.Regenerate_panics (s : Manager σ β) (d : Data) (destroy : Bool)
    (rndToken rndCsrf : Option (List Nat)) (w : World σ β) :
    d.Regenerate s destroy rndToken rndCsrf w = none ∧
      d.RegenerateCsrfToken rndCsrf = none ∧
      EncodedLen CsrfTokenLen = 27 ∧ UrlEncodedCsrfTokenLen = 30 := by
  refine ⟨?_, Data.RegenerateCsrfToken_none d rndCsrf, by decide, by decide⟩
  unfold Data.Regenerate
  cases d.Migrate s destroy rndToken w with
  | none => rfl
  | some r =>
    obtain ⟨d1, w1⟩ := r
    simp only [Data.RegenerateCsrfToken_none]

/-- C20: `Commit` returns an `*EncodingError` and leaves the store and its call
log untouched when `Encode` fails; when `Encode` succeeds it makes one call,
`Commit` (or `CommitCtx`) with the prefixed token, the encoded record, expiry
`now + Lifetime` and `modified = (status == Modified)`, and returns a
`*StoreError` when that call fails and nil when it succeeds; so it returns nil
exactly when both succeed. -/
theorem Manager.Commit_spec (s : Manager σ β) (ctx : Bool) (d : Data) (now : Int)
    (w : World σ β) (key : List Nat) (hkey : tokenWithPrefix d.token = some key) :
    (∀ e, s.Codec.Encode d.csrfToken.bytes d.values = .error e →
      s.Commit ctx d now w = some (some (SessionError.EncodingError e), w)) ∧
    (∀ ser, s.Codec.Encode d.csrfToken.bytes d.values = .ok ser →
      s.Commit ctx d now w =
        some (((s.ops ctx).1.Commit w.store key ser (now + s.Lifetime)
            (d.status == Status.Modified)).2.map
              (fun e => SessionError.StoreError ("commit session data:" ++ e)),
          { store := ((s.ops ctx).1.Commit w.store key ser (now + s.Lifetime)
              (d.status == Status.Modified)).1
            calls := w.calls ++ [StoreCall.commit (s.ops ctx).2 key ser (now + s.Lifetime)
              (d.status == Status.Modified)] })) ∧
    ((∃ w1, s.Commit ctx d now w = some (none, w1)) ↔
      ∃ ser, s.Codec.Encode d.csrfToken.bytes d.values = .ok ser ∧
        ((s.ops ctx).1.Commit w.store key ser (now + s.Lifetime)
          (d.status == Status.Modified)).2 = none) ∧
    (d.token.before = sessionPrefix → d.token.len = UrlEncodedTokenLen →
      d.token.len ≤ d.token.arr.length → key = sessionPrefix ++ d.token.bytes) := by
  refine ⟨?_, ?_, ?_, ?_⟩
  · intro e he
    simp only [Manager.Commit, he]
  · intro ser he
    simp only [Manager.Commit, he, Manager.doStoreCommit, hkey]
  · cases he : s.Codec.Encode d.csrfToken.bytes d.values with
    | error e => simp [Manager.Commit, he]
    | ok ser =>
      simp only [Manager.Commit, he, Manager.doStoreCommit, hkey, Option.some.injEq,
        Prod.mk.injEq, Option.map_eq_none', Except.ok.injEq, exists_eq_left']
      constructor
      · rintro ⟨w1, h1, _⟩
        exact h1
      · intro h1
        exact ⟨_, h1, rfl⟩
  · intro hp hl hc
    have := tokenWithPrefix_pooled d.token hp hl hc
    rw [hkey] at this
    exact Option.some.inj this

theorem Data.Migrate_spec_witness :
    ∃ d1 w1, tokenData.Migrate sampleManager true (some (List.range 30)) ⟨[], []⟩ =
        some (d1, w1) ∧
      isValidToken d1.token.bytes = true ∧
      (∃ raw, d1.token.bytes = b64encode raw ∧ raw.take TokenLen = List.range 30) ∧
      d1.status = Status.Modified ∧ d1.values = tokenData.values ∧
      d1.csrfToken = tokenData.csrfToken ∧ d1.started = tokenData.started ∧
      ((true = true ∧ tokenData.token.len ≠ 0) →
        ∃ key, tokenWithPrefix tokenData.token = some key ∧
          w1.calls = [] ++ [StoreCall.delete false key] ∧
          w1.store = (sampleManager.Store.base.Delete [] key).1 ∧
          (tokenData.token.before = sessionPrefix →
            tokenData.token.len = UrlEncodedTokenLen →
            key = sessionPrefix ++ tokenData.token.bytes)) ∧
      (¬ (true = true ∧ tokenData.token.len ≠ 0) → w1 = ⟨[], []⟩) ∧
      sampleManager.RenewToken tokenData (some (List.range 30)) ⟨[], []⟩ =
        tokenData.Migrate sampleManager true (some (List.range 30)) ⟨[], []⟩ :=
  Data.Migrate_spec sampleManager tokenData true (List.range 30) ⟨[], []⟩
    (by decide) (by decide) (by decide) (by decide)

theorem Manager.Commit_spec_witness :
    (∃ w1, sampleManager.Commit false tokenData 0 ⟨[], []⟩ = some (none, w1)) ↔
      ∃ ser, sampleManager.Codec.Encode tokenData.csrfToken.bytes tokenData.values = .ok ser ∧
        ((sampleManager.ops false).1.Commit [] (sessionPrefix ++ sampleToken) ser
          (0 + sampleManager.Lifetime) (tokenData.status == Status.Modified)).2 = none :=
  (Manager.Commit_spec sampleManager false tokenData 0 ⟨[], []⟩
    (sessionPrefix ++ sampleToken) (by decide)).2.2.1

/-! ## Theorems: merging and loading sessions -/

theorem mergeValues_spec (other : Values) : ∀ m : Values,
    ∃ m1, mergeValues (some m) other = some (some m1) ∧
      ∀ k, m1.lookup k = match m.lookup k with
        | some v => some v
        | none => other.lookup k := by
  induction other with
  | nil =>
    intro m
    refine ⟨m, rfl, fun k => ?_⟩
    cases m.lookup k <;> rfl
  | cons e rest ih =>
    intro m
    obtain ⟨k0, v0⟩ := e
    by_cases hk : (m.lookup k0).isSome = true
    · obtain ⟨m1, h1, h2⟩ := ih m
      refine ⟨m1, by simp only [mergeValues, hk, if_true, h1], fun k => ?_⟩
      rw [h2 k]
      cases hm : m.lookup k with
      | some v => rfl
      | none =>
        have hne : (k == k0) = false := by
          cases hkk : (k == k0) with
          | false => rfl
          | true =>
            have : k = k0 := by simpa using hkk
            rw [this] at hm
            rw [hm] at hk
            simp at hk
        simp only [List.lookup_cons, hne]
    · obtain ⟨m1, h1, h2⟩ := ih ((k0, v0) :: m.filter (fun e => e.1 != k0))
      refine ⟨m1, by simp only [mergeValues, hk, if_false, h1]; simp, fun k => ?_⟩
      rw [h2 k]
      have hnone : m.lookup k0 = none := by
        cases hm : m.lookup k0 with
        | none => rfl
        | some v => rw [hm] at hk; simp at hk
      by_cases hkk : k = k0
      · subst hkk
        simp [List.lookup_cons, hnone]
      · have hne : (k == k0) = false := by simpa using hkk
        simp only [List.lookup_cons, hne, lookup_filter_other m k0 k hkk]

/-- C19: `MergeSession(other)` returns nil and changes nothing when `other` has
the bytes of the current token. Otherwise, when the record of `other` is found
and decodes, each key holds the value of the current session if it was present
there and else the value of the other session if it was present there, no
other key appears, status becomes Modified, the tokens are unchanged, and the
calls made on the store are the `Find` and then the `Delete` of the record of
`other`, whose error, if any, is the one returned. -/
theorem Data.MergeSession_spec (s : Manager σ β) (d : Data) (ctx : Bool) (token : Slice)
    (w : World σ β) :
    (d.token.bytes = token.bytes → d.MergeSession s ctx token w = some (none, d, w)) ∧
    (∀ key st enc c ov mine, d.token.bytes ≠ token.bytes →
      tokenWithPrefix token = some key →
      (s.ops ctx).1.Find w.store key = (st, enc, true, none) →
      s.Codec.Decode enc Slice.nil = (c, ov, none) →
      d.values = some mine →
      ∃ d1, d.MergeSession s ctx token w =
          some (((s.ops ctx).1.Delete st key).2.map
              (fun e => SessionError.StoreError ("Delete:" ++ e)), d1,
            { store := ((s.ops ctx).1.Delete st key).1
              calls := w.calls ++ [StoreCall.find (s.ops ctx).2 key,
                StoreCall.delete (s.ops ctx).2 key] }) ∧
        (∀ k, d1.Get k =
          if d.Exists k = true then d.Get k else ((ov.getD []).lookup k).getD Value.nil) ∧
        (∀ k, d1.Exists k = (d.Exists k || ((ov.getD []).lookup k).isSome)) ∧
        d1.status = Status.Modified ∧ d1.token = d.token ∧
        d1.csrfToken = d.csrfToken ∧ d1.started = d.started) := by
  refine ⟨fun h => by simp only [Data.MergeSession, h, if_true], ?_⟩
  intro key st enc c ov mine hne hkey hfind hdec hv
  obtain ⟨m1, h1, h2⟩ := mergeValues_spec (ov.getD []) mine
  refine ⟨{ d with values := some m1, status := Status.Modified }, ?_, ?_, ?_,
    rfl, rfl, rfl, rfl⟩
  · simp [Data.MergeSession, hne, Manager.doStoreFind, hkey, hfind, hdec, hv, h1,
      Manager.doStoreDelete]
  · intro k
    simp only [Data.Get, Data.Exists, hv, h2 k]
    cases mine.lookup k <;> simp
  · intro k
    simp only [Data.Exists, hv, h2 k]
    cases mine.lookup k <;> simp

theorem Data.MergeSession_spec_witness :
    ∃ d1, sampleData.MergeSession sampleManager false tokenData.token
        ⟨[(sessionPrefix ++ sampleToken, ([], some [("b", Value.str "y"), ("c", Value.int 3)]))],
          []⟩ =
        some (((sampleManager.ops false).1.Delete
              [(sessionPrefix ++ sampleToken,
                ([], some [("b", Value.str "y"), ("c", Value.int 3)]))]
              (sessionPrefix ++ sampleToken)).2.map
            (fun e => SessionError.StoreError ("Delete:" ++ e)), d1,
          { store := ((sampleManager.ops false).1.Delete
              [(sessionPrefix ++ sampleToken,
                ([], some [("b", Value.str "y"), ("c", Value.int 3)]))]
              (sessionPrefix ++ sampleToken)).1
            calls := [] ++ [StoreCall.find (sampleManager.ops false).2
                (sessionPrefix ++ sampleToken),
              StoreCall.delete (sampleManager.ops false).2 (sessionPrefix ++ sampleToken)] }) ∧
      (∀ k, d1.Get k =
        if sampleData.Exists k = true then sampleData.Get k
        else (((some [("b", Value.str "y"), ("c", Value.int 3)] : Option Values).getD []).lookup
          k).getD Value.nil) ∧
      (∀ k, d1.Exists k = (sampleData.Exists k ||
        (((some [("b", Value.str "y"), ("c", Value.int 3)] : Option Values).getD []).lookup
          k).isSome)) ∧
      d1.status = Status.Modified ∧ d1.token = sampleData.token ∧
      d1.csrfToken = sampleData.csrfToken ∧ d1.started = sampleData.started :=
  (Data.MergeSession_spec sampleManager sampleData false tokenData.token
    ⟨[(sessionPrefix ++ sampleToken, ([], some [("b", Value.str "y"), ("c", Value.int 3)]))],
      []⟩).2
    (sessionPrefix ++ sampleToken)
    [(sessionPrefix ++ sampleToken, ([], some [("b", Value.str "y"), ("c", Value.int 3)]))]
    ([], some [("b", Value.str "y"), ("c", Value.int 3)])
    Slice.nil (some [("b", Value.str "y"), ("c", Value.int 3)])
    [("a", Value.int 1), ("b", Value.str "x")]
    (by decide) (by decide) rfl rfl rfl

/-- The `Decode` of `JSONCodec` returns nil for both results when `Unmarshal`
fails. -/
theorem JSONCodec_Decode_error
    (marshal : Option Values × List Nat → Except String (List Nat))
    (unmarshal : List Nat → Except String (Option Values × List Nat))
    (b : List Nat) (dst : Slice) (e : String) (hun : unmarshal b = .error e) :
    (JSONCodec marshal unmarshal).Decode b dst = (Slice.nil, none, some e) := by
  simp only [JSONCodec, hun]

/-- A record for which `Decode` returns an error and nil results, as the
`Decode` of `JSONCodec` does, makes `LoadSession` return nil with `csrfToken`
and `values` both nil, after the `Find` and the `Delete` of the record, and
`Start` then panics on `d.csrfToken[:UrlEncodedCsrfTokenLen]`. -/
theorem Data.Start_decode_failure (s : Manager σ β) (d : Data) (ctx : Bool)
    (rnd : Option (List Nat)) (w : World σ β) (key : List Nat) (b : β) (st : σ) (e : String)
    (hkey : tokenWithPrefix d.token = some key)
    (hfind : (s.ops ctx).1.Find w.store key = (st, b, true, none))
    (hdec : s.Codec.Decode b { d.csrfToken with len := 0 } = (Slice.nil, none, some e)) :
    d.LoadSession s ctx w =
        some (none, { d with csrfToken := Slice.nil, values := none },
          { store := (s.Store.base.Delete st key).1
            calls := w.calls ++ [StoreCall.find (s.ops ctx).2 key,
              StoreCall.delete false key] }) ∧
      d.Start s false ctx rnd w = none := by
  have hl : d.LoadSession s ctx w =
      some (none, { d with csrfToken := Slice.nil, values := none },
        { store := (s.Store.base.Delete st key).1
          calls := w.calls ++ [StoreCall.find (s.ops ctx).2 key,
            StoreCall.delete false key] }) := by
    simp [Data.LoadSession, Manager.doStoreFind, hkey, hfind, hdec, Manager.storeDelete]
  refine ⟨hl, ?_⟩
  simp [Data.Start, hl, Slice.nil, Slice.reslice, UrlEncodedCsrfTokenLen,
    AppendHashCsrfTokenLen, CsrfTokenLen]

/-- C14 (evaluation): the store holds, under the valid token `sampleToken`, a
record that `JSONCodec.Decode` rejects. `LoadSession` deletes the record and
returns nil, but leaves `csrfToken` and `values` nil, which is what
`JSONCodec.Decode` returns with its error; `Start(false, ctx)` then panics
slicing the nil `csrfToken` up to `UrlEncodedCsrfTokenLen`, whatever the random
source gives, and `Put` on the `Data` that `LoadSession` left would panic on
the nil map. -/
theorem Data.Start_corrupt_record_panics :
    isValidToken sampleToken = true ∧
    tokenData.LoadSession corruptManager false
        ⟨[(sessionPrefix ++ sampleToken, [110, 111])], []⟩ =
      some (none, { tokenData with csrfToken := Slice.nil, values := none },
        ⟨[], [StoreCall.find false (sessionPrefix ++ sampleToken),
          StoreCall.delete false (sessionPrefix ++ sampleToken)]⟩) ∧
    (∀ rnd, tokenData.Start corruptManager false false rnd
        ⟨[(sessionPrefix ++ sampleToken, [110, 111])], []⟩ = none) ∧
    Data.Put { tokenData with csrfToken := Slice.nil, values := none } "k" (Value.str "v") =
      none :=
  ⟨by decide, rfl, fun _ => rfl, rfl⟩

/-! ## Theorems: commit and load round trip -/

theorem Slice.append_pooled (before arr T : List Nat) (ha : arr.length = UrlEncodedTokenLen)
    (hT : T.length = UrlEncodedTokenLen) :
    (Slice.mk before arr 0).append T = Slice.mk before T UrlEncodedTokenLen := by
  unfold Slice.append
  simp [ha, hT]

theorem tokenWithPrefix_mk (T : List Nat) (hT : T.length = UrlEncodedTokenLen) :
    tokenWithPrefix (Slice.mk sessionPrefix T UrlEncodedTokenLen) = some (sessionPrefix ++ T) := by
  have h := tokenWithPrefix_pooled (Slice.mk sessionPrefix T UrlEncodedTokenLen) rfl rfl
    (by simp [hT])
  rw [h]
  simp [Slice.bytes, ← hT]

/-- The token a pooled `Data` holds after `SetToken`, when a valid cookie has
the length of a generated token. -/
theorem Data.SetToken_key (d : Data) (cookie rnd : List Nat)
    (hb : d.token.before = sessionPrefix) (ha : d.token.arr.length = UrlEncodedTokenLen)
    (hr : rnd.length = TokenLen) (hbytes : ∀ b ∈ rnd, b < 256)
    (hcookie : isValidToken cookie = true → cookie.length = UrlEncodedTokenLen) :
    ∃ nt T, d.SetToken cookie (some rnd) =
        some (nt, { d with token := Slice.mk sessionPrefix T UrlEncodedTokenLen }) ∧
      T.length = UrlEncodedTokenLen ∧ isValidToken T = true := by
  by_cases hv : cookie.length > 0 ∧ isValidToken cookie = true
  · refine ⟨false, cookie, ?_, hcookie hv.2, hv.2⟩
    simp only [Data.SetToken, hv, and_self, if_true]
    rw [Slice.append_pooled _ _ _ ha (hcookie hv.2), hb]
  · have hdst : d.token.reslice UrlEncodedTokenLen =
        some (Slice.mk d.token.before d.token.arr UrlEncodedTokenLen) := by
      simp [Slice.reslice, ha]
    obtain ⟨raw, h1, h2, h3, h4, h5, h6, h7⟩ := generateInto_spec rnd AppendHashTokenLen
      (Slice.mk d.token.before d.token.arr UrlEncodedTokenLen) (by decide)
      (by rw [hr]; decide) hbytes (by show UrlEncodedTokenLen = _; decide)
      (by show UrlEncodedTokenLen ≤ d.token.arr.length; omega)
    have hdrop : d.token.arr.drop UrlEncodedTokenLen = [] :=
      List.drop_eq_nil_of_le (by omega)
    refine ⟨true, b64encode raw, ?_, h3, (isValidToken_iff _).2 ⟨raw, h4, h5⟩⟩
    simp only [Data.SetToken, hv, if_false, hdst]
    simp only [h1]
    simp only [hdrop, List.append_nil, hb]

theorem Data.SetToken_valid (d : Data) (T : List Nat) (r : Option (List Nat))
    (hb : d.token.before = sessionPrefix) (ha : d.token.arr.length = UrlEncodedTokenLen)
    (hT : T.length = UrlEncodedTokenLen) (hv : isValidToken T = true) :
    d.SetToken T r =
      some (false, { d with token := Slice.mk sessionPrefix T UrlEncodedTokenLen }) := by
  have h0 : T.length > 0 := by rw [hT]; decide
  simp only [Data.SetToken, h0, hv, and_self, if_true]
  rw [Slice.append_pooled _ _ _ ha hT, hb]

theorem Data.LoadSession_token (s : Manager σ β) (d d1 : Data) (ctx : Bool)
    (w w1 : World σ β) (e : Option SessionError)
    (h : d.LoadSession s ctx w = some (e, d1, w1)) : d1.token = d.token := by
  unfold Data.LoadSession at h
  split at h
  · simp at h
  · split at h
    · simp only [Option.some.injEq, Prod.mk.injEq] at h
      rw [← h.2.1]
    · split at h
      · simp only [Option.some.injEq, Prod.mk.injEq] at h
        rw [← h.2.1]
      · simp only at h
        split at h
        · split at h
          · simp at h
          · simp only [Option.some.injEq, Prod.mk.injEq] at h
            rw [← h.2.1]
        · simp only [Option.some.injEq, Prod.mk.injEq] at h
          rw [← h.2.1]

theorem Data.Start_token (s : Manager σ β) (d d1 : Data) (nt ctx : Bool)
    (rnd : Option (List Nat)) (w w1 : World σ β) (e : Option SessionError)
    (h : d.Start s nt ctx rnd w = some (e, d1, w1)) : d1.token = d.token := by
  unfold Data.Start at h
  split at h
  · simp at h
  · rename_i e0 d0 w0 heq
    simp only [Option.some.injEq, Prod.mk.injEq] at h
    rw [← h.2.1]
    cases nt with
    | true =>
      simp only [Bool.not_true, Bool.false_eq_true, if_false, Option.some.injEq,
        Prod.mk.injEq] at heq
      rw [← heq.2.1]
    | false => exact Data.LoadSession_token s d d0 ctx w w0 _ (by simpa using heq)
  · rename_i d0 w0 heq
    have ht : d0.token = d.token := by
      cases nt with
      | true =>
        simp only [Bool.not_true, Bool.false_eq_true, if_false, Option.some.injEq,
          Prod.mk.injEq] at heq
        rw [← heq.2.1]
      | false => exact Data.LoadSession_token s d d0 ctx w w0 _ (by simpa using heq)
    split at h
    · split at h
      · simp at h
      · split at h
        · simp at h
        · simp only [Option.some.injEq, Prod.mk.injEq] at h
          rw [← h.2.1]
          exact ht
    · simp only [Option.some.injEq, Prod.mk.injEq] at h
      rw [← h.2.1]
      exact ht

theorem Slice.append_len_zero (before arr xs : List Nat)
    (h : ((Slice.mk before arr 0).append xs).len = 0) :
    ((Slice.mk before arr 0).append xs).arr.length = arr.length := by
  unfold Slice.append at h ⊢
  split
  · rename_i hfit
    rw [if_pos hfit] at h
    simp only [Nat.zero_add, List.length_eq_zero] at h
    simp [h]
  · rename_i hfit
    rw [if_neg hfit] at h
    simp only [Nat.zero_add, List.length_eq_zero] at h
    simp [h] at hfit

/-- The `Start` of a request whose token has a record that decodes: the values
are the decoded ones and the token is kept. -/
theorem Data.Start_found (s : Manager σ β) (d : Data) (rc : List Nat) (w : World σ β)
    (key : List Nat) (enc : β) (st : σ) (c : Slice) (vals : Option Values)
    (hkey : tokenWithPrefix d.token = some key)
    (hfind : s.Store.base.Find w.store key = (st, enc, true, none))
    (hdec : s.Codec.Decode enc (Slice.mk d.csrfToken.before d.csrfToken.arr 0) =
      (c, vals, none))
    (hc : c.len = 0 → UrlEncodedCsrfTokenLen ≤ c.arr.length)
    (hr : rc.length = CsrfTokenLen) (hbytes : ∀ b ∈ rc, b < 256) :
    ∃ db, d.Start s false false (some rc) w =
        some (none, db, ⟨st, w.calls ++ [StoreCall.find false key]⟩) ∧
      db.values = vals ∧ db.token = d.token ∧ db.status = d.status := by
  have hl : d.LoadSession s false w =
      some (none, { d with csrfToken := c, values := vals },
        ⟨st, w.calls ++ [StoreCall.find false key]⟩) := by
    simp [Data.LoadSession, Manager.doStoreFind, hkey, Manager.ops, hfind, hdec]
  by_cases h0 : c.len = 0
  · have hcap := hc h0
    have hdst : c.reslice UrlEncodedCsrfTokenLen =
        some (Slice.mk c.before c.arr UrlEncodedCsrfTokenLen) := by
      simp [Slice.reslice, hcap]
    obtain ⟨raw, h1, _⟩ := generateInto_spec rc AppendHashCsrfTokenLen
      (Slice.mk c.before c.arr UrlEncodedCsrfTokenLen) (by decide)
      (by rw [hr]; decide) hbytes (by show UrlEncodedCsrfTokenLen = _; decide) hcap
    let tok : Slice := Slice.mk c.before
      (b64encode raw ++ c.arr.drop UrlEncodedCsrfTokenLen) UrlEncodedCsrfTokenLen
    refine ⟨{ d with csrfToken := tok, values := vals, started := true }, ?_, rfl, rfl, rfl⟩
    simp only [Data.Start, Bool.not_false, if_true, hl, h0, hdst]
    simp only [h1, tok]
  · refine ⟨{ d with csrfToken := c, values := vals, started := true }, ?_, rfl, rfl, rfl⟩
    simp only [Data.Start, Bool.not_false, if_true, hl, h0, if_false]

/-- What a request that ran `putHandler` and ended without error has committed:
a record encoding values that hold the entry, under the prefixed token. -/
theorem handleStatefulRequest_put_inv (s : Manager σ β) (da dd : Data) (nt : Bool)
    (rc : Option (List Nat)) (k : String) (val : Value) (now : Int) (w0 w1 : World σ β)
    (cok : CookieAction) (T : List Nat) (hT : T.length = UrlEncodedTokenLen)
    (htok : da.token = Slice.mk sessionPrefix T UrlEncodedTokenLen)
    (h : handleStatefulRequest s false da nt rc (putHandler k val) now w0 =
      some (none, dd, w1, cok)) :
    ∃ csrf m ser st modified, s.Codec.Encode csrf (some m) = .ok ser ∧
      m.lookup k = some val ∧
      s.Store.base.Commit st (sessionPrefix ++ T) ser (now + s.Lifetime) modified =
        (w1.store, none) ∧
      ∃ rm, cok = CookieAction.setCookie T rm := by
  unfold handleStatefulRequest at h
  cases hS : da.Start s nt false rc w0 with
  | none => simp [hS] at h
  | some r =>
    obtain ⟨e, db, wb⟩ := r
    have htok1 : db.token = Slice.mk sessionPrefix T UrlEncodedTokenLen := by
      rw [Data.Start_token s da db nt false rc w0 wb e hS, htok]
    cases e with
    | some e => simp [hS] at h
    | none =>
      simp only [hS] at h
      cases hv : db.values with
      | none => simp [putHandler, Manager.Put, Manager.sessionDataFromCxt, Data.Put, hv] at h
      | some m =>
        simp only [putHandler, Manager.Put, Manager.sessionDataFromCxt, Data.Put, hv] at h
        cases hE : s.Codec.Encode db.csrfToken.bytes
            (some ((k, val) :: m.filter (fun e => e.1 != k))) with
        | error e => simp [Manager.Commit, hE] at h
        | ok ser =>
          simp only [Manager.Commit, hE, Manager.doStoreCommit, htok1,
            tokenWithPrefix_mk T hT, Manager.ops] at h
          cases hC : (s.Store.base.Commit wb.store (sessionPrefix ++ T) ser
              (now + s.Lifetime) true).2 with
          | some e => simp [hC] at h
          | none =>
            have hbytes : (Slice.mk sessionPrefix T UrlEncodedTokenLen).bytes = T := by
              simp [Slice.bytes, ← hT]
            simp [hC, hbytes] at h
            obtain ⟨_, hw, hcok⟩ := h
            refine ⟨db.csrfToken.bytes, _, ser, wb.store, true, hE, by simp, ?_, _, hcok.symm⟩
            rw [← hw]
            exact Prod.ext rfl hC

/-- C13: commit and load round trip. The store returns what was last committed
under a key and `Decode` inverts `Encode`; the `Data` of both requests come
from the pool and the random source delivers. A first request, whose cookie is
not a valid token or is one of the length of a generated token, runs a handler
that calls `Put(k, v)` and ends without error with the cookie token `T`. Then
in a second request that presents `T`, `SetToken` keeps `T` and returns false,
`Start` returns nil, `Get(k)` is `v` and the token is `T`; and when the
handler of the second request only reads, the cookie of its response is `T`
unless the commit fails. -/
theorem session_round_trip (s : Manager σ β) (d1 d2 dr : Data) (k v : String)
    (cookie1 r1 rc2 T : List Nat) (rc1 rt2 : Option (List Nat)) (now1 now2 : Int)
    (w0 w1 : World σ β) (rm : Bool)
    (hb1 : d1.token.before = sessionPrefix) (ha1 : d1.token.arr.length = UrlEncodedTokenLen)
    (hb2 : d2.token.before = sessionPrefix) (ha2 : d2.token.arr.length = UrlEncodedTokenLen)
    (hc2 : UrlEncodedCsrfTokenLen ≤ d2.csrfToken.arr.length)
    (hs2 : d2.status = Status.Unmodified)
    (hr1 : r1.length = TokenLen) (hbytes1 : ∀ b ∈ r1, b < 256)
    (hr2 : rc2.length = CsrfTokenLen) (hbytes2 : ∀ b ∈ rc2, b < 256)
    (hcookie : isValidToken cookie1 = true → cookie1.length = UrlEncodedTokenLen)
    (hstore : ∀ st key b e m st1, s.Store.base.Commit st key b e m = (st1, none) →
      ∃ st2, s.Store.base.Find st1 key = (st2, b, true, none))
    (hcodec : ∀ csrf vals enc dst, s.Codec.Encode csrf vals = .ok enc →
      s.Codec.Decode enc dst = (dst.append csrf, vals, none))
    (hreq1 : Handle s d1 cookie1 (some r1) rc1 (putHandler k (Value.str v)) now1 w0 =
      some (none, dr, w1, CookieAction.setCookie T rm)) :
    isValidToken T = true ∧
    ∃ da db wb, d2.SetToken T rt2 = some (false, da) ∧
      da.Start s false false (some rc2) w1 = some (none, db, wb) ∧
      db.Get k = Value.str v ∧ db.token.bytes = T ∧
      ∀ r, Handle s d2 T rt2 (some rc2) readHandler now2 w1 = some r →
        r.2.2.2 = CookieAction.nothing ∨ ∃ rm2, r.2.2.2 = CookieAction.setCookie T rm2 := by
  obtain ⟨nt, T1, hset, hT1, hv1⟩ :=
    Data.SetToken_key d1 cookie1 r1 hb1 ha1 hr1 hbytes1 hcookie
  unfold Handle at hreq1
  rw [hset] at hreq1
  simp only at hreq1
  cases hh : handleStatefulRequest s false
      { d1 with token := Slice.mk sessionPrefix T1 UrlEncodedTokenLen } nt rc1
      (putHandler k (Value.str v)) now1 w0 with
  | none => simp [hh] at hreq1
  | some r =>
    obtain ⟨err, dd, ww, cok⟩ := r
    rw [hh] at hreq1
    simp only [Option.some.injEq, Prod.mk.injEq] at hreq1
    obtain ⟨herr, _, hww, hcok⟩ := hreq1
    subst herr
    subst hww
    obtain ⟨csrf, m, ser, st, modified, hE, hm, hC, rm1, hcok1⟩ :=
      handleStatefulRequest_put_inv s _ dd nt rc1 k (Value.str v) now1 w0 ww cok T1 hT1 rfl hh
    have hTT : T1 = T := by
      rw [hcok1] at hcok
      simp only [CookieAction.setCookie.injEq] at hcok
      exact hcok.1
    subst hTT
    obtain ⟨st2, hfind⟩ := hstore st (sessionPrefix ++ T1) ser _ modified ww.store hC
    have hdec := hcodec csrf (some m) ser
      (Slice.mk d2.csrfToken.before d2.csrfToken.arr 0) hE
    have hbytes : (Slice.mk sessionPrefix T1 UrlEncodedTokenLen).bytes = T1 := by
      simp [Slice.bytes, ← hT1]
    obtain ⟨db, hstart, hvals, htok, hstat⟩ := Data.Start_found s
      { d2 with token := Slice.mk sessionPrefix T1 UrlEncodedTokenLen } rc2 ww
      (sessionPrefix ++ T1) ser st2 _ (some m) (tokenWithPrefix_mk T1 hT1) hfind hdec
      (fun h0 => by rw [Slice.append_len_zero _ _ _ h0]; exact hc2) hr2 hbytes2
    have hset2 := Data.SetToken_valid d2 T1 rt2 hb2 ha2 hT1 hv1
    refine ⟨hv1, { d2 with token := Slice.mk sessionPrefix T1 UrlEncodedTokenLen }, db,
      ⟨st2, ww.calls ++ [StoreCall.find false (sessionPrefix ++ T1)]⟩,
      hset2, hstart, ?_, ?_, ?_⟩
    · simp [Data.Get, hvals, hm]
    · rw [htok]
      exact hbytes
    · intro r hr
      unfold Handle at hr
      rw [hset2] at hr
      simp only [handleStatefulRequest, hstart, readHandler] at hr
      cases hCm : s.Commit false db now2
          ⟨st2, ww.calls ++ [StoreCall.find false (sessionPrefix ++ T1)]⟩ with
      | none => simp [hCm] at hr
      | some r2 =>
        obtain ⟨e2, w3⟩ := r2
        cases e2 with
        | some e2 =>
          simp only [hCm, Option.some.injEq] at hr
          left
          rw [← hr]
        | none =>
          have hnd : ¬ db.status = Status.Destroyed := by
            rw [hstat, hs2]
            decide
          simp only [hCm, hnd, if_false, Option.some.injEq] at hr
          right
          refine ⟨db.GetBool "__rememberMe", ?_⟩
          rw [← hr, htok]
          simp only [hbytes]

theorem session_round_trip_witness :
    isValidToken firstToken = true ∧
    ∃ da db wb, Data.new.SetToken firstToken none = some (false, da) ∧
      da.Start sampleManager false false (some (List.range 20)) firstWorld =
        some (none, db, wb) ∧
      db.Get "foo" = Value.str "bar" ∧ db.token.bytes = firstToken ∧
      ∀ r, Handle sampleManager Data.new firstToken none (some (List.range 20)) readHandler 1
          firstWorld = some r →
        r.2.2.2 = CookieAction.nothing ∨
          ∃ rm2, r.2.2.2 = CookieAction.setCookie firstToken rm2 :=
  session_round_trip sampleManager Data.new Data.new firstData "foo" "bar"
    [] (List.range 30) (List.range 20) firstToken (some (List.range 20)) none 0 1
    ⟨[], []⟩ firstWorld false
    rfl (by decide) rfl (by decide) (by decide) rfl (by decide) (by decide) (by decide)
    (by decide) (by decide)
    (fun st key b e m st1 h => by
      simp only [sampleManager, listStore, Prod.mk.injEq, and_true] at h
      subst h
      exact ⟨(key, b) :: st, by simp [sampleManager, listStore, List.lookup]⟩)
    (fun csrf vals enc dst h => by
      simp only [sampleManager, pairCodec, Except.ok.injEq] at h
      subst h
      rfl)
    rfl


/-! ## Theorems: destroying a session -/

/-- After a successful `Destroy` the status is what `reset` leaves. -/
theorem Manager.Destroy_ok_status (s : Manager σ β) (ctx : Bool) (sd d1 : Data)
    (w w1 : World σ β) (h : s.Destroy ctx (some sd) w = some (none, d1, w1)) :
    d1.Status = Status.Unmodified ∧ d1 = sd.reset := by
  unfold Manager.Destroy Manager.sessionDataFromCxt at h
  simp only at h
  split at h
  · simp at h
  · simp at h
  · simp only [Option.some.injEq, Prod.mk.injEq, true_and] at h
    rw [← h.1]
    exact ⟨rfl, rfl⟩

/-- C22 (evaluation): `Destroy` on a loaded session, with a store that deletes
the record, returns nil and leaves the status Unmodified, not Destroyed:
`sd.status = Destroyed` is followed by `sd.reset()`, which sets
`d.status = Unmodified`. The record is deleted and the `Data` is the reset
one. -/
theorem Manager.Destroy_status_Unmodified :
    sampleManager.Destroy true (some loadedData) storedWorld =
        some (none, loadedData.reset,
          ⟨[], [StoreCall.delete false (sessionPrefix ++ sampleToken)]⟩) ∧
      loadedData.reset.Status = Status.Unmodified ∧
      loadedData.reset.Status ≠ Status.Destroyed :=
  ⟨rfl, rfl, by decide⟩

/-- C23 (evaluation): a request presents `sampleToken`, whose record is in the
store, and its handler destroys the session successfully. The middleware then
commits the reset `Data`, which writes an empty record back under the key of
the destroyed token, and, the status being Unmodified, sets the session cookie
to the empty token with `Max-Age` equal to the lifetime (persistent cookies
being the default) instead of deleting the client cookie. -/
theorem handleStatefulRequest_after_Destroy :
    handleStatefulRequest sampleManager false tokenData false (some (List.range 20))
        (destroyHandler sampleManager) 0 storedWorld =
      some (none, loadedData.reset,
        ⟨[(sessionPrefix ++ sampleToken, ([], some []))],
          [StoreCall.find false (sessionPrefix ++ sampleToken),
            StoreCall.delete false (sessionPrefix ++ sampleToken),
            StoreCall.commit false (sessionPrefix ++ sampleToken) ([], some []) 3600 false]⟩,
        CookieAction.setCookie [] false) ∧
      CookieAction.setCookie [] false ≠ CookieAction.delClientCookie ∧
      (CookieAction.setCookie [] false).maxAge false 3600 = some 3600 :=
  ⟨rfl, by decide, rfl⟩

/-! ## Theorems: keys of a session -/

/-- C28 (evaluation): `Keys` returns the keys in the order in which the runtime
iterates the map and does not sort them. On a session holding the keys `a` and
`b` the result is `a, b` when the map is iterated in that order and `b, a`
when it is iterated in the other order. -/
theorem Data.Keys_not_sorted :
    dataBA.Keys List.reverse = ["b", "a"] ∧ dataBA.Keys id = ["a", "b"] ∧
      Manager.Keys List.reverse (some dataBA) = some ["b", "a"] ∧
      (∀ (iter : Values → Values) (m : Values),
        Data.Keys iter { Data.new with values := some m } = (iter m).map Prod.fst) :=
  ⟨rfl, rfl, rfl, fun _ _ => rfl⟩

/-! ## Theorems: store failures -/

/-- C21 (as stated) fails: with a store whose `Find` fails, `MergeSession`
returns nil and leaves the `Data` as it is. -/
theorem Data.MergeSession_swallows_Find_error :
    sampleData.MergeSession downManager false tokenData.token ⟨[], []⟩ =
      some (none, sampleData, ⟨[], [StoreCall.find false (sessionPrefix ++ sampleToken)]⟩) :=
  rfl

/-- C21 (as the code behaves): `Commit`, `Destroy` and `Start` return a
`*StoreError` when the `Commit`, `Delete` or `Find` call they make on the store
fails, and `MergeSession` returns the `*StoreError` of its `Delete` call. When
its `Find` call fails `MergeSession` returns nil and changes nothing, and the
`Delete` that `LoadSession` makes for a record that does not decode never
changes its result, which is nil. -/
theorem store_errors_surfaced (s : Manager σ β) (ctx : Bool) (d : Data) (w : World σ β)
    (key : List Nat) (e : String) (hkey : tokenWithPrefix d.token = some key) :
    (∀ ser now, s.Codec.Encode d.csrfToken.bytes d.values = .ok ser →
      ((s.ops ctx).1.Commit w.store key ser (now + s.Lifetime)
        (d.status == Status.Modified)).2 = some e →
      ∃ w1, s.Commit ctx d now w =
        some (some (SessionError.StoreError ("commit session data:" ++ e)), w1)) ∧
    (((s.ops ctx).1.Delete w.store key).2 = some e →
      ∃ w1, s.Destroy ctx (some d) w =
        some (some (SessionError.StoreError ("Delete:" ++ e)), d, w1)) ∧
    (∀ rnd, ((s.ops ctx).1.Find w.store key).2.2.2 = some e →
      ∃ w1, d.Start s false ctx rnd w =
        some (some (SessionError.StoreError ("find session data from session store: " ++
          (SessionError.StoreError ("find session data:" ++ e)).Error)), d, w1)) ∧
    (∀ d0 : Data, d0.token.bytes ≠ d.token.bytes →
      ((s.ops ctx).1.Find w.store key).2.2.2 = some e →
      ∃ w1, d0.MergeSession s ctx d.token w = some (none, d0, w1)) ∧
    (∀ (d0 : Data) mine st enc c ov, d0.token.bytes ≠ d.token.bytes →
      (s.ops ctx).1.Find w.store key = (st, enc, true, none) →
      s.Codec.Decode enc Slice.nil = (c, ov, none) → d0.values = some mine →
      ((s.ops ctx).1.Delete st key).2 = some e →
      ∃ d1 w1, d0.MergeSession s ctx d.token w =
        some (some (SessionError.StoreError ("Delete:" ++ e)), d1, w1)) ∧
    (∀ st enc c ov e1, (s.ops ctx).1.Find w.store key = (st, enc, true, none) →
      s.Codec.Decode enc { d.csrfToken with len := 0 } = (c, ov, some e1) →
      ∃ d1 w1, d.LoadSession s ctx w = some (none, d1, w1) ∧
        w1.store = (s.Store.base.Delete st key).1) := by
  refine ⟨?_, ?_, ?_, ?_, ?_, ?_⟩
  · intro ser now hE hC
    refine ⟨{ store := ((s.ops ctx).1.Commit w.store key ser (now + s.Lifetime)
                (d.status == Status.Modified)).1
              calls := w.calls ++ [StoreCall.commit (s.ops ctx).2 key ser (now + s.Lifetime)
                (d.status == Status.Modified)] }, ?_⟩
    simp only [Manager.Commit, hE, Manager.doStoreCommit, hkey, hC, Option.map_some']
  · intro hD
    refine ⟨{ store := ((s.ops ctx).1.Delete w.store key).1
              calls := w.calls ++ [StoreCall.delete (s.ops ctx).2 key] }, ?_⟩
    simp only [Manager.Destroy, Manager.sessionDataFromCxt, Manager.doStoreDelete, hkey, hD,
      Option.map_some']
  · intro rnd hF
    refine ⟨{ store := ((s.ops ctx).1.Find w.store key).1
              calls := w.calls ++ [StoreCall.find (s.ops ctx).2 key] }, ?_⟩
    simp [Data.Start, Data.LoadSession, Manager.doStoreFind, hkey, hF]
  · intro d0 hne hF
    refine ⟨{ store := ((s.ops ctx).1.Find w.store key).1
              calls := w.calls ++ [StoreCall.find (s.ops ctx).2 key] }, ?_⟩
    simp [Data.MergeSession, hne, Manager.doStoreFind, hkey, hF]
  · intro d0 mine st enc c ov hne hF hdec hv hD
    obtain ⟨m1, h1, _⟩ := mergeValues_spec (ov.getD []) mine
    refine ⟨{ d0 with values := some m1, status := Status.Modified },
      { store := ((s.ops ctx).1.Delete st key).1
        calls := w.calls ++ [StoreCall.find (s.ops ctx).2 key,
          StoreCall.delete (s.ops ctx).2 key] }, ?_⟩
    simp [Data.MergeSession, hne, Manager.doStoreFind, hkey, hF, hdec, hv, h1,
      Manager.doStoreDelete, hD]
  · intro st enc c ov e1 hF hdec
    refine ⟨{ d with csrfToken := c, values := ov },
      { store := (s.Store.base.Delete st key).1
        calls := w.calls ++ [StoreCall.find (s.ops ctx).2 key, StoreCall.delete false key] },
      ?_, rfl⟩
    simp [Data.LoadSession, Manager.doStoreFind, hkey, hF, hdec, Manager.storeDelete]

theorem store_errors_surfaced_witness :
    ∃ w1, downManager.Commit false tokenData 0 ⟨[], []⟩ =
      some (some (SessionError.StoreError ("commit session data:" ++ "down")), w1) :=
  (store_errors_surfaced downManager false tokenData ⟨[], []⟩ (sessionPrefix ++ sampleToken)
    "down" (by decide)).1 ([], some []) 0 rfl rfl

/-! ## Theorems: pooled session data -/

/-- C24: `reset` leaves the token and the CSRF token of length 0, no entry in
values, status Unmodified and started false. Hence after `reset`, and so after
a `Destroy` that returned nil, `Get` returns nil and `Exists` is false for every
key and `Keys` is empty, whatever the iteration order; and what can be read of
a `Data` after `reset` (token, CSRF token, status, started, `Get`, `Exists`,
`Keys`) is the same for every `Data`, so it tells nothing of the request that
used it before. -/
theorem Data.reset_spec (d : Data) :
    d.reset.token.len = 0 ∧ d.reset.token.bytes = [] ∧
    d.reset.csrfToken.len = 0 ∧ d.reset.csrfToken.bytes = [] ∧
    (d.reset.values = none ∨ d.reset.values = some []) ∧
    d.reset.status = Status.Unmodified ∧ d.reset.started = false ∧
    (∀ k, d.reset.Get k = Value.nil ∧ d.reset.Exists k = false) ∧
    (∀ iter : Values → Values, (∀ m, (iter m).Perm m) → d.reset.Keys iter = []) ∧
    (∀ (s : Manager σ β) ctx (w w1 : World σ β) d1,
      s.Destroy ctx (some d) w = some (none, d1, w1) →
      (∀ k, d1.Get k = Value.nil) ∧
      ∀ iter : Values → Values, (∀ m, (iter m).Perm m) → d1.Keys iter = []) ∧
    (∀ d2 : Data, d2.reset.token.bytes = d.reset.token.bytes ∧
      d2.reset.csrfToken.bytes = d.reset.csrfToken.bytes ∧
      d2.reset.status = d.reset.status ∧ d2.reset.started = d.reset.started ∧
      (∀ k, d2.reset.Get k = d.reset.Get k ∧ d2.reset.Exists k = d.reset.Exists k) ∧
      ∀ iter : Values → Values, (∀ m, (iter m).Perm m) →
        d2.reset.Keys iter = d.reset.Keys iter) := by
  have hget : ∀ (d0 : Data) k, d0.reset.Get k = Value.nil ∧ d0.reset.Exists k = false := by
    intro d0 k
    cases hv : d0.values <;> simp [Data.reset, Data.Get, Data.Exists, hv]
  have hkeys : ∀ (d0 : Data) (iter : Values → Values), (∀ m, (iter m).Perm m) →
      d0.reset.Keys iter = [] := by
    intro d0 iter hp
    cases hv : d0.values with
    | none => simp [Data.reset, Data.Keys, hv]
    | some m =>
      have h0 : iter [] = [] := List.Perm.eq_nil (hp [])
      simp [Data.reset, Data.Keys, hv, h0]
  have hbytes : ∀ d0 : Data, d0.reset.token.bytes = [] ∧ d0.reset.csrfToken.bytes = [] := by
    intro d0
    simp [Data.reset, Slice.bytes]
  refine ⟨rfl, (hbytes d).1, rfl, (hbytes d).2, ?_, rfl, rfl, hget d, hkeys d, ?_, ?_⟩
  · cases hv : d.values <;> simp [Data.reset, hv]
  · intro s ctx w w1 d1 h
    obtain ⟨_, h1⟩ := Manager.Destroy_ok_status s ctx d d1 w w1 h
    rw [h1]
    exact ⟨fun k => (hget d k).1, hkeys d⟩
  · intro d2
    refine ⟨by rw [(hbytes d2).1, (hbytes d).1], by rw [(hbytes d2).2, (hbytes d).2],
      rfl, rfl, fun k => ?_, fun iter hp => ?_⟩
    · rw [(hget d2 k).1, (hget d2 k).2, (hget d k).1, (hget d k).2]
      exact ⟨rfl, rfl⟩
    · rw [hkeys d2 iter hp, hkeys d iter hp]

theorem Data.reset_spec_witness :
    (∀ k, (loadedData.reset).Get k = Value.nil) ∧
      ∀ iter : Values → Values, (∀ m, (iter m).Perm m) → (loadedData.reset).Keys iter = [] :=
  (Data.reset_spec loadedData).2.2.2.2.2.2.2.2.2.1 sampleManager true storedWorld
    ⟨[], [StoreCall.delete false (sessionPrefix ++ sampleToken)]⟩ loadedData.reset rfl

/-! ## Theorems: iterating over the sessions -/

/-- The loop of `Iterate` with a non-nil context: it returns, and `called`
lists the invocations of `fn` the loop adds to the log. -/
theorem iterateLoop_spec (codec : Codec β)
    (fn : Data → τ → Option SessionError × Data × τ) :
    ∀ (all : List (List Nat × β)) (data : Data) (t : τ) (log0 : List (Data × τ)),
      data.token.len = 0 →
      ∃ (err : Option SessionError) (d1 : Data) (t1 : τ) (called : List (Data × τ)),
        iterateLoop codec fn true all data t log0 = some (err, d1, t1, log0 ++ called) ∧
        called.length ≤ all.length ∧
        List.Forall₂ (holdsSession codec) called (all.take called.length) ∧
        (∀ x, called.head? = some x → x.2 = t) ∧
        List.Chain' (fun x y => (fn x.1 x.2).1 = none ∧ y.2 = (fn x.1 x.2).2.2) called ∧
        (err = none →
          called.length = all.length ∧ ∀ x ∈ called, (fn x.1 x.2).1 = none) ∧
        (∀ e, err = some e →
          (∃ x, called.getLast? = some x ∧ (fn x.1 x.2).1 = some e) ∨
          (∃ session dst e1, all[called.length]? = some session ∧ dst.len = 0 ∧
            (codec.Decode session.2 dst).2.2 = some e1 ∧ e = SessionError.other e1 ∧
            ∀ x ∈ called, (fn x.1 x.2).1 = none)) := by
  intro all
  induction all with
  | nil =>
    intro data t log0 _
    exact ⟨none, data, t, [], by simp [iterateLoop], by simp, by simp, by simp, by simp,
      fun _ => ⟨rfl, by simp⟩, fun e h => by simp at h⟩
  | cons session rest ih =>
    intro data t log0 hlen
    obtain ⟨token, b⟩ := session
    have htok : ((Slice.mk data.token.before data.token.arr data.token.len).append
        token).bytes = token := Slice.append_bytes _ _ hlen
    let data2 : Data :=
      { status := data.status
        token := data.token.append token
        csrfToken := (codec.Decode b (Slice.mk data.csrfToken.before data.csrfToken.arr 0)).1
        values := (codec.Decode b (Slice.mk data.csrfToken.before data.csrfToken.arr 0)).2.1
        started := data.started }
    cases hr : (codec.Decode b (Slice.mk data.csrfToken.before data.csrfToken.arr 0)).2.2 with
    | some e1 =>
      refine ⟨some (SessionError.other e1), data2, t, [], ?_, by simp, by simp, by simp,
        by simp, ?_, ?_⟩
      · simp [iterateLoop, hr, data2]
      · intro h
        simp at h
      · intro e h
        right
        refine ⟨(token, b), Slice.mk data.csrfToken.before data.csrfToken.arr 0, e1,
          by simp, rfl, hr, ?_, by simp⟩
        simp only [Option.some.injEq] at h
        exact h.symm
    | none =>
      have hholds : holdsSession codec (data2, t) (token, b) := by
        refine ⟨?_, Slice.mk data.csrfToken.before data.csrfToken.arr 0, rfl, ?_⟩
        · exact Slice.append_bytes _ _ hlen
        · exact Prod.ext rfl (Prod.ext rfl hr)
      cases hout : (fn data2 t).1 with
      | some err =>
        refine ⟨some err, (fn data2 t).2.1.reset, (fn data2 t).2.2, [(data2, t)], ?_,
          by simp, ?_, by simp, by simp, ?_, ?_⟩
        · simp [iterateLoop, hr, data2, hout]
        · simpa using hholds
        · intro h
          simp at h
        · intro e h
          left
          refine ⟨(data2, t), rfl, ?_⟩
          simp only [Option.some.injEq] at h
          rw [hout, h]
      | none =>
        obtain ⟨err, d1, t1, called, h1, h2, h3, h4, h5, h6, h7⟩ :=
          ih (fn data2 t).2.1.reset (fn data2 t).2.2 (log0 ++ [(data2, t)]) rfl
        have hloop : iterateLoop codec fn true ((token, b) :: rest) data t log0 =
            iterateLoop codec fn true rest (fn data2 t).2.1.reset (fn data2 t).2.2
              (log0 ++ [(data2, t)]) := by
          simp [iterateLoop, hr, data2, hout]
        rw [hloop]
        refine ⟨err, d1, t1, (data2, t) :: called, ?_, by simpa using h2, ?_, by simp, ?_,
          ?_, ?_⟩
        · rw [h1]
          simp
        · simpa using ⟨hholds, h3⟩
        · rw [List.chain'_cons']
          refine ⟨fun y hy => ⟨hout, h4 y (by simpa using hy)⟩, h5⟩
        · intro h
          obtain ⟨ha, hb⟩ := h6 h
          refine ⟨by simp [ha], ?_⟩
          intro x hx
          rcases List.mem_cons.1 hx with hx | hx
          · rw [hx]; exact hout
          · exact hb x hx
        · intro e h
          rcases h7 e h with ⟨x, hx1, hx2⟩ | ⟨session, dst, e1, hs1, hs2, hs3, hs4, hs5⟩
          · left
            refine ⟨x, ?_, hx2⟩
            cases called with
            | nil => simp at hx1
            | cons y ys => simpa using hx1
          · right
            refine ⟨session, dst, e1, by simpa using hs1, hs2, hs3, hs4, ?_⟩
            intro x hx
            rcases List.mem_cons.1 hx with hx | hx
            · rw [hx]; exact hout
            · exact hs5 x hx

/-- The loop of `Iterate` with a nil context: it panics as soon as a record
decodes, before `fn` is invoked, and returns the error of `Decode` otherwise. -/
theorem iterateLoop_nil_ctx (codec : Codec β)
    (fn : Data → τ → Option SessionError × Data × τ) (token : List Nat) (b : β)
    (rest : List (List Nat × β)) (data : Data) (t : τ) (log0 : List (Data × τ))
    (hdec : (codec.Decode b (Slice.mk data.csrfToken.before data.csrfToken.arr 0)).2.2 = none) :
    iterateLoop codec fn false ((token, b) :: rest) data t log0 = none := by
  simp [iterateLoop, hdec]

/-- With a non-nil context and a store that returns its sessions without
error, `Iterate` returns, and the invocations of `fn` are made, in the order of
the iteration, on an initial run of the sessions: each with a `Data` holding
the token of the session and what `Decode` returned for its record, each after
the previous one returned nil, `fn` being handed the state the previous call
left. `Iterate` returns nil exactly when `fn` was invoked for every session and
always returned nil; an error it returns is the one the last invocation of `fn`
returned, or the one `Decode` returned for the first session for which `fn` was
not invoked. -/
theorem Manager.Iterate_spec (s : Manager σ β) (it : IterableOps σ β)
    (pooled : Data) (fn : Data → τ → Option SessionError × Data × τ) (t : τ) (st st1 : σ)
    (all : List (List Nat × β))
    (hall : Manager.doStoreAll it true st = some (st1, all, none))
    (hpool : pooled.token.len = 0) :
    ∃ err released t1 called,
      s.Iterate it true pooled fn t st = some (err, released, t1, st1, called) ∧
      called.length ≤ all.length ∧
      List.Forall₂ (holdsSession s.Codec) called (all.take called.length) ∧
      (∀ x, called.head? = some x → x.2 = t) ∧
      List.Chain' (fun x y => (fn x.1 x.2).1 = none ∧ y.2 = (fn x.1 x.2).2.2) called ∧
      (err = none ↔ called.length = all.length ∧ ∀ x ∈ called, (fn x.1 x.2).1 = none) ∧
      (∀ e, err = some e →
        (∃ x, called.getLast? = some x ∧ (fn x.1 x.2).1 = some e) ∨
        (∃ session dst e1, all[called.length]? = some session ∧ dst.len = 0 ∧
          (s.Codec.Decode session.2 dst).2.2 = some e1 ∧ e = SessionError.other e1 ∧
          ∀ x ∈ called, (fn x.1 x.2).1 = none)) := by
  obtain ⟨err, d1, t1, called, h1, h2, h3, h4, h5, h6, h7⟩ :=
    iterateLoop_spec s.Codec fn all pooled t [] hpool
  refine ⟨err, d1.reset, t1, called, ?_, h2, h3, h4, h5, ⟨h6, ?_⟩, h7⟩
  · simp only [Manager.Iterate, hall, h1]
    simp
  · intro ⟨ha, hb⟩
    cases herr : err with
    | none => rfl
    | some e =>
      exfalso
      rcases h7 e herr with ⟨x, hx1, hx2⟩ | ⟨session, dst, e1, hs1, _⟩
      · have hx := hb x (List.mem_of_mem_getLast? hx1)
        rw [hx] at hx2
        simp at hx2
      · rw [ha] at hs1
        simp at hs1

theorem Manager.Iterate_spec_witness :
    ∃ err released t1 called,
      sampleManager.Iterate (listIterable (List Nat × Option Values)) true Data.new
          countingFn 0 twoSessions = some (err, released, t1, twoSessions, called) ∧
      called.length ≤ twoSessionsAll.length ∧
      List.Forall₂ (holdsSession sampleManager.Codec) called
        (twoSessionsAll.take called.length) ∧
      (∀ x, called.head? = some x → x.2 = 0) ∧
      List.Chain' (fun x y => (countingFn x.1 x.2).1 = none ∧
        y.2 = (countingFn x.1 x.2).2.2) called ∧
      (err = none ↔
        called.length = twoSessionsAll.length ∧
          ∀ x ∈ called, (countingFn x.1 x.2).1 = none) ∧
      (∀ e, err = some e →
        (∃ x, called.getLast? = some x ∧ (countingFn x.1 x.2).1 = some e) ∨
        (∃ session dst e1,
          twoSessionsAll[called.length]? = some session ∧ dst.len = 0 ∧
          (sampleManager.Codec.Decode session.2 dst).2.2 = some e1 ∧
          e = SessionError.other e1 ∧ ∀ x ∈ called, (countingFn x.1 x.2).1 = none)) :=
  Manager.Iterate_spec sampleManager (listIterable (List Nat × Option Values)) Data.new
    countingFn 0 twoSessions twoSessions twoSessionsAll rfl rfl

/-- C26 (evaluation): `Iterate` called with a nil context on a store that holds
two sessions panics: `doStoreAll` takes the nil context for a normal input and
returns the sessions of `All`, the first record decodes, and
`context.WithValue(ctx, ContextKey, data)` panics on the nil parent before
`fn` is invoked. On an empty store the same call returns nil, and with a
non-nil context `fn` is invoked for both sessions and `Iterate` returns the
error of the second invocation. -/
theorem Manager.Iterate_nil_ctx_panics :
    Manager.doStoreAll (listIterable (List Nat × Option Values)) false twoSessions =
      some (twoSessions, twoSessionsAll, none) ∧
    sampleManager.Iterate (listIterable (List Nat × Option Values)) false Data.new
      countingFn 0 twoSessions = none ∧
    (sampleManager.Iterate (listIterable (List Nat × Option Values)) false Data.new
      countingFn 0 []).map (fun r => (r.1, r.2.2.1, r.2.2.2.2.length)) = some (none, 0, 0) ∧
    (sampleManager.Iterate (listIterable (List Nat × Option Values)) true Data.new
      countingFn 0 twoSessions).map (fun r => (r.1, r.2.2.1, r.2.2.2.2.length)) =
      some (some (SessionError.other "expected error"), 2, 2) := by
  refine ⟨rfl, rfl, ?_, ?_⟩ <;> decide

/-! ## Theorems: pooled contexts -/

/-- C25 (evaluation): `clear` resets `data` and `route` only, and `init` assigns
the request and `index` only, so `XFFInfo`, `RIP`, `RHost`, `RPort`, `RSecure`
and `bytes` of one request are still there in the next. After a request made
for the client `1.1.1.1` over https, the same `Ctx` initialised for a request
made for `2.2.2.2` over http has no data item and no route, but `IP()` returns
`1.1.1.1` and `Secure()` returns true, before as well as after the XFF
middleware of the second request has run; a `Ctx` new from the pool returns
`2.2.2.2` and false. -/
theorem Ctx_cached_client_survives :
    (∀ k, (ctxAfterA.init requestOfB).Get k = Value.nil) ∧
    (ctxAfterA.init requestOfB).Route = none ∧
    (ctxAfterA.init requestOfB).XFFInfo.isSome = true ∧
    (ctxAfterA.init requestOfB).RIP = "1.1.1.1".toList.map Char.toNat ∧
    (ctxAfterA.init requestOfB).RSecure = PROTOSECURE ∧
    (ctxAfterA.init requestOfB).IP.1 = "1.1.1.1".toList.map Char.toNat ∧
    (ctxAfterA.init requestOfB).Secure.1 = true ∧
    (PooledCtx.IP { ctxAfterA.init requestOfB with XFFInfo := some trustingXFF }).1 =
      "1.1.1.1".toList.map Char.toNat ∧
    (PooledCtx.IP { PooledCtx.new.init requestOfB with XFFInfo := some trustingXFF }).1 =
      "2.2.2.2".toList.map Char.toNat ∧
    (PooledCtx.Secure { PooledCtx.new.init requestOfB with XFFInfo := some trustingXFF }).1 =
      false ∧
    (∀ (c : PooledCtx) req, (c.clear.init req).toClientCache = c.toClientCache ∧
      (c.clear.init req).bytes = c.bytes ∧
      (c.clear.init req).XFFInfo.isSome = c.XFFInfo.isSome) := by
  refine ⟨fun k => rfl, rfl, rfl, by decide, by decide, by decide, by decide, by decide,
    by decide, by decide, fun c req => ⟨rfl, rfl, rfl⟩⟩

/-! ## Theorems: CSRF check -/

/-- C27 (evaluation): `handle` also lets a request pass when the session's own
CSRF token, taken as bytes, passes `ValidateHash`. `hashedCsrfToken` is a token
that `Start` generates (from the random bytes `0, 135, 34, 0, …, 0`) and it
passes; with it a `POST` that carries no token reaches the next handler and
ends with nil, where a session with the token `firstCsrfToken` gets
`csrf token mismatch` without the next handler being invoked. The method test
is a substring test: the method `OPT` counts as a reading method. -/
theorem csrf_passes_without_token :
    (∃ d w, Data.new.Start sampleManager true false
        (some ([0, 135, 34] ++ List.replicate 17 0)) ⟨[], []⟩ = some (none, d, w) ∧
      d.csrfToken.bytes = hashedCsrfToken) ∧
    SimpleHash.ValidateHash hashedCsrfToken = true ∧
    getTokenFromRequest postWithoutToken = [] ∧
    runCsrf ⟨[], false⟩ postWithoutToken (some hashedCsrfData) =
      some (none, ⟨3, some hashedCsrfToken,
        [Event.call 0, Event.call 1, Event.ret 1 none, Event.ret 0 none]⟩) ∧
    runCsrf ⟨[], false⟩ postWithoutToken (some loadedData) =
      some (some mismatchError, ⟨0, none, [Event.call 0, Event.ret 0 (some mismatchError)]⟩) ∧
    CsrfConfig.isReading { postWithoutToken with method := "OPT".toList } = true := by
  refine ⟨⟨_, _, rfl, rfl⟩, by decide, rfl, rfl, rfl, by decide⟩

/-! ## Theorems: group paths -/

theorem TrimRight_slash (s : List Char) :
    (TrimRight s ['/']).getLast? ≠ some '/' ∧
      ∃ n, s = TrimRight s ['/'] ++ List.replicate n '/' := by
  induction s using List.reverseRecOn with
  | nil => exact ⟨by simp [TrimRight], 0, by simp [TrimRight]⟩
  | append_singleton l x ih =>
    by_cases hx : x = '/'
    · subst hx
      have h : TrimRight (l ++ ['/']) ['/'] = TrimRight l ['/'] := by
        unfold TrimRight
        exact List.rdropWhile_concat_pos _ _ _ (by simp)
      rw [h]
      obtain ⟨h1, n, h2⟩ := ih
      refine ⟨h1, n + 1, ?_⟩
      rw [List.replicate_succ', ← List.append_assoc, ← h2]
    · have h : TrimRight (l ++ [x]) ['/'] = l ++ [x] := by
        unfold TrimRight
        exact List.rdropWhile_concat_neg _ _ _ (by simpa using hx)
      rw [h]
      exact ⟨by simpa using hx, 0, by simp⟩

/-- C30 (as stated) fails: the leading slashes of the path are all kept, so a
path that starts with two slashes leaves two slashes at the boundary; and for
the empty path the prefix is returned with its trailing slashes. -/
theorem getGroupPath_double_slash :
    getGroupPath "/api".toList "//x".toList = "/api//x".toList ∧
      getGroupPath "/api/".toList "//x".toList = "/api//x".toList ∧
      getGroupPath "/api//".toList [] = "/api//".toList := by
  decide

/-- C30 (as the code behaves): for a non-empty path that does not start with
two slashes, the result is the prefix without its trailing slashes, one slash,
and the path without its leading slash if it has one: the text before that
slash does not end with a slash and the text after it does not start with one.
For the empty path the result is the prefix, unchanged. -/
theorem getGroupPath_boundary (groupPrefix path : List Char) (hne : path ≠ [])
    (h2 : path.take 2 ≠ ['/', '/']) :
    ∃ rest n, getGroupPath groupPrefix path = TrimRight groupPrefix ['/'] ++ '/' :: rest ∧
      groupPrefix = TrimRight groupPrefix ['/'] ++ List.replicate n '/' ∧
      (TrimRight groupPrefix ['/']).getLast? ≠ some '/' ∧
      rest.head? ≠ some '/' ∧ (path = rest ∨ path = '/' :: rest) ∧
      getGroupPath groupPrefix [] = groupPrefix := by
  obtain ⟨h1, n, hn⟩ := TrimRight_slash groupPrefix
  have hlen : ¬ path.length = 0 := by
    intro h
    exact hne (List.length_eq_zero.1 h)
  cases path with
  | nil => exact absurd rfl hne
  | cons c cs =>
    by_cases hc : c = '/'
    · subst hc
      refine ⟨cs, n, ?_, hn, h1, ?_, Or.inr rfl, by simp [getGroupPath]⟩
      · simp [getGroupPath]
      · intro h
        cases cs with
        | nil => simp at h
        | cons c2 cs2 =>
          simp only [List.head?_cons, Option.some.injEq] at h
          subst h
          exact h2 rfl
    · refine ⟨c :: cs, n, ?_, hn, h1, by simpa using hc, Or.inl rfl, by simp [getGroupPath]⟩
      simp [getGroupPath, hc]

theorem getGroupPath_boundary_witness :
    ∃ rest n, getGroupPath "/api//".toList "users".toList =
        TrimRight "/api//".toList ['/'] ++ '/' :: rest ∧
      "/api//".toList = TrimRight "/api//".toList ['/'] ++ List.replicate n '/' ∧
      (TrimRight "/api//".toList ['/']).getLast? ≠ some '/' ∧
      rest.head? ≠ some '/' ∧ ("users".toList = rest ∨ "users".toList = '/' :: rest) ∧
      getGroupPath "/api//".toList [] = "/api//".toList :=
  getGroupPath_boundary "/api//".toList "users".toList (by decide) (by decide)

/-! ## Theorems: quicksort -/

theorem scanDown_spec (cmp : α → α → Int) (s : List α) (temp : α) (p : Nat) :
    ∀ j, j < s.length →
      ∃ j1, scanDown cmp s temp p j = some j1 ∧ j1 ≤ j ∧ (p ≤ j → p ≤ j1) ∧
        (∀ k x, j1 < k → k ≤ j → s[k]? = some x → 0 ≤ cmp x temp) ∧
        (j1 ≤ p ∨ ∃ x, s[j1]? = some x ∧ cmp x temp < 0) := by
  intro j
  induction j with
  | zero =>
    intro h
    refine ⟨0, ?_, Nat.le_refl _, fun hp => hp, ?_, Or.inl (Nat.zero_le _)⟩
    · simp [scanDown, List.getElem?_eq_getElem h]
    · intro k x h1 h2
      omega
  | succ j ih =>
    intro h
    by_cases hc : 0 ≤ cmp s[j + 1] temp ∧ p < j + 1
    · obtain ⟨j1, h1, h2, h3, h4, h5⟩ := ih (by omega)
      refine ⟨j1, ?_, by omega, fun _ => h3 (by omega), ?_, h5⟩
      · simp [scanDown, List.getElem?_eq_getElem h, hc, h1]
      · intro k x hk1 hk2 hx
        by_cases hk : k = j + 1
        · subst hk
          rw [List.getElem?_eq_getElem h] at hx
          simp only [Option.some.injEq] at hx
          rw [← hx]
          exact hc.1
        · exact h4 k x hk1 (by omega) hx
    · refine ⟨j + 1, ?_, Nat.le_refl _, fun hp => hp, ?_, ?_⟩
      · simp [scanDown, List.getElem?_eq_getElem h, hc]
      · intro k x hk1 hk2
        omega
      · by_cases hp : p < j + 1
        · right
          refine ⟨s[j + 1], List.getElem?_eq_getElem h, ?_⟩
          have : ¬ 0 ≤ cmp s[j + 1] temp := fun h0 => hc ⟨h0, hp⟩
          omega
        · left
          omega

theorem scanUpAux_spec (cmp : α → α → Int) (s : List α) (temp : α) (p : Nat)
    (hp : p < s.length) :
    ∀ n i, i + n = p →
      ∃ i1, scanUpAux cmp s temp p n i = some i1 ∧ i ≤ i1 ∧ i1 ≤ p ∧
        (∀ k x, i ≤ k → k < i1 → s[k]? = some x → cmp x temp ≤ 0) ∧
        (i1 = p ∨ ∃ x, s[i1]? = some x ∧ 0 < cmp x temp) ∧
        (∀ x, s[i]? = some x → cmp x temp ≤ 0 → i < p → i < i1) := by
  intro n
  induction n with
  | zero =>
    intro i hi
    have hip : i = p := by omega
    subst hip
    refine ⟨i, ?_, Nat.le_refl _, Nat.le_refl _, ?_, Or.inl rfl, ?_⟩
    · simp [scanUpAux, List.getElem?_eq_getElem hp]
    · intro k x h1 h2
      omega
    · intro x _ _ h
      omega
  | succ n ih =>
    intro i hi
    have hlt : i < s.length := by omega
    by_cases hc : cmp s[i] temp ≤ 0
    · obtain ⟨i1, h1, h2, h3, h4, h5, _⟩ := ih (i + 1) (by omega)
      refine ⟨i1, ?_, by omega, h3, ?_, h5, fun _ _ _ _ => by omega⟩
      · have hip : i < p := by omega
        simp [scanUpAux, List.getElem?_eq_getElem hlt, hc, hip, h1]
      · intro k x hk1 hk2 hx
        by_cases hk : k = i
        · subst hk
          rw [List.getElem?_eq_getElem hlt] at hx
          simp only [Option.some.injEq] at hx
          rw [← hx]
          exact hc
        · exact h4 k x (by omega) hk2 hx
    · refine ⟨i, ?_, Nat.le_refl _, by omega, ?_, ?_, ?_⟩
      · simp [scanUpAux, List.getElem?_eq_getElem hlt, hc]
      · intro k x hk1 hk2
        omega
      · right
        exact ⟨s[i], List.getElem?_eq_getElem hlt, by omega⟩
      · intro x hx hx2 _
        rw [List.getElem?_eq_getElem hlt] at hx
        simp only [Option.some.injEq] at hx
        rw [← hx] at hx2
        exact absurd hx2 hc

/-- Moving the element at `b` into the hole at `a` makes `b` the hole. -/
theorem hole_move [DecidableEq α] (l : List α) (a b : Nat) (x v : α) (hab : a ≠ b)
    (ha : a < l.length) (hb : l[b]? = some x) :
    ((l.set a x).set b v).Perm (l.set a v) := by
  have hbl : b < l.length := by
    rcases Nat.lt_or_ge b l.length with h | h
    · exact h
    · rw [List.getElem?_eq_none h] at hb
      simp at hb
  have hbx : l[b] = x := by
    rw [List.getElem?_eq_getElem hbl] at hb
    exact Option.some.inj hb
  rw [List.perm_iff_count]
  intro c
  rw [List.count_set _ _ _ _ (by simpa using hbl), List.count_set _ _ _ _ ha,
    List.count_set _ _ _ _ ha]
  have hbl2 : b < (l.set a x).length := by simpa using hbl
  have h1 : (l.set a x)[b] = x := by
    rw [List.getElem_set_ne hab]
    exact hbx
  rw [h1]
  have h2 : (if l[a] == c then 1 else 0) ≤ l.count c := by
    by_cases hc : l[a] = c
    · have hpos : 0 < l.count c := List.count_pos_iff.2 (hc ▸ List.getElem_mem _)
      have hb1 : (l[a] == c) = true := by simpa using hc
      rw [if_pos hb1]
      exact hpos
    · have hb1 : ¬ (l[a] == c) = true := by simpa using hc
      rw [if_neg hb1]
      exact Nat.zero_le _
  split_ifs <;> omega

/-- The loop of `quickSort`, entered with the hole `p` at `i`: everything left
of `i` is at most `temp`, everything right of `j` is at least `temp`, and the
slice with `temp` in the hole is a permutation of `s0`. With fuel for `j - i`
iterations it ends, and the same holds around the final hole. -/
theorem partLoop_spec [DecidableEq α] (cmp : α → α → Int) (temp : α) (s0 : List α) :
    ∀ (fuel : Nat) (s : List α) (i j : Nat), j < s.length → i ≤ j → j ≤ i + fuel →
      (∀ k x, k < i → s[k]? = some x → cmp x temp ≤ 0) →
      (∀ k x, j < k → s[k]? = some x → 0 ≤ cmp x temp) →
      (s.set i temp).Perm s0 →
      ∃ s1 p, partLoop cmp temp fuel s i j i = some (s1, p) ∧ s1.length = s.length ∧
        p < s1.length ∧
        (∀ k x, k < p → s1[k]? = some x → cmp x temp ≤ 0) ∧
        (∀ k x, p < k → s1[k]? = some x → 0 ≤ cmp x temp) ∧
        (s1.set p temp).Perm s0 := by
  intro fuel
  induction fuel with
  | zero =>
    intro s i j hj hij hfuel hL hR hperm
    have hji : j = i := by omega
    subst hji
    exact ⟨s, j, by simp [partLoop], rfl, hj, hL, hR, hperm⟩
  | succ fuel ih =>
    intro s i j hj hij hfuel hL hR hperm
    by_cases hlt : i < j
    · obtain ⟨j1, hs1, hj1, hpj, hR1, hstop⟩ := scanDown_spec cmp s temp i j hj
      have hij1 : i ≤ j1 := hpj hij
      have hRj1 : ∀ k x, j1 < k → s[k]? = some x → 0 ≤ cmp x temp := by
        intro k x hk hx
        by_cases hkj : k ≤ j
        · exact hR1 k x hk hkj hx
        · exact hR k x (by omega) hx
      by_cases hj1i : j1 = i
      · subst hj1i
        obtain ⟨i1, hu1, hu2, hu3, _, _, _⟩ :=
          scanUpAux_spec cmp s temp j1 (by omega) 0 j1 rfl
        have hi1 : i1 = j1 := by omega
        subst hi1
        obtain ⟨s1, p, h1, h2⟩ := ih s i1 i1 (by omega) (Nat.le_refl _) (by omega) hL hRj1 hperm
        refine ⟨s1, p, ?_, h2⟩
        simp [partLoop, hlt, hs1, scanUp, hu1, h1]
      · have hlt1 : i < j1 := by omega
        obtain ⟨x, hx1, hx2⟩ : ∃ x, s[j1]? = some x ∧ cmp x temp < 0 := by
          rcases hstop with h | h
          · omega
          · exact h
        have hil : i < s.length := by omega
        have hmove : moveTo s i j1 = some (s.set i x, j1) := by
          simp [moveTo, hx1, hil]
        have hj1l : j1 < (s.set i x).length := by
          rw [List.length_set]
          omega
        obtain ⟨i1, hu1, hu2, hu3, hu4, hu5, hu6⟩ :=
          scanUpAux_spec cmp (s.set i x) temp j1 hj1l (j1 - i) i (by omega)
        have hii1 : i < i1 :=
          hu6 x (List.getElem?_set_self hil) (by omega) hlt1
        have hL1 : ∀ k y, k < i1 → (s.set i x)[k]? = some y → cmp y temp ≤ 0 := by
          intro k y hk hy
          by_cases hki : k < i
          · rw [List.getElem?_set_ne (by omega)] at hy
            exact hL k y hki hy
          · exact hu4 k y (by omega) hk hy
        have hR1' : ∀ k y, j1 < k → (s.set i x)[k]? = some y → 0 ≤ cmp y temp := by
          intro k y hk hy
          rw [List.getElem?_set_ne (by omega)] at hy
          exact hRj1 k y hk hy
        have hperm1 : ((s.set i x).set j1 temp).Perm s0 :=
          (hole_move s i j1 x temp (by omega) hil hx1).trans hperm
        by_cases hi1 : i1 = j1
        · subst hi1
          obtain ⟨s1, p, h1, h2, h3⟩ := ih (s.set i x) i1 i1 hj1l (Nat.le_refl _) (by omega)
            hL1 hR1' hperm1
          refine ⟨s1, p, ?_, by rw [h2, List.length_set], h3⟩
          simp [partLoop, hlt, hs1, hj1i, hmove, scanUp, hu1, h1]
        · obtain ⟨y, hy1, hy2⟩ : ∃ y, (s.set i x)[i1]? = some y ∧ 0 < cmp y temp := by
            rcases hu5 with h | h
            · exact absurd h hi1
            · exact h
          have hmove2 : moveTo (s.set i x) j1 i1 = some ((s.set i x).set j1 y, i1) := by
            simp only [moveTo, hy1, hj1l, if_true]
          have hL2 : ∀ k z, k < i1 → ((s.set i x).set j1 y)[k]? = some z → cmp z temp ≤ 0 := by
            intro k z hk hz
            rw [List.getElem?_set_ne (by omega)] at hz
            exact hL1 k z hk hz
          have hR2 : ∀ k z, j1 < k → ((s.set i x).set j1 y)[k]? = some z →
              0 ≤ cmp z temp := by
            intro k z hk hz
            rw [List.getElem?_set_ne (by omega)] at hz
            exact hR1' k z hk hz
          have hperm2 : (((s.set i x).set j1 y).set i1 temp).Perm s0 :=
            (hole_move (s.set i x) j1 i1 y temp (by omega) hj1l hy1).trans hperm1
          obtain ⟨s1, p, h1, h2, h3⟩ := ih ((s.set i x).set j1 y) i1 j1
            (by simpa using hj1l) (by omega) (by omega) hL2 hR2 hperm2
          refine ⟨s1, p, ?_, by rw [h2, List.length_set, List.length_set], h3⟩
          simp [partLoop, hlt, hs1, hj1i, hmove, scanUp, hu1, hi1, hmove2, h1]
    · have hji : j = i := by omega
      subst hji
      exact ⟨s, j, by simp [partLoop], rfl, hj, hL, hR, hperm⟩

theorem sorted_of_length_le_one (r : α → α → Prop) (l : List α) (h : l.length ≤ 1) :
    l.Sorted r := by
  match l, h with
  | [], _ => exact List.sorted_nil
  | [a], _ => exact List.sorted_singleton a

/-- With fuel for a recursion as deep as the slice is long, `quickSort` returns
and leaves a sorted permutation of the slice. -/
theorem quickSort_spec [DecidableEq α] (cmp : α → α → Int)
    (hanti : ∀ a b, 0 ≤ cmp a b → cmp b a ≤ 0)
    (htrans : ∀ a b c, cmp a b ≤ 0 → cmp b c ≤ 0 → cmp a c ≤ 0) :
    ∀ (fuel : Nat) (s : List α), s ≠ [] → s.length ≤ fuel →
      ∃ r, quickSort cmp fuel s = some r ∧ r.Perm s ∧ r.Sorted (fun a b => cmp a b ≤ 0) := by
  intro fuel
  induction fuel with
  | zero =>
    intro s hne hlen
    exact absurd (List.length_eq_zero.1 (Nat.le_zero.1 hlen)) hne
  | succ fuel ih =>
    intro s hne hlen
    obtain ⟨temp, tl, hs⟩ : ∃ temp tl, s = temp :: tl := by
      cases s with
      | nil => exact absurd rfl hne
      | cons a l => exact ⟨a, l, rfl⟩
    have hs0 : s[0]? = some temp := by rw [hs]; simp
    have hpos : 0 < s.length := by rw [hs]; simp
    obtain ⟨s1, p, hpl, hlen1, hp, hL, hR, hperm⟩ :=
      partLoop_spec cmp temp s (fuel + 1) s 0 (s.length - 1) (by omega) (Nat.zero_le _)
        (by omega) (fun k x hk => by omega)
        (fun k x hk hx => by
          rw [List.getElem?_eq_none (by omega)] at hx
          simp at hx)
        (by rw [hs]; simp)
    have hset : s1.set p temp = s1.take p ++ temp :: s1.drop (p + 1) := by
      rw [List.set_eq_take_append_cons_drop, if_pos hp]
    have hAlen : (s1.take p).length = p := by
      rw [List.length_take]
      omega
    have hBlen : (s1.drop (p + 1)).length = s.length - (p + 1) := by
      rw [List.length_drop, hlen1]
    have hAle : ∀ x ∈ s1.take p, cmp x temp ≤ 0 := by
      intro x hx
      obtain ⟨k, hk⟩ := List.mem_iff_getElem?.1 hx
      have hkp : k < p := by
        rcases Nat.lt_or_ge k p with h | h
        · exact h
        · rw [List.getElem?_eq_none (by omega)] at hk
          simp at hk
      rw [List.getElem?_take_of_lt hkp] at hk
      exact hL k x hkp hk
    have hBge : ∀ y ∈ s1.drop (p + 1), 0 ≤ cmp y temp := by
      intro y hy
      obtain ⟨k, hk⟩ := List.mem_iff_getElem?.1 hy
      rw [List.getElem?_drop] at hk
      exact hR (p + 1 + k) y (by omega) hk
    have hA : ∃ A, (if 1 < p then
          (quickSort cmp fuel ((s1.set p temp).take p)).map (fun l => l ++ (s1.set p temp).drop p)
        else some (s1.set p temp)) = some (A ++ temp :: s1.drop (p + 1)) ∧
        A.Perm (s1.take p) ∧ A.Sorted (fun a b => cmp a b ≤ 0) := by
      have htake : (s1.set p temp).take p = s1.take p := by
        rw [hset, List.take_left' hAlen]
      have hdrop : (s1.set p temp).drop p = temp :: s1.drop (p + 1) := by
        rw [hset, List.drop_left' hAlen]
      by_cases h1 : 1 < p
      · obtain ⟨A, hq, hqp, hqs⟩ := ih (s1.take p)
          (by intro h; rw [h] at hAlen; simp at hAlen; omega) (by omega)
        exact ⟨A, by simp [h1, htake, hdrop, hq], hqp, hqs⟩
      · exact ⟨s1.take p, by simp [h1, hset], List.Perm.refl _,
          sorted_of_length_le_one _ _ (by omega)⟩
    obtain ⟨A, hAeq, hAperm, hAsorted⟩ := hA
    have hA'len : A.length = p := by rw [hAperm.length_eq, hAlen]
    have hB : ∃ B, (if 2 < s.length - p then
          (quickSort cmp fuel ((A ++ temp :: s1.drop (p + 1)).drop (p + 1))).map
            (fun r => (A ++ temp :: s1.drop (p + 1)).take (p + 1) ++ r)
        else some (A ++ temp :: s1.drop (p + 1))) = some (A ++ temp :: B) ∧
        B.Perm (s1.drop (p + 1)) ∧ B.Sorted (fun a b => cmp a b ≤ 0) := by
      have hsplit : A ++ temp :: s1.drop (p + 1) = (A ++ [temp]) ++ s1.drop (p + 1) := by
        simp
      have hlen2 : (A ++ [temp]).length = p + 1 := by simp [hA'len]
      have hdrop : (A ++ temp :: s1.drop (p + 1)).drop (p + 1) = s1.drop (p + 1) := by
        rw [hsplit, List.drop_left' hlen2]
      have htake : (A ++ temp :: s1.drop (p + 1)).take (p + 1) = A ++ [temp] := by
        rw [hsplit, List.take_left' hlen2]
      by_cases h2 : 2 < s.length - p
      · obtain ⟨B, hq, hqp, hqs⟩ := ih (s1.drop (p + 1))
          (by intro h; rw [h] at hBlen; simp at hBlen; omega) (by omega)
        exact ⟨B, by simp [h2, htake, hdrop, hq], hqp, hqs⟩
      · exact ⟨s1.drop (p + 1), by simp [h2], List.Perm.refl _,
          sorted_of_length_le_one _ _ (by omega)⟩
    obtain ⟨B, hBeq, hBperm, hBsorted⟩ := hB
    refine ⟨A ++ temp :: B, ?_, ?_, ?_⟩
    · simp only [quickSort, hs0, hpl, hp, if_true, hAeq, hBeq]
    · have h1 : (A ++ temp :: B).Perm (s1.take p ++ temp :: s1.drop (p + 1)) :=
        List.Perm.append hAperm (List.Perm.cons temp hBperm)
      rw [← hset] at h1
      exact h1.trans hperm
    · have hBge' : ∀ y ∈ B, cmp temp y ≤ 0 := fun y hy =>
        hanti y temp (hBge y (hBperm.subset hy))
      have hAle' : ∀ x ∈ A, cmp x temp ≤ 0 := fun x hx => hAle x (hAperm.subset hx)
      unfold List.Sorted
      rw [List.pairwise_append]
      refine ⟨hAsorted, List.pairwise_cons.2 ⟨hBge', hBsorted⟩, ?_⟩
      intro a ha b hb
      rcases List.mem_cons.1 hb with hb | hb
      · rw [hb]
        exact hAle' a ha
      · exact htrans a temp b (hAle' a ha) (hBge' b hb)

theorem compareInt_anti (a b : Int) (h : 0 ≤ compareInt a b) : compareInt b a ≤ 0 := by
  unfold compareInt at h ⊢
  split_ifs at h ⊢ <;> omega

theorem compareInt_trans (a b c : Int) (h1 : compareInt a b ≤ 0) (h2 : compareInt b c ≤ 0) :
    compareInt a c ≤ 0 := by
  unfold compareInt at h1 h2 ⊢
  split_ifs at h1 h2 ⊢ <;> omega

/-- C29: for a comparison function whose sign is that of an order (`cmp(b, a)`
is not positive when `cmp(a, b)` is not negative, and `cmp(a, b) ≤ 0` is
transitive) and a non-empty slice, `quickSort` returns, given fuel for a
recursion as deep as the slice is long, and leaves a permutation of the slice
that is sorted in non-decreasing order of `cmp`. When `cmp` tells distinct
elements apart this is the only sorted permutation, hence what any correct
sort returns. On an empty slice `quickSort` panics. -/
theorem quickSort_sorts [DecidableEq α] (cmp : α → α → Int)
    (hanti : ∀ a b, 0 ≤ cmp a b → cmp b a ≤ 0)
    (htrans : ∀ a b c, cmp a b ≤ 0 → cmp b c ≤ 0 → cmp a c ≤ 0)
    (s : List α) (hne : s ≠ []) (fuel : Nat) (hfuel : s.length ≤ fuel) :
    ∃ r, quickSort cmp fuel s = some r ∧ r.Perm s ∧
      r.Sorted (fun a b => cmp a b ≤ 0) ∧
      ((∀ a b, cmp a b ≤ 0 → cmp b a ≤ 0 → a = b) →
        ∀ r1 : List α, r1.Perm s → r1.Sorted (fun a b => cmp a b ≤ 0) → r1 = r) ∧
      quickSort cmp fuel [] = none := by
  obtain ⟨r, h1, h2, h3⟩ := quickSort_spec cmp hanti htrans fuel s hne hfuel
  refine ⟨r, h1, h2, h3, ?_, ?_⟩
  · intro hasymm r1 hp hs
    have : IsAntisymm α (fun a b => cmp a b ≤ 0) := ⟨hasymm⟩
    exact List.eq_of_perm_of_sorted (hp.trans h2.symm) hs h3
  · cases fuel <;> rfl

theorem quickSort_sorts_witness :
    ∃ r, quickSort compareInt 4 [5, 3, 8, 1] = some r ∧ r.Perm [5, 3, 8, 1] ∧
      r.Sorted (fun a b => compareInt a b ≤ 0) ∧
      ((∀ a b, compareInt a b ≤ 0 → compareInt b a ≤ 0 → a = b) →
        ∀ r1 : List Int, r1.Perm [5, 3, 8, 1] →
          r1.Sorted (fun a b => compareInt a b ≤ 0) → r1 = r) ∧
      quickSort compareInt 4 [] = none :=
  quickSort_sorts compareInt compareInt_anti compareInt_trans [5, 3, 8, 1] (by decide) 4
    (by decide)

/-! ## Theorems: index and order of invocation -/

theorem calls_append (t1 t2 : List (Event ε)) : calls (t1 ++ t2) = calls t1 ++ calls t2 := by
  induction t1 with
  | nil => rfl
  | cons e t ih =>
    cases e with
    | call i => simp [calls, ih]
    | ret i r => simp [calls, ih]

/-- The loop of `Next`, entered with every invocation logged so far at an index
below the current one: it returns, it never lowers the index, and the
invocations in the log stay in strictly increasing order, all of them at
indices of the chain and at most the index the loop leaves. -/
theorem loop_calls_inv (hs : List (Handler ε σ)) (fuel : Nat) :
    ∀ c : Ctx ε σ, 0 ≤ c.index → (hs.length : Int) ≤ c.index + fuel →
      (calls c.trace).Sorted (· < ·) →
      (∀ k ∈ calls c.trace, (k : Int) < c.index ∧ k < hs.length) →
      ∃ r c1, loop hs fuel c = some (r, c1) ∧ c.index ≤ c1.index ∧
        (calls c1.trace).Sorted (· < ·) ∧
        (∀ k ∈ calls c1.trace, (k : Int) ≤ c1.index ∧ k < hs.length) ∧
        c.trace <+: c1.trace := by
  induction fuel with
  | zero =>
    intro c h0 hf hsorted hb
    have : c.done hs.length := by simp only [Ctx.done]; omega
    exact ⟨none, c, loop_done hs 0 c this, le_refl _, hsorted,
      fun k hk => ⟨le_of_lt (hb k hk).1, (hb k hk).2⟩, List.prefix_refl _⟩
  | succ fuel ih =>
    intro c h0 hf hsorted hb
    by_cases hlt : c.index < (hs.length : Int)
    · have hs0 : ¬ c.index < 0 := by omega
      have hsn : c.index.toNat < hs.length := by omega
      have hget : hs[c.index.toNat]? = some (hs[c.index.toNat]) := List.getElem?_eq_getElem hsn
      let t0 := c.trace ++ [Event.call c.index.toNat]
      have hcalls0 : calls t0 = calls c.trace ++ [c.index.toNat] := by
        simp [t0, calls_append, calls]
      have hsorted0 : (calls t0).Sorted (· < ·) := by
        rw [hcalls0]
        unfold List.Sorted
        rw [List.pairwise_append]
        refine ⟨hsorted, List.pairwise_singleton _ _, ?_⟩
        intro a ha b hb1
        simp only [List.mem_singleton] at hb1
        have := (hb a ha).1
        omega
      have hb0 : ∀ k ∈ calls t0, (k : Int) ≤ c.index ∧ k < hs.length := by
        intro k hk
        rw [hcalls0] at hk
        rcases List.mem_append.1 hk with h | h
        · exact ⟨le_of_lt (hb k h).1, (hb k h).2⟩
        · simp only [List.mem_singleton] at h
          subst h
          exact ⟨by omega, hsn⟩
      obtain ⟨r, c1, hrun, hidx, hso, hbd, htr⟩ := runHandler_inv
        (fun c1 : Ctx ε σ => c.index ≤ c1.index ∧ (calls c1.trace).Sorted (· < ·) ∧
          (∀ k ∈ calls c1.trace, (k : Int) ≤ c1.index ∧ k < hs.length) ∧ t0 <+: c1.trace)
        hs.length (fun c1 => loop hs fuel { c1 with index := c1.index + 1 })
        (fun c1 h1 => ⟨by simp only [Ctx.Abort]; omega, h1.2.1,
          fun k hk => ⟨by
            have := (h1.2.2.1 k hk).2
            simp only [Ctx.Abort]
            omega, (h1.2.2.1 k hk).2⟩, h1.2.2.2⟩)
        (fun c1 s h1 => h1)
        (fun c1 h1 => by
          obtain ⟨r, c2, h2, h3, h4, h5, h6⟩ := ih { c1 with index := c1.index + 1 }
            (by simp only; omega) (by simp only; omega) h1.2.1
            (fun k hk => ⟨by
              have := (h1.2.2.1 k hk).1
              simp only
              omega, (h1.2.2.1 k hk).2⟩)
          refine ⟨r, c2, h2, ?_, h4, h5, h1.2.2.2.trans h6⟩
          simp only at h3
          omega)
        (hs[c.index.toNat]) { c with trace := t0 }
        ⟨le_refl _, hsorted0, hb0, List.prefix_refl _⟩
      have hpre : c.trace <+: c1.trace := (List.prefix_append _ _).trans htr
      cases r with
      | some e =>
        refine ⟨some e, { c1 with trace := c1.trace ++ [Event.ret c.index.toNat (some e)] },
          ?_, hidx, ?_, ?_, hpre.trans (List.prefix_append _ _)⟩
        · simp only [loop, hlt, hs0, if_true, if_false, hget, hrun, t0]
        · simpa [calls_append, calls] using hso
        · simpa [calls_append, calls] using hbd
      | none =>
        let t1 := c1.trace ++ [Event.ret c.index.toNat none]
        have hc1 : calls t1 = calls c1.trace := by simp [t1, calls_append, calls]
        obtain ⟨r, c2, h2, h3, h4, h5, h6⟩ :=
          ih { index := c1.index + 1, st := c1.st, trace := t1 }
            (by simp only; omega) (by simp only; omega) (by simp only; rw [hc1]; exact hso)
            (fun k hk => by
              simp only at hk ⊢
              rw [hc1] at hk
              have := hbd k hk
              exact ⟨by omega, this.2⟩)
        refine ⟨r, c2, ?_, ?_, h4, h5, (hpre.trans (List.prefix_append _ _)).trans h6⟩
        · simp only [loop, hlt, hs0, if_true, if_false, hget, hrun, t0]
          exact h2
        · simp only at h3
          omega
    · have : c.done hs.length := by simp only [Ctx.done]; omega
      exact ⟨none, c, loop_done hs _ c this, le_refl _, hsorted,
        fun k hk => ⟨le_of_lt (hb k hk).1, (hb k hk).2⟩, List.prefix_refl _⟩

/-- The loop of `Next` returns with an index that is at least the one it was
entered with and at least the length of the chain when it returns nil. -/
theorem loop_index_mono (hs : List (Handler ε σ)) (fuel : Nat) :
    ∀ c : Ctx ε σ, 0 ≤ c.index → (hs.length : Int) ≤ c.index + fuel →
      ∃ r c1, loop hs fuel c = some (r, c1) ∧ c.index ≤ c1.index := by
  induction fuel with
  | zero =>
    intro c h0 hf
    have : c.done hs.length := by simp only [Ctx.done]; omega
    exact ⟨none, c, loop_done hs 0 c this, le_refl _⟩
  | succ fuel ih =>
    intro c h0 hf
    by_cases hlt : c.index < (hs.length : Int)
    · have hs0 : ¬ c.index < 0 := by omega
      have hsn : c.index.toNat < hs.length := by omega
      have hget : hs[c.index.toNat]? = some (hs[c.index.toNat]) := List.getElem?_eq_getElem hsn
      obtain ⟨r, c1, hrun, hidx⟩ := runHandler_inv
        (fun c1 : Ctx ε σ => c.index ≤ c1.index)
        hs.length (fun c1 => loop hs fuel { c1 with index := c1.index + 1 })
        (fun c1 h1 => by simp only [Ctx.Abort]; omega)
        (fun c1 s h1 => h1)
        (fun c1 h1 => by
          obtain ⟨r, c2, h2, h3⟩ := ih { c1 with index := c1.index + 1 }
            (by simp only; omega) (by simp only; omega)
          refine ⟨r, c2, h2, ?_⟩
          simp only at h3
          omega)
        (hs[c.index.toNat]) { c with trace := c.trace ++ [Event.call c.index.toNat] }
        (le_refl _)
      cases r with
      | some e =>
        exact ⟨some e, { c1 with trace := c1.trace ++ [Event.ret c.index.toNat (some e)] },
          by simp only [loop, hlt, hs0, if_true, if_false, hget, hrun], hidx⟩
      | none =>
        obtain ⟨r, c2, h2, h3⟩ :=
          ih { index := c1.index + 1, st := c1.st,
               trace := c1.trace ++ [Event.ret c.index.toNat none] }
            (by simp only; omega) (by simp only; omega)
        refine ⟨r, c2, ?_, ?_⟩
        · simp only [loop, hlt, hs0, if_true, if_false, hget, hrun]
          exact h2
        · simp only at h3
          omega
    · have : c.done hs.length := by simp only [Ctx.done]; omega
      exact ⟨none, c, loop_done hs _ c this, le_refl _⟩

/-- C31 (counterexample): in the chain `chainNestedNext` the first handler
calls Next, in which the second handler calls Next as well; the first
handler's Next returns with `index = 3`, one more than the nested call left
and one more than `len(handlers) = 2`, and the Abort the first handler then
calls sets it back to 2: an operation that lowers the index. -/
theorem abort_lowers_index_after_nested_next :
    ∃ c1 : Ctx Nat Unit,
      Ctx.Next chainNestedNext 2 ⟨0, (), [Event.call 0]⟩ = some (none, c1) ∧
      c1.index = 3 ∧
      (c1.Abort chainNestedNext.length).index = 2 ∧
      ¬ (c1.index ≤ (c1.Abort chainNestedNext.length).index) ∧
      runHandler chainNestedNext.length (Ctx.Next chainNestedNext 2)
          (Handler.next (fun _ => Handler.abort (Handler.ret none)))
          ⟨0, (), [Event.call 0]⟩ = some (none, c1.Abort chainNestedNext.length) ∧
      Ctx.Next chainNestedNext 3 ⟨-1, (), []⟩ =
        some (none, ⟨3, (), (c1.Abort chainNestedNext.length).trace ++ [Event.ret 0 none]⟩) :=
  ⟨⟨3, (), [Event.call 0, Event.call 1, Event.ret 1 none]⟩, rfl, rfl, rfl, by decide, rfl,
    rfl⟩

/-- C31 (amended): `Next`, called with an index of at least -1 (the value
`HandleRequest` starts from) and enough fuel, returns with a strictly greater
index, also when handlers call Next and Abort themselves; `Abort` sets the
index to `len(handlers)`, so it does not lower an index that is at most
`len(handlers)` (a nested Next may have left a greater one, which Abort
lowers to `len(handlers)`); and once the index has reached `len(handlers)` it
stays there under Abort and Next, and Next invokes no handler (the event log
is unchanged). -/
theorem index_monotone_up_to_length (hs : List (Handler ε σ)) (fuel : Nat) (c : Ctx ε σ)
    (h0 : -1 ≤ c.index) (hf : (hs.length : Int) ≤ c.index + 1 + fuel) :
    (∃ r c1, Ctx.Next hs fuel c = some (r, c1) ∧ c.index < c1.index) ∧
    (c.Abort hs.length).index = hs.length ∧
    (c.index ≤ hs.length → c.index ≤ (c.Abort hs.length).index) ∧
    (c.done hs.length →
      (c.Abort hs.length).done hs.length ∧
      Ctx.Next hs fuel c = some (none, { c with index := c.index + 1 }) ∧
      ({ c with index := c.index + 1 } : Ctx ε σ).done hs.length) := by
  refine ⟨?_, rfl, fun h => h, fun hd => ⟨?_, ?_, ?_⟩⟩
  · obtain ⟨r, c1, h1, h2⟩ := loop_index_mono hs fuel { c with index := c.index + 1 }
      (by simp only; omega) (by simp only; omega)
    refine ⟨r, c1, h1, ?_⟩
    simp only at h2
    omega
  · simp only [Ctx.done, Ctx.Abort]
    exact le_refl _
  · exact loop_done hs fuel _ (by simp only [Ctx.done] at hd ⊢; omega)
  · simp only [Ctx.done] at hd ⊢
    omega

theorem index_monotone_up_to_length_witness :
    (∃ r c1, Ctx.Next chainNestedNext 3 (⟨-1, (), []⟩ : Ctx Nat Unit) = some (r, c1) ∧
      (-1 : Int) < c1.index) ∧
    ((⟨-1, (), []⟩ : Ctx Nat Unit).Abort chainNestedNext.length).index = 2 :=
  ⟨(index_monotone_up_to_length chainNestedNext 3 ⟨-1, (), []⟩ (by decide) (by decide)).1,
   (index_monotone_up_to_length chainNestedNext 3 ⟨-1, (), []⟩ (by decide) (by decide)).2.1⟩

/-- C36: in every run of `Next` over a chain, whatever the handlers do (call
Next and Abort any number of times, ignore what Next returned), started from
a log whose invocations are in strictly increasing order at indices of the
chain up to the current one (the empty log of `HandleRequest`, or the log a
handler sees when it calls Next itself), the run returns and the handler
invocations in its log are in strictly increasing index order; so no handler
is invoked twice, and every invoked index is an index of the chain. -/
theorem handlers_invoked_once_in_order (hs : List (Handler ε σ)) (fuel : Nat) (c : Ctx ε σ)
    (h0 : -1 ≤ c.index) (hf : (hs.length : Int) ≤ c.index + 1 + fuel)
    (hsorted : (calls c.trace).Sorted (· < ·))
    (hb : ∀ k ∈ calls c.trace, (k : Int) ≤ c.index ∧ k < hs.length) :
    ∃ r c1, Ctx.Next hs fuel c = some (r, c1) ∧ c.trace <+: c1.trace ∧
      (calls c1.trace).Sorted (· < ·) ∧ (calls c1.trace).Nodup ∧
      ∀ k ∈ calls c1.trace, k < hs.length := by
  obtain ⟨r, c1, h1, _, h3, h4, h5⟩ := loop_calls_inv hs fuel { c with index := c.index + 1 }
    (by simp only; omega) (by simp only; omega) hsorted
    (fun k hk => ⟨by
      have := (hb k hk).1
      simp only
      omega, (hb k hk).2⟩)
  exact ⟨r, c1, h1, h5, h3, h3.nodup, fun k hk => (h4 k hk).2⟩

theorem handlers_invoked_once_in_order_witness :
    ∃ r c1, Ctx.Next chainNestedNext 3 (⟨-1, (), []⟩ : Ctx Nat Unit) = some (r, c1) ∧
      ([] : List (Event Nat)) <+: c1.trace ∧
      (calls c1.trace).Sorted (· < ·) ∧ (calls c1.trace).Nodup ∧
      ∀ k ∈ calls c1.trace, k < chainNestedNext.length :=
  handlers_invoked_once_in_order chainNestedNext 3 ⟨-1, (), []⟩ (by decide) (by decide)
    (by simp [calls]) (by simp [calls])

/-! ## Theorems: segment lists and reverse URLs -/

/-- C37 (evaluation): `URLByIndex` panics on compiled routes. The route of
`/<a><b>` has the segments `/`, `<a>`, the empty literal and `<b>`, and the
route of `<id>` starts with the empty literal: `s[0]` is out of range on the
empty segment, for parameter lists of the right length with valid values. The
route of `/<a><b` keeps the unclosed `<b` as its tail, which the loop takes for
a parameter segment: `params[1]` is out of range. -/
theorem URLByIndex_panics_on_compiled_routes :
    (sampleRoute "/<a><b>").map (fun r => (r.segments, r.paramNames, r.regexps)) =
      some (["/".toList, "<a>".toList, [], "<b>".toList], ["a".toList, "b".toList],
        [none, none]) ∧
    (sampleRoute "/<a><b>").map
      (fun r => r.URLByIndex sampleMatch String.mk ["x".toList, "y".toList]) = some none ∧
    (sampleRoute "<id>").map (fun r => r.segments) = some [[], "<id>".toList] ∧
    (sampleRoute "<id>").map
      (fun r => r.URLByIndex sampleMatch String.mk ["7".toList]) = some none ∧
    (sampleRoute "/<a><b").map (fun r => (r.segments, r.paramNames)) =
      some (["/".toList, "<a>".toList, "<b".toList], ["a".toList]) ∧
    (sampleRoute "/<a><b").map
      (fun r => r.URLByIndex sampleMatch String.mk ["x".toList]) = some none ∧
    (sampleRoute "/u/<id>/x").map
      (fun r => r.URLByIndex sampleMatch String.mk ["7".toList]) =
        some (some ("/u/7/x".toList, none)) := by
  refine ⟨?_, ?_, ?_, ?_, ?_, ?_, ?_⟩ <;> decide

/-- C38 (evaluation): on the route of `/<a>/<b>` the list `a, b, b, c` names
each parameter once, with values free of `/`; the URL the specification
describes is `/b/c`, and `URLByNames` returns `/b/b` with a nil error,
because the loop that looks a segment's name up also compares it with the
values. On the route of `/<a><b>` the call panics on the empty segment, as
it does on the route of `/<id>` for the invalid list `id, 5, id` (where
`names[3]` is out of range), and on the route of `/<a>/<n:\d+>` for a value
that fails the constraint of `n` (the message reads `r.regexps[2]`). -/
theorem URLByNames_takes_values_for_names :
    (sampleRoute "/<a>/<b>").map
      (fun r => r.URLByNames sampleMatch String.mk
        ["a".toList, "b".toList, "b".toList, "c".toList]) =
      some (some ("/b/b".toList, none)) ∧
    (sampleRoute "/<a>/<b>").map
      (fun r => substituteByName [("a".toList, "b".toList), ("b".toList, "c".toList)]
        r.segments) = some "/b/c".toList ∧
    (sampleRoute "/<a><b>").map
      (fun r => r.URLByNames sampleMatch String.mk
        ["a".toList, "x".toList, "b".toList, "y".toList]) = some none ∧
    (sampleRoute "/<id>").map
      (fun r => r.URLByNames sampleMatch String.mk
        ["id".toList, "5".toList, "id".toList]) = some none ∧
    (sampleRoute "/<a>/<n:\\d+>").map
      (fun r => r.URLByNames sampleMatch String.mk
        ["a".toList, "x".toList, "n".toList, "y".toList]) = some none ∧
    (sampleRoute "/<a>/<n:\\d+>").map
      (fun r => r.URLByNames sampleMatch String.mk
        ["a".toList, "x".toList, "n".toList, "5".toList]) =
      some (some ("/x/5".toList, none)) := by
  refine ⟨?_, ?_, ?_, ?_, ?_, ?_⟩ <;> decide

theorem stream_preserves (emit : α → List Char → List Char → Option α) (P : Stream α → Prop)
    (hstep : ∀ s c s1, P s → streamStep emit s c = some s1 → P s1) :
    ∀ (p : List Char) (s s1 : Stream α), P s → stream emit s p = some s1 → P s1 := by
  intro p
  induction p with
  | nil =>
    intro s s1 hs h
    simp only [stream, List.foldlM_nil, pure, Option.some.injEq] at h
    subst h
    exact hs
  | cons c p ih =>
    intro s s1 hs h
    rw [stream_cons] at h
    cases h1 : streamStep emit s c with
    | none => simp [h1] at h
    | some s2 =>
      rw [h1] at h
      exact ih s2 s1 (hstep s c s2 hs h1) h

theorem emitCompiled_spec (compile : List Char → Option ρ) (acc a : Compiled ρ)
    (lit tok : List Char) (h : emitCompiled compile acc lit tok = some a) :
    a.paramNames = acc.paramNames ++ [tokenName tok] ∧
    a.segments = acc.segments ++ [lit, paramToken (tokenName tok)] ∧
    a.regexps.length = acc.regexps.length + 1 := by
  unfold emitCompiled at h
  cases hre : tokenRegexp tok with
  | none =>
    simp only [hre, Option.some.injEq] at h
    subst h
    simp [paramToken]
  | some re =>
    simp only [hre] at h
    cases hc : compile ('^' :: re) with
    | none => simp [hc] at h
    | some r =>
      simp only [hc, Option.some.injEq] at h
      subst h
      simp [paramToken]

theorem alternate_append (l n : List Char) :
    ∀ (lits names : List (List Char)), lits.length = names.length →
      alternate (lits ++ [l]) (names ++ [n]) = alternate lits names ++ [l, paramToken n] := by
  intro lits
  induction lits with
  | nil =>
    intro names h
    cases names with
    | nil => simp [alternate]
    | cons a b => simp at h
  | cons x xs ih =>
    intro names h
    cases names with
    | nil => simp at h
    | cons a b =>
      simp only [List.length_cons, add_left_inj] at h
      simp [alternate, ih b h]

theorem alternate_length :
    ∀ (lits names : List (List Char)), lits.length = names.length →
      (alternate lits names).length = 2 * names.length := by
  intro lits
  induction lits with
  | nil =>
    intro names h
    cases names with
    | nil => simp [alternate]
    | cons a b => simp at h
  | cons x xs ih =>
    intro names h
    cases names with
    | nil => simp at h
    | cons a b =>
      simp only [List.length_cons, add_left_inj] at h
      simp only [alternate, List.length_cons, ih b h]
      omega

theorem alternate_getElem :
    ∀ (lits names : List (List Char)) (k : Nat), lits.length = names.length →
      (alternate lits names)[2 * k]? = lits[k]? ∧
      (alternate lits names)[2 * k + 1]? = (names[k]?).map paramToken := by
  intro lits
  induction lits with
  | nil =>
    intro names k h
    cases names with
    | nil => simp [alternate]
    | cons a b => simp at h
  | cons x xs ih =>
    intro names k h
    cases names with
    | nil => simp at h
    | cons a b =>
      simp only [List.length_cons, add_left_inj] at h
      cases k with
      | zero => simp [alternate]
      | succ k =>
        have := ih b k h
        have e1 : 2 * (k + 1) = (2 * k + 1) + 1 := by omega
        rw [e1]
        simp only [alternate, List.getElem?_cons_succ]
        exact this

theorem AltInv_step (compile : List Char → Option ρ) (s : Stream (Compiled ρ)) (c : Char)
    (s1 : Stream (Compiled ρ)) (hs : AltInv s)
    (h : streamStep (emitCompiled compile) s c = some s1) : AltInv s1 := by
  obtain ⟨hlit, hre, hcl, lits, hlen, hseg, hl⟩ := hs
  unfold streamStep at h
  cases ht : s.tok with
  | none =>
    simp only [ht] at h
    by_cases hc : c = '<'
    · simp only [hc, if_true, Option.some.injEq] at h
      subst h
      exact ⟨hlit, hre, hcl, lits, hlen, hseg, hl⟩
    · simp only [hc, if_false, Option.some.injEq] at h
      subst h
      refine ⟨?_, hre, hcl, lits, hlen, hseg, hl⟩
      simp only [List.mem_append, List.mem_singleton, not_or]
      exact ⟨hlit, fun e => hc e.symm⟩
  | some t =>
    simp only [ht] at h
    by_cases hc : c = '>'
    · simp only [hc, if_true, Option.map_eq_some'] at h
      obtain ⟨a, ha, rfl⟩ := h
      obtain ⟨h1, h2, h3⟩ := emitCompiled_spec compile s.acc a s.lit t ha
      refine ⟨by simp, ?_, ?_, lits ++ [s.lit], ?_, ?_, ?_⟩
      · simp only [h3, h1, hre, List.length_append, List.length_singleton]
      · intro _
        simp [h1]
      · simp only [h1, List.length_append, List.length_singleton, hlen]
      · simp only [h1, h2, hseg]
        exact (alternate_append s.lit (tokenName t) lits s.acc.paramNames hlen).symm
      · intro l hmem
        rcases List.mem_append.1 hmem with hm | hm
        · exact hl l hm
        · simp only [List.mem_singleton] at hm
          subst hm
          exact hlit
    · simp only [hc, if_false, Option.some.injEq] at h
      subst h
      exact ⟨hlit, hre, hcl, lits, hlen, hseg, hl⟩

/-- C32: when `buildURLTemplate2` returns, there is one regexp per parameter
name, and the segment list is an alternation of literal runs (none of which
holds a `<`; a run may be empty) and parameter tokens, followed by at most one
tail: the segment at position `2k` is the k-th literal run and the segment at
position `2k+1` is `<name>` for the k-th parameter name; the segment count is
twice the number of parameter names, plus one when there is a tail; a path
without parameters is its own tail, and only an empty path leaves an empty
tail. -/
theorem segments_alternate (compile : List Char → Option ρ) (path : List Char)
    (r : Compiled ρ) (h : buildURLTemplate2 compile path = some r) :
    r.regexps.length = r.paramNames.length ∧
    ∃ (lits : List (List Char)) (tail : Option (List Char)),
      lits.length = r.paramNames.length ∧ (∀ l ∈ lits, '<' ∉ l) ∧
      r.segments = alternate lits r.paramNames ++ tail.toList ∧
      r.segments.length = 2 * r.paramNames.length + tail.toList.length ∧
      (∀ k, k < r.paramNames.length →
        r.segments[2 * k]? = lits[k]? ∧
        r.segments[2 * k + 1]? = (r.paramNames[k]?).map paramToken) ∧
      (r.paramNames = [] → tail = some path) ∧ (tail = some [] → path = []) := by
  rw [buildURLTemplate2_eq_stream] at h
  cases hst : stream (emitCompiled compile)
      (Stream.init { segments := [], paramNames := [], regexps := [] }) path with
  | none => simp [hst] at h
  | some ss =>
    simp only [hst, Option.map_some', Option.some.injEq] at h
    have hinit : AltInv (Stream.init
        ({ segments := [], paramNames := [], regexps := [] } : Compiled ρ)) :=
      ⟨by simp [Stream.init], rfl, by simp [Stream.init], [], rfl, rfl, by simp⟩
    obtain ⟨_, hre, hcl, lits, hlen, hseg, hl⟩ :=
      stream_preserves (emitCompiled compile) AltInv (AltInv_step compile) path _ ss hinit hst
    subst h
    refine ⟨hre, lits,
      (if ss.closed then (if ss.rest = [] then none else some ss.rest) else some path),
      hlen, hl, ?_, ?_, ?_, ?_, ?_⟩
    · simp only [hseg]
      congr 1
      cases ss.closed with
      | false => simp
      | true => by_cases hr : ss.rest = [] <;> simp [hr]
    · simp only [hseg, List.length_append, alternate_length lits _ hlen]
      congr 1
      cases ss.closed with
      | false => simp
      | true => by_cases hr : ss.rest = [] <;> simp [hr]
    · intro k hk
      have hk2 : 2 * k + 1 < (alternate lits ss.acc.paramNames).length := by
        rw [alternate_length lits _ hlen]
        simp only at hk
        omega
      have := alternate_getElem lits ss.acc.paramNames k hlen
      simp only [hseg]
      rw [List.getElem?_append_left (by omega), List.getElem?_append_left hk2]
      exact this
    · intro hp
      cases hc : ss.closed with
      | false => simp
      | true =>
        exact absurd hp (hcl hc)
    · intro ht
      cases hc : ss.closed with
      | false =>
        simp only [hc] at ht
        simpa using ht
      | true =>
        simp only [hc, if_true] at ht
        by_cases hr : ss.rest = []
        · simp [hr] at ht
        · simp [hr] at ht

theorem segments_alternate_witness :
    sampleCompiled.regexps.length = sampleCompiled.paramNames.length ∧
    ∃ (lits : List (List Char)) (tail : Option (List Char)),
      lits.length = sampleCompiled.paramNames.length ∧ (∀ l ∈ lits, '<' ∉ l) ∧
      sampleCompiled.segments = alternate lits sampleCompiled.paramNames ++ tail.toList ∧
      sampleCompiled.segments.length =
        2 * sampleCompiled.paramNames.length + tail.toList.length ∧
      (∀ k, k < sampleCompiled.paramNames.length →
        sampleCompiled.segments[2 * k]? = lits[k]? ∧
        sampleCompiled.segments[2 * k + 1]? =
          (sampleCompiled.paramNames[k]?).map paramToken) ∧
      (sampleCompiled.paramNames = [] → tail = some "/users/<id:\\d+>/x<n>".toList) ∧
      (tail = some [] → "/users/<id:\\d+>/x<n>".toList = []) :=
  segments_alternate sampleCompile "/users/<id:\\d+>/x<n>".toList sampleCompiled rfl

theorem BothRel_step (compile : List Char → Option ρ) (s1 : Stream (List Char))
    (s2 s2n : Stream (Compiled ρ)) (c : Char) (hr : BothRel s1 s2)
    (h : streamStep (emitCompiled compile) s2 c = some s2n) :
    ∃ s1n, streamStep emitTemplate s1 c = some s1n ∧ BothRel s1n s2n := by
  obtain ⟨hlit, htok, hcl, hacc, hnil⟩ := hr
  unfold streamStep at h ⊢
  rw [htok]
  cases ht : s2.tok with
  | none =>
    simp only [ht] at h ⊢
    by_cases hc : c = '<'
    · simp only [hc, if_true, Option.some.injEq] at h ⊢
      subst h
      exact ⟨_, rfl, hlit, rfl, hcl, hacc, hnil⟩
    · simp only [hc, if_false, Option.some.injEq] at h ⊢
      subst h
      exact ⟨_, rfl, by simp [hlit], rfl, hcl, hacc, hnil⟩
  | some t =>
    simp only [ht] at h ⊢
    by_cases hc : c = '>'
    · simp only [hc, if_true, Option.map_eq_some'] at h ⊢
      obtain ⟨a, ha, rfl⟩ := h
      obtain ⟨_, h2, _⟩ := emitCompiled_spec compile s2.acc a s2.lit t ha
      refine ⟨_, ⟨_, rfl, rfl⟩, rfl, rfl, rfl, ?_, by simp⟩
      simp [h2, hacc, hlit, paramToken]
    · simp only [hc, if_false, Option.some.injEq] at h ⊢
      subst h
      exact ⟨_, rfl, hlit, rfl, hcl, hacc, hnil⟩

theorem BothRel_stream (compile : List Char → Option ρ) :
    ∀ (p : List Char) (s1 : Stream (List Char)) (s2 s2n : Stream (Compiled ρ)),
      BothRel s1 s2 → stream (emitCompiled compile) s2 p = some s2n →
      ∃ s1n, stream emitTemplate s1 p = some s1n ∧ BothRel s1n s2n := by
  intro p
  induction p with
  | nil =>
    intro s1 s2 s2n hr h
    simp only [stream, List.foldlM_nil, pure, Option.some.injEq] at h
    subst h
    exact ⟨s1, rfl, hr⟩
  | cons c p ih =>
    intro s1 s2 s2n hr h
    rw [stream_cons] at h ⊢
    cases h1 : streamStep (emitCompiled compile) s2 c with
    | none => simp [h1] at h
    | some s2m =>
      rw [h1] at h
      obtain ⟨s1m, h2, h3⟩ := BothRel_step compile s1 s2 s2m c hr h1
      rw [h2]
      exact ih s1m s2m s2n h3 h

/-- C33: for every path for which `buildURLTemplate2` returns, whatever the
regular-expression compiler accepts, `buildURLTemplate` returns the
concatenation of the segments `buildURLTemplate2` returned; so a route that
`newRoute` builds from that path holds a `template` that is the concatenation
of its `segments`. -/
theorem scanners_agree (compile : List Char → Option ρ) (path : List Char) (r : Compiled ρ)
    (h : buildURLTemplate2 compile path = some r) :
    buildURLTemplate path = some r.segments.flatten ∧
    ∀ (groupPrefix p : List Char) (routes : List Char → Option (Route ρ))
      (x : Route ρ × (List Char → Option (Route ρ))),
      (if (groupPrefix ++ p).getLast? = some '*' then
          (groupPrefix ++ p).dropLast ++ "<*:.*>".toList
        else groupPrefix ++ p) = path →
      newRoute compile groupPrefix p routes = some x →
      x.1.segments = r.segments ∧ x.1.template = x.1.segments.flatten := by
  have hmain : buildURLTemplate path = some r.segments.flatten := by
    rw [buildURLTemplate2_eq_stream] at h
    rw [buildURLTemplate_eq_stream]
    cases hst : stream (emitCompiled compile)
        (Stream.init { segments := [], paramNames := [], regexps := [] }) path with
    | none => simp [hst] at h
    | some ss2 =>
      simp only [hst, Option.map_some', Option.some.injEq] at h
      have hinit : BothRel (Stream.init ([] : List Char)) (Stream.init
          ({ segments := [], paramNames := [], regexps := [] } : Compiled ρ)) :=
        ⟨rfl, rfl, rfl, rfl, fun _ => rfl⟩
      obtain ⟨ss1, h1, hlit, htok, hcl, hacc, hnil⟩ :=
        BothRel_stream compile path _ _ ss2 hinit hst
      have hrest : ss1.rest = ss2.rest := by simp only [Stream.rest, hlit, htok]
      subst h
      simp only [h1, Option.map_some', Option.some.injEq, hcl, hrest]
      cases hc : ss2.closed with
      | false => simp [hnil hc]
      | true =>
        by_cases hr : ss2.rest = []
        · simp [hr, hacc]
        · simp [hr, hacc]
  refine ⟨hmain, ?_⟩
  intro groupPrefix p routes x hp hx
  unfold newRoute at hx
  simp only [hp, hmain, h, Option.bind_eq_bind, Option.some_bind, Option.some.injEq] at hx
  subst hx
  exact ⟨rfl, rfl⟩

theorem scanners_agree_witness :
    buildURLTemplate "/users/<id:\\d+>/x<n>".toList = some sampleCompiled.segments.flatten ∧
    ∀ (groupPrefix p : List Char) (routes : List Char → Option (Route (List Char)))
      (x : Route (List Char) × (List Char → Option (Route (List Char)))),
      (if (groupPrefix ++ p).getLast? = some '*' then
          (groupPrefix ++ p).dropLast ++ "<*:.*>".toList
        else groupPrefix ++ p) = "/users/<id:\\d+>/x<n>".toList →
      newRoute sampleCompile groupPrefix p routes = some x →
      x.1.segments = sampleCompiled.segments ∧ x.1.template = x.1.segments.flatten :=
  scanners_agree sampleCompile "/users/<id:\\d+>/x<n>".toList sampleCompiled rfl

/-! ## Theorems: when the compiler returns -/

theorem emitCompiled_isSome_iff (compile : List Char → Option ρ) (acc : Compiled ρ)
    (lit tok : List Char) :
    (emitCompiled compile acc lit tok).isSome ↔
      ∀ re, tokenRegexp tok = some re → (compile ('^' :: re)).isSome := by
  unfold emitCompiled
  cases h : tokenRegexp tok with
  | none => simp
  | some re =>
    cases hc : compile ('^' :: re) with
    | none => simp [hc]
    | some r => simp [hc]

theorem tokensFrom_nil (st : Option (List Char)) : tokensFrom st [] = [] := by
  cases st <;> rfl

/-- The stream scan returns exactly when the building step succeeds on every
token of the text. -/
theorem stream_isSome_iff (emit : α → List Char → List Char → Option α)
    (ok : List Char → Prop) (hemit : ∀ acc lit tok, (emit acc lit tok).isSome ↔ ok tok) :
    ∀ (p : List Char) (s : Stream α),
      (∃ s1, stream emit s p = some s1) ↔ ∀ tok ∈ tokensFrom s.tok p, ok tok := by
  intro p
  induction p with
  | nil =>
    intro s
    simp [stream, tokensFrom_nil]
  | cons c p ih =>
    intro s
    rw [stream_cons]
    cases ht : s.tok with
    | none =>
      by_cases hc : c = '<'
      · subst hc
        simp only [streamStep, ht, if_true, Option.some_bind, tokensFrom]
        exact ih _
      · simp only [streamStep, ht, hc, if_false, Option.some_bind, tokensFrom]
        have := ih { s with lit := s.lit ++ [c] }
        simpa [ht] using this
    | some t =>
      by_cases hc : c = '>'
      · subst hc
        simp only [streamStep, ht, if_true, tokensFrom, List.forall_mem_cons]
        cases he : emit s.acc s.lit t with
        | none =>
          have hno : ¬ ok t := by
            rw [← hemit s.acc s.lit t, he]
            simp
          simp [hno]
        | some a =>
          have hok : ok t := by
            rw [← hemit s.acc s.lit t, he]
            rfl
          simp only [Option.map_some', Option.some_bind, hok, true_and]
          exact ih _
      · simp only [streamStep, ht, hc, if_false, Option.some_bind, tokensFrom]
        exact ih _

theorem tokensFrom_infix :
    ∀ (p : List Char) (st : Option (List Char)) (tok : List Char),
      tok ∈ tokensFrom st p → tok <:+: st.getD [] ++ p := by
  intro p
  induction p with
  | nil =>
    intro st tok h
    simp [tokensFrom_nil] at h
  | cons c p ih =>
    intro st tok h
    cases st with
    | none =>
      have hstep : tok <:+: p := by
        by_cases hc : c = '<'
        · subst hc
          simp only [tokensFrom, if_true] at h
          simpa using ih (some []) tok h
        · simp only [tokensFrom, hc, if_false] at h
          simpa using ih none tok h
      exact hstep.trans ⟨[c], [], by simp⟩
    | some t =>
      by_cases hc : c = '>'
      · subst hc
        simp only [tokensFrom, if_true, List.mem_cons] at h
        rcases h with h | h
        · subst h
          exact ⟨[], '>' :: p, by simp⟩
        · have := ih none tok h
          exact this.trans ⟨t ++ ['>'], [], by simp⟩
      · simp only [tokensFrom, hc, if_false] at h
        simpa using ih (some (t ++ [c])) tok h

theorem mem_pathRegexps (path re : List Char) :
    re ∈ pathRegexps path ↔ ∃ tok ∈ pathTokens path, tokenRegexp tok = some re := by
  simp [pathRegexps, List.mem_filterMap]

/-- The scan of `buildURLTemplate2` returns exactly when `compile` accepts the
regular expressions of the path. -/
theorem stream_emitCompiled_iff (compile : List Char → Option ρ) (path : List Char)
    (a : Compiled ρ) :
    (∃ s1, stream (emitCompiled compile) (Stream.init a) path = some s1) ↔
      ∀ re ∈ pathRegexps path, (compile ('^' :: re)).isSome := by
  rw [stream_isSome_iff (emitCompiled compile)
    (fun tok => ∀ re, tokenRegexp tok = some re → (compile ('^' :: re)).isSome)
    (fun acc lit tok => emitCompiled_isSome_iff compile acc lit tok) path (Stream.init a)]
  constructor
  · intro h re hre
    obtain ⟨tok, htok, hr⟩ := (mem_pathRegexps path re).1 hre
    exact h tok htok re hr
  · intro h tok htok re hr
    exact h re ((mem_pathRegexps path re).2 ⟨tok, htok, hr⟩)

/-- C8 (as the code behaves): `buildURLTemplate2` returns exactly when
`regexp.Compile` accepts the regular expressions of the path, which are the
non-empty texts after the first `:` of its tokens, and so does `newRoute`; a
regular expression that does not compile makes `regexp.MustCompile` panic.
When the regular expressions compile and a `<` is followed by no `>`, the
parameters are those of the text before that `<`, and the last segment is
literal text that ends with the text from that `<` to the end of the path. -/
theorem buildURLTemplate2_total (compile : List Char → Option ρ) (path : List Char) :
    ((∃ r, buildURLTemplate2 compile path = some r) ↔
      ∀ re ∈ pathRegexps path, (compile ('^' :: re)).isSome) ∧
    (∀ re ∈ pathRegexps path, re ≠ [] ∧ re <:+: path) ∧
    (∀ (groupPrefix p : List Char) (routes : List Char → Option (Route ρ)),
      (if (groupPrefix ++ p).getLast? = some '*' then
          (groupPrefix ++ p).dropLast ++ "<*:.*>".toList
        else groupPrefix ++ p) = path →
      ((∃ x, newRoute compile groupPrefix p routes = some x) ↔
        ∀ re ∈ pathRegexps path, (compile ('^' :: re)).isSome)) ∧
    (∀ pre rest : List Char, path = pre ++ '<' :: rest → '>' ∉ rest →
      (∀ re ∈ pathRegexps path, (compile ('^' :: re)).isSome) →
      ∃ r rp last, buildURLTemplate2 compile path = some r ∧
        buildURLTemplate2 compile pre = some rp ∧
        r.paramNames = rp.paramNames ∧ r.regexps = rp.regexps ∧
        r.segments.getLast? = some last ∧ '<' :: rest <:+ last) := by
  have hiff : (∃ r, buildURLTemplate2 compile path = some r) ↔
      ∀ re ∈ pathRegexps path, (compile ('^' :: re)).isSome := by
    rw [← stream_emitCompiled_iff compile path { segments := [], paramNames := [], regexps := [] },
      buildURLTemplate2_eq_stream]
    constructor
    · rintro ⟨r, hr⟩
      cases hs : stream (emitCompiled compile)
          (Stream.init { segments := [], paramNames := [], regexps := [] }) path with
      | none => simp [hs] at hr
      | some s1 => exact ⟨s1, rfl⟩
    · rintro ⟨s1, hs⟩
      rw [hs]
      exact ⟨_, rfl⟩
  refine ⟨hiff, ?_, ?_, ?_⟩
  · intro re hre
    obtain ⟨tok, htok, hr⟩ := (mem_pathRegexps path re).1 hre
    obtain ⟨h1, h2⟩ := tokenRegexp_suffix tok re hr
    have h3 := tokensFrom_infix path none tok htok
    exact ⟨h2, h1.isInfix.trans (by simpa using h3)⟩
  · intro groupPrefix p routes hpath
    rw [← hiff]
    obtain ⟨t, ht⟩ := buildURLTemplate_total path
    constructor
    · rintro ⟨x, hx⟩
      cases hr : buildURLTemplate2 compile path with
      | none =>
        simp only [newRoute, hpath, ht, hr, Option.bind_eq_bind, Option.some_bind,
          Option.none_bind] at hx
        exact absurd hx (by simp)
      | some r => exact ⟨r, rfl⟩
    · rintro ⟨r, hr⟩
      simp only [newRoute, hpath, ht, hr, Option.bind_eq_bind, Option.some_bind]
      exact ⟨_, rfl⟩
  · intro pre rest hpath hrest hc
    obtain ⟨s, hs⟩ := (stream_emitCompiled_iff compile path
      { segments := [], paramNames := [], regexps := [] }).2 hc
    rw [hpath, stream_append] at hs
    cases h1 : stream (emitCompiled compile)
        (Stream.init { segments := [], paramNames := [], regexps := [] }) pre with
    | none => simp [h1] at hs
    | some s1 =>
      obtain ⟨s2, h2, h3, h4, h5⟩ := stream_unclosed (emitCompiled compile) rest hrest s1
      have hne : s2.rest ≠ [] := by simp [h5]
      let fin : List Char → Stream (Compiled ρ) → Compiled ρ := fun q ss =>
        { ss.acc with
          segments := ss.acc.segments ++
            (if ss.closed then (if ss.rest = [] then [] else [ss.rest]) else [q]) }
      refine ⟨fin path s2, fin pre s1, if s2.closed then s2.rest else path,
        ?_, ?_, ?_, ?_, ?_, ?_⟩
      · rw [buildURLTemplate2_eq_stream, hpath, stream_append, h1, Option.some_bind, h2]
        rfl
      · rw [buildURLTemplate2_eq_stream, h1]
        rfl
      · simp [fin, h3]
      · simp [fin, h3]
      · by_cases hcl : s2.closed = true
        · simp [fin, hcl, hne]
        · simp [fin, hcl]
      · by_cases hcl : s2.closed = true
        · simp only [hcl, if_true, h5]
          exact List.suffix_append _ _
        · simp only [hcl, if_false, hpath]
          exact List.suffix_append _ _

theorem buildURLTemplate2_total_witness :
    (∀ re ∈ pathRegexps "/users/<id:\\d+>/x<n".toList,
      (sampleCompile ('^' :: re)).isSome) ∧
    ∃ r rp last, buildURLTemplate2 sampleCompile "/users/<id:\\d+>/x<n".toList = some r ∧
      buildURLTemplate2 sampleCompile "/users/<id:\\d+>/x".toList = some rp ∧
      r.paramNames = rp.paramNames ∧ r.regexps = rp.regexps ∧
      r.segments.getLast? = some last ∧ '<' :: "n".toList <:+ last :=
  ⟨by decide,
    (buildURLTemplate2_total sampleCompile "/users/<id:\\d+>/x<n".toList).2.2.2
      "/users/<id:\\d+>/x".toList "n".toList (by decide) (by decide) (by decide)⟩

/-- A text in which every `<` has a `>` somewhere after it, told position by
position. -/
theorem closed_of_positions (pre : List Char)
    (h : ∀ i, i < pre.length → pre[i]? = some '<' → '>' ∈ pre.drop (i + 1)) :
    ∀ a b, pre = a ++ '<' :: b → '>' ∈ b := by
  intro a b hab
  subst hab
  have h0 : (a ++ '<' :: b)[a.length]? = some '<' := by
    rw [List.getElem?_append_right (le_refl _)]
    simp
  have h1 := h a.length (by simp) h0
  simpa using h1

/-- C9 (as the code behaves): when prefix+path ends in `*`, every `<` before
that `*` is followed by a `>` before it, and `regexp.Compile` accepts the
regular expressions of the text before the `*` and the expression `.*` of the
added token, `newRoute` compiles the path with the final `*` replaced by
`<*:.*>`: the last parameter name is `*`, the last segment is `<*>`, the
template ends with `<*>`, and the route is registered under the original
prefix+path, the other entries of the map being kept. -/
theorem newRoute_trailing_star (compile : List Char → Option ρ)
    (groupPrefix p pre : List Char) (routes : List Char → Option (Route ρ))
    (hstar : groupPrefix ++ p = pre ++ ['*'])
    (hwf : ∀ a b, pre = a ++ '<' :: b → '>' ∈ b)
    (hc : ∀ re ∈ pathRegexps pre, (compile ('^' :: re)).isSome)
    (hdot : (compile "^.*".toList).isSome) :
    ∃ route routes1, newRoute compile groupPrefix p routes = some (route, routes1) ∧
      route.path = pre ++ "<*:.*>".toList ∧ route.name = groupPrefix ++ p ∧
      route.paramNames.getLast? = some ['*'] ∧
      route.segments.getLast? = some "<*>".toList ∧
      "<*>".toList <:+ route.template ∧
      routes1 (groupPrefix ++ p) = some route ∧
      (∀ k, k ≠ groupPrefix ++ p → routes1 k = routes k) := by
  have hlast : (groupPrefix ++ p).getLast? = some '*' := by rw [hstar]; simp
  have hdrop : (groupPrefix ++ p).dropLast = pre := by rw [hstar]; simp
  have hgt : '>' ∉ "*:.*".toList := by decide
  have htoken : "<*:.*>".toList = ['<'] ++ "*:.*".toList ++ ['>'] := by decide
  -- the reverse-URL template
  obtain ⟨s1, h1, h1t⟩ := stream_wellclosed emitTemplate pre (fun _ _ _ _ => rfl) hwf []
  have htpl : buildURLTemplate (pre ++ "<*:.*>".toList) =
      some (s1.acc ++ s1.lit ++ "<*>".toList) := by
    rw [buildURLTemplate_eq_stream, stream_append, h1, Option.some_bind, htoken,
      stream_token emitTemplate s1 _ h1t hgt]
    have : tokenName "*:.*".toList = ['*'] := by decide
    simp only [emitTemplate, this, Option.map_some']
    simp [Stream.rest]
  -- the segments
  obtain ⟨s2, h2⟩ := (stream_emitCompiled_iff compile pre
    { segments := [], paramNames := [], regexps := [] }).2 hc
  have h2t : s2.tok = none := by
    obtain ⟨s1n, h3, h4⟩ := BothRel_stream compile pre (Stream.init [])
      (Stream.init { segments := [], paramNames := [], regexps := [] }) s2
      ⟨rfl, rfl, rfl, rfl, fun _ => rfl⟩ h2
    rw [h1] at h3
    simp only [Option.some.injEq] at h3
    subst h3
    rw [← h4.2.1]
    exact h1t
  obtain ⟨r, hr⟩ := Option.isSome_iff_exists.1 hdot
  have hr1 : compile ('^' :: ".*".toList) = some r := hr
  have hseg : buildURLTemplate2 compile (pre ++ "<*:.*>".toList) =
      some { paramNames := s2.acc.paramNames ++ [['*']]
             regexps := s2.acc.regexps ++ [some r]
             segments := s2.acc.segments ++ [s2.lit, "<*>".toList] } := by
    rw [buildURLTemplate2_eq_stream, stream_append, h2, Option.some_bind, htoken,
      stream_token (emitCompiled compile) s2 _ h2t hgt]
    have hn : tokenName "*:.*".toList = ['*'] := by decide
    have hx : tokenRegexp "*:.*".toList = some ".*".toList := by decide
    simp only [emitCompiled, hn, hx, hr1, Option.map_some']
    simp [Stream.rest]
  let route : Route ρ :=
    { name := groupPrefix ++ p, path := pre ++ "<*:.*>".toList
      template := s1.acc ++ s1.lit ++ "<*>".toList
      segments := s2.acc.segments ++ [s2.lit, "<*>".toList]
      paramNames := s2.acc.paramNames ++ [['*']]
      regexps := s2.acc.regexps ++ [some r] }
  refine ⟨route, fun k => if k = groupPrefix ++ p then some route else routes k, ?_, ?_⟩
  · simp only [newRoute, hlast, if_true, hdrop, htpl, hseg, Option.bind_eq_bind,
      Option.some_bind, route]
  · refine ⟨rfl, rfl, by simp [route], by simp [route], ?_, by simp, fun k hk => by simp [hk]⟩
    exact ⟨s1.acc ++ s1.lit, rfl⟩

theorem newRoute_trailing_star_witness :
    ∃ route routes1,
      newRoute sampleCompile "/api".toList "/<id:\\d+>/files/*".toList (fun _ => none) =
        some (route, routes1) ∧
      route.path = "/api/<id:\\d+>/files/".toList ++ "<*:.*>".toList ∧
      route.name = "/api".toList ++ "/<id:\\d+>/files/*".toList ∧
      route.paramNames.getLast? = some ['*'] ∧
      route.segments.getLast? = some "<*>".toList ∧
      "<*>".toList <:+ route.template ∧
      routes1 ("/api".toList ++ "/<id:\\d+>/files/*".toList) = some route ∧
      (∀ k, k ≠ "/api".toList ++ "/<id:\\d+>/files/*".toList →
        routes1 k = (fun _ => none) k) :=
  newRoute_trailing_star sampleCompile "/api".toList "/<id:\\d+>/files/*".toList
    "/api/<id:\\d+>/files/".toList (fun _ => none) (by decide)
    (closed_of_positions _ (by decide)) (by decide) (by decide)

/-! ## Theorems: length of the token held -/

/-- C34 (evaluation): the cookie value `AAAA` decodes to three zero bytes, whose
checksum is right, so `SetToken` accepts it: the token held has length 4, not
`UrlEncodedTokenLen`. On a `Data` from the pool that held the token of an
earlier request, the store key computed from it is the prefix, `AAAA`, and
the last 39 bytes of the earlier token. The cookie value of 44 characters `A`
is accepted as well: the token held has 44 bytes in a new array, and the key
computation reads before the start of that array. -/
theorem Data.SetToken_keeps_other_lengths :
    isValidToken shortToken = true ∧
    (∃ d1, firstData.SetToken shortToken none = some (false, d1) ∧
      d1.token.bytes = shortToken ∧ d1.token.bytes.length = 4 ∧
      d1.token.bytes.length ≠ UrlEncodedTokenLen ∧
      tokenWithPrefix d1.token = some (sessionPrefix ++ shortToken ++ firstToken.drop 4)) ∧
    isValidToken longToken = true ∧
    (∃ d2, Data.new.SetToken longToken none = some (false, d2) ∧
      d2.token.bytes = longToken ∧ d2.token.bytes.length = 44 ∧
      tokenWithPrefix d2.token = none) := by
  refine ⟨by decide, ⟨_, rfl, by decide, by decide, by decide, by decide⟩,
    by decide, ⟨_, rfl, by decide, by decide, by decide⟩⟩

/-! ## Theorems: Redis store -/

/-- C35 (evaluation): on an empty Redis, `Commit(t, data)` writes the record
under the key `t`, where `Find(t)` and a second `Commit` find it; `FindCtx(t)`
asks for the key `prefix+t` and reports the record as absent; `Delete(t)`
unlinks the key `prefix+t`, so the record stays and `Find(t)` still returns
it; `DeleteCtx(t)` removes it. -/
theorem RedisStore_keys_differ :
    (sampleRedisStore.Commit [] sampleKey sampleRecord 100 true).1 =
      [(sampleKey, sampleRecord)] ∧
    sampleRedisStore.Find [(sampleKey, sampleRecord)] sampleKey =
      ([(sampleKey, sampleRecord)], sampleRecord, true, none) ∧
    sampleRedisStore.FindCtx [(sampleKey, sampleRecord)] sampleKey =
      ([(sampleKey, sampleRecord)], [], false, none) ∧
    sampleRedisStore.Delete [(sampleKey, sampleRecord)] sampleKey =
      ([(sampleKey, sampleRecord)], none) ∧
    sampleRedisStore.Find (sampleRedisStore.Delete (sampleRedisStore.Commit [] sampleKey
        sampleRecord 100 true).1 sampleKey).1 sampleKey =
      ([(sampleKey, sampleRecord)], sampleRecord, true, none) ∧
    sampleRedisStore.DeleteCtx [(sampleKey, sampleRecord)] sampleKey = ([], none) ∧
    sampleRedisStore.Delete [(sessionPrefix ++ sampleKey, sampleRecord)] sampleKey =
      ([], none) := by
  refine ⟨?_, ?_, ?_, ?_, ?_, ?_, ?_⟩ <;> decide

/-- C39 (evaluation): on an empty Redis, whose `SCAN` answers cursor 0 and no
element, `AllCtx` does not return: its loop continues with the cursor it had,
so that every amount of fuel runs out. With one record it returns that
record. `All` on the same record leaves its loop when the cursor of the page
is 0, before it reads the elements of the page, and returns a nil map. -/
theorem RedisStore.AllCtx_spins_on_empty_page :
    (∀ fuel, sampleRedisStore.AllCtx fuel [] = none) ∧
    (∀ fuel all, RedisStore.AllCtx.loop sampleRedisStore (fuel + 1) [] 0 all =
      RedisStore.AllCtx.loop sampleRedisStore fuel [] 0 all) ∧
    sampleRedisStore.AllCtx 1 [(sampleKey, sampleRecord)] =
      some (some ([(sampleKey, sampleRecord)], Except.ok (some [(sampleToken, sampleRecord)]))) ∧
    sampleRedisStore.All 1 [(sampleKey, sampleRecord)] =
      some (some ([(sampleKey, sampleRecord)], Except.ok none)) := by
  have hstep : ∀ fuel all, RedisStore.AllCtx.loop sampleRedisStore (fuel + 1) [] 0 all =
      RedisStore.AllCtx.loop sampleRedisStore fuel [] 0 all := fun _ _ => rfl
  refine ⟨?_, hstep, rfl, rfl⟩
  intro fuel
  unfold RedisStore.AllCtx
  induction fuel with
  | zero => rfl
  | succ n ih => rw [hstep]; exact ih

/-! ## Theorems: host and port of an address -/

theorem strings.LastIndex_join (ip port : List Char) (c : Char) (hp : c ∉ port) :
    strings.LastIndex (ip ++ c :: port) c = ip.length := by
  have hmem : c ∈ ip ++ c :: port := by simp
  have hrev : (ip ++ c :: port).reverse = port.reverse ++ c :: ip.reverse := by simp
  have hnot : c ∉ port.reverse := by simpa using hp
  simp only [strings.LastIndex, hmem, if_true, hrev,
    List.indexOf_append_of_not_mem hnot, List.indexOf_cons_self, List.length_append,
    List.length_cons, List.length_reverse]
  push_cast
  omega

/-- For every `ip` without `:` that does not start with `[`, and every `port`
without `:`, `SplitIpAndPort(ip + ":" + port)` returns `(ip, port, nil)`. -/
theorem SplitIpAndPort_join (ip port : List Char) (hi : ':' ∉ ip) (hb : ip.head? ≠ some '[')
    (hp : ':' ∉ port) : SplitIpAndPort (ip ++ ':' :: port) = some (ip, port, none) := by
  have hcount : strings.Count (ip ++ ':' :: port) ':' = 1 := by
    simp [strings.Count, List.count_eq_zero_of_not_mem hi, List.count_eq_zero_of_not_mem hp]
  have hlast := strings.LastIndex_join ip port ':' hp
  have hhead : ∃ c0, (ip ++ ':' :: port)[0]? = some c0 ∧ c0 ≠ '[' := by
    cases ip with
    | nil => exact ⟨':', by simp, by decide⟩
    | cons a t =>
      refine ⟨a, by simp, ?_⟩
      intro h
      exact hb (by simp [h])
  obtain ⟨c0, h0, hne⟩ := hhead
  have hip : goSlice (ip ++ ':' :: port) 0 ip.length = some ip := by
    have hc : (0 : Int) ≤ 0 ∧ (0 : Int) ≤ (ip.length : Int) ∧
        (ip.length : Int) ≤ ((ip ++ ':' :: port).length : Int) := by
      refine ⟨le_refl _, by omega, ?_⟩
      simp only [List.length_append, List.length_cons]
      push_cast
      omega
    simp only [goSlice, hc, and_self, if_true]
    simp
  have hport : goSlice (ip ++ ':' :: port) ((ip.length : Int) + 1)
      ((ip ++ ':' :: port).length : Int) = some port := by
    have hc : (0 : Int) ≤ (ip.length : Int) + 1 ∧
        (ip.length : Int) + 1 ≤ ((ip ++ ':' :: port).length : Int) ∧
        ((ip ++ ':' :: port).length : Int) ≤ ((ip ++ ':' :: port).length : Int) := by
      refine ⟨by omega, ?_, le_refl _⟩
      simp only [List.length_append, List.length_cons]
      push_cast
      omega
    have e : ((ip.length : Int) + 1).toNat = ip.length + 1 := by omega
    simp only [goSlice, hc, and_self, if_true, e]
    simp
    omega
  simp only [SplitIpAndPort, h0, hne, if_false, hcount, true_or, if_true, hlast, hip, hport,
    Option.bind_eq_bind, Option.some_bind]

/-- C40 (evaluation): `SplitIpAndPort("")` panics: `addr[0]` is read before the
length is looked at. The bytes of a missing `Host` header reach it through
`Ctx.Host`. An address `ip:port` is split, and so is `[ip]:port`. -/
theorem SplitIpAndPort_panics_on_empty :
    SplitIpAndPort [] = none ∧ Ctx.hostFromHeader [] = none ∧
    SplitIpAndPort "example.com:8080".toList =
      some ("example.com".toList, "8080".toList, none) ∧
    SplitIpAndPort "[::1]:80".toList = some ("::1".toList, "80".toList, none) ∧
    SplitIpAndPort "[::1]".toList = some ("::1".toList, [], none) ∧
    SplitIpAndPort "[::1]:".toList = some ("::1".toList, [], some InvalidIP) ∧
    SplitIpAndPort "a:b:c".toList = some ([], [], some InvalidIP) := by
  refine ⟨rfl, rfl, ?_, ?_, ?_, ?_, ?_⟩ <;> decide

end Wx
